import Mathlib

/-!
Verification development for `ifaplib` (IMAP File Access Protocol).

This file shallowly embeds the Python 2 source of `src/ifaplib/__init__.py`
into Lean 4 and proves properties of the embedded definitions.

Embedding conventions:
* Python byte strings (`str` in Python 2) are modelled as Lean `String`
  values, assumed to hold one `Char` per byte.  The well-formedness
  predicates used in universal theorems restrict characters to the ASCII
  range, which is where the byte/char correspondence is exact.
* JSON values, as handled by the Python `json` module, are modelled by the
  inductive `JVal`.  JSON numbers are restricted to integers (the only
  numeric shape the library itself produces) and object keys to strings.
* `json.dumps(obj, indent=1)` under Python 2 is modelled by `jdumpL`.
  Python 2 keeps the default item separator `", "` even with `indent`,
  which produces a trailing space before each newline; the model
  reproduces this faithfully.
* Python dicts are modelled as association lists in insertion order with
  unique keys; assignment to an existing key replaces in place, assignment
  to a fresh key appends.
* The `cryptography.fernet.Fernet` object is modelled by an abstract pair
  of functions (`FernetM`); theorems that depend on its behaviour take the
  library's documented contract (decrypt inverts encrypt, tokens are
  urlsafe-base64 text) as explicit hypotheses.  Python 2's base64 decoder
  silently discards characters outside the base64 alphabet, which is
  modelled by filtering the token before `decrypt`.
-/

set_option maxHeartbeats 2000000
set_option maxRecDepth 8000

namespace Ifaplib

/-- JSON values as produced by the Python json module.  Numbers are
restricted to integers and object keys to strings, which covers every value
this library constructs. -/
inductive JVal : Type where
  | jnull : JVal
  | jbool : Bool → JVal
  | jnum : Int → JVal
  | jstr : String → JVal
  | jarr : List JVal → JVal
  | jobj : List (String × JVal) → JVal

instance : Inhabited JVal := ⟨.jnull⟩

mutual
/-- Boolean (structural) equality on JSON values. -/
def beqV : JVal → JVal → Bool
  | .jnull, .jnull => true
  | .jbool a, .jbool b => a == b
  | .jnum a, .jnum b => a == b
  | .jstr a, .jstr b => a == b
  | .jarr a, .jarr b => beqA a b
  | .jobj a, .jobj b => beqO a b
  | _, _ => false

/-- Boolean equality on JSON arrays. -/
def beqA : List JVal → List JVal → Bool
  | [], [] => true
  | x :: xs, y :: ys => beqV x y && beqA xs ys
  | _, _ => false

/-- Boolean equality on JSON object member lists. -/
def beqO : List (String × JVal) → List (String × JVal) → Bool
  | [], [] => true
  | (k, x) :: xs, (k2, y) :: ys => k == k2 && beqV x y && beqO xs ys
  | _, _ => false
end

mutual
/-- `beqV` decides propositional equality. -/
theorem beqV_eq : ∀ a b : JVal, beqV a b = true ↔ a = b
  | .jnull, b => by cases b <;> simp [beqV]
  | .jbool x, b => by cases b <;> simp [beqV]
  | .jnum x, b => by cases b <;> simp [beqV]
  | .jstr x, b => by cases b <;> simp [beqV]
  | .jarr xs, b => by
      cases b <;> simp [beqV]
      exact beqA_eq xs _
  | .jobj xs, b => by
      cases b <;> simp [beqV]
      exact beqO_eq xs _
  termination_by v _ => sizeOf v

/-- `beqA` decides propositional equality. -/
theorem beqA_eq : ∀ a b : List JVal, beqA a b = true ↔ a = b
  | [], b => by cases b <;> simp [beqA]
  | x :: xs, b => by
      cases b with
      | nil => simp [beqA]
      | cons y ys =>
          simp only [beqA, Bool.and_eq_true, List.cons.injEq]
          exact and_congr (beqV_eq x y) (beqA_eq xs ys)
  termination_by v _ => sizeOf v

/-- `beqO` decides propositional equality. -/
theorem beqO_eq : ∀ a b : List (String × JVal), beqO a b = true ↔ a = b
  | [], b => by cases b <;> simp [beqO]
  | (k, x) :: xs, b => by
      cases b with
      | nil => simp [beqO]
      | cons y ys =>
          obtain ⟨k2, y2⟩ := y
          simp only [beqO, Bool.and_eq_true, List.cons.injEq, Prod.mk.injEq,
            beq_iff_eq]
          rw [beqV_eq x y2, beqO_eq xs ys, and_assoc]
  termination_by v _ => sizeOf v
end

instance : DecidableEq JVal := fun a b => decidable_of_iff _ (beqV_eq a b)

/-- A parsed metadata dictionary: a Python dict in insertion order. -/
abbrev Metadata := List (String × JVal)

/-- Python dict lookup `d.get(k)` on an association list. -/
def alookup {β : Type} [DecidableEq String] : List (String × β) → String → Option β
  | [], _ => none
  | (k, v) :: t, x => if k = x then some v else alookup t x

/-- Python dict assignment `d[k] = v`: replace in place if the key exists,
append otherwise. -/
def aupsert {β : Type} : List (String × β) → String → β → List (String × β)
  | [], x, y => [(x, y)]
  | (k, v) :: t, x, y => if k = x then (k, y) :: t else (k, v) :: aupsert t x y

/-- Python dict deletion `del d[k]` (a no-op when the key is absent, matching
the guarded deletes in the source). -/
def aerase {β : Type} (l : List (String × β)) (x : String) : List (String × β) :=
  l.filter (fun kv => !(kv.1 = x : Bool))

/-- Whitespace for Python `str.strip()` with no arguments. -/
def isPyWs (c : Char) : Bool :=
  c = ' ' || c = '\t' || c = '\n' || c = '\r' || c = '\x0b' || c = '\x0c'

/-- Whitespace accepted between JSON tokens (`json` module / RFC 8259). -/
def isJsonWs (c : Char) : Bool :=
  c = ' ' || c = '\t' || c = '\n' || c = '\r'

/-- Drop leading characters while the predicate holds. -/
def dropWhileB (p : Char → Bool) : List Char → List Char
  | [] => []
  | c :: t => if p c then dropWhileB p t else c :: t

/-- Python `s.strip()` on a character list. -/
def pyStripL (l : List Char) : List Char :=
  ((dropWhileB isPyWs l).reverse |> dropWhileB isPyWs).reverse

/-- Lowercase hexadecimal digit for `0 ≤ n < 16`. -/
def hexDigitCh (n : Nat) : Char :=
  if n < 10 then Char.ofNat (48 + n) else Char.ofNat (87 + n)

/-- Four lowercase hex digits, as in a JSON `\uXXXX` escape. -/
def hex4 (n : Nat) : List Char :=
  [hexDigitCh (n / 4096 % 16), hexDigitCh (n / 256 % 16),
   hexDigitCh (n / 16 % 16), hexDigitCh (n % 16)]

/-- JSON string escaping as done by Python `json.dumps` with
`ensure_ascii=True`: printable ASCII other than quote and backslash is kept,
the named short escapes are used where they exist, everything else becomes
`\uXXXX`.  (Characters beyond U+FFFF, which Python renders as surrogate
pairs, are rendered as a single escape here; the well-formedness predicate
used by the round-trip theorems excludes them.) -/
def escChar (c : Char) : List Char :=
  if c = '"' then ['\\', '"']
  else if c = '\\' then ['\\', '\\']
  else if c = '\n' then ['\\', 'n']
  else if c = '\r' then ['\\', 'r']
  else if c = '\t' then ['\\', 't']
  else if c.toNat = 8 then ['\\', 'b']
  else if c.toNat = 12 then ['\\', 'f']
  else if 32 ≤ c.toNat && c.toNat ≤ 126 then [c]
  else '\\' :: 'u' :: hex4 c.toNat

/-- Escape a whole string for a JSON string literal. -/
def escStr (s : String) : List Char :=
  (s.data.map escChar).flatten

/-- Decimal digits of a natural number, most significant first, as written
by Python `str`. -/
def natChars (n : Nat) : List Char :=
  if n = 0 then ['0']
  else ((Nat.digits 10 n).map (fun d => Char.ofNat (48 + d))).reverse

/-- Python `str` of an integer. -/
def intChars (i : Int) : List Char :=
  if i < 0 then '-' :: natChars i.natAbs else natChars i.natAbs

/-- Indentation emitted by `json.dumps(-, indent=1)` at nesting level
`lvl`: one space per level. -/
def ind (lvl : Nat) : List Char := List.replicate lvl ' '

mutual
/-- Rendering of `json.dumps(v, indent=1)` under Python 2, generalised over
the newline text `nl`.  With `nl = ['\n']` this is exactly the Python
output; other all-whitespace `nl` values arise after header reflowing.
Python 2 keeps the default item separator `", "` before each newline. -/
def jdumpV (nl : List Char) (lvl : Nat) : JVal → List Char
  | .jnull => ['n', 'u', 'l', 'l']
  | .jbool true => ['t', 'r', 'u', 'e']
  | .jbool false => ['f', 'a', 'l', 's', 'e']
  | .jnum i => intChars i
  | .jstr s => '"' :: (escStr s ++ ['"'])
  | .jarr [] => ['[', ']']
  | .jarr (x :: xs) =>
      '[' :: (nl ++ ind (lvl + 1) ++ jdumpItemsL nl (lvl + 1) (x :: xs)
        ++ nl ++ ind lvl ++ [']'])
  | .jobj [] => ['\x7b', '\x7d']
  | .jobj (kv :: kvs) =>
      '\x7b' :: (nl ++ ind (lvl + 1) ++ jdumpFieldsL nl (lvl + 1) (kv :: kvs)
        ++ nl ++ ind lvl ++ ['\x7d'])

/-- Comma-separated array items, each preceded on continuation by the
separator `", " ++ nl ++ indent`. -/
def jdumpItemsL (nl : List Char) (lvl : Nat) : List JVal → List Char
  | [] => []
  | [x] => jdumpV nl lvl x
  | x :: y :: ys =>
      jdumpV nl lvl x ++ (',' :: ' ' :: (nl ++ ind lvl))
        ++ jdumpItemsL nl lvl (y :: ys)

/-- Comma-separated object fields `"key": value`. -/
def jdumpFieldsL (nl : List Char) (lvl : Nat) :
    List (String × JVal) → List Char
  | [] => []
  | [(k, x)] => '"' :: (escStr k ++ ('"' :: ':' :: ' ' :: jdumpV nl lvl x))
  | (k, x) :: y :: ys =>
      ('"' :: (escStr k ++ ('"' :: ':' :: ' ' :: jdumpV nl lvl x)))
        ++ (',' :: ' ' :: (nl ++ ind lvl)) ++ jdumpFieldsL nl lvl (y :: ys)
end

/-- The items rendering, presented with the first item split off (the
form the round-trip proofs use). -/
def jdumpItems (nl : List Char) (lvl : Nat) (x : JVal) (xs : List JVal) :
    List Char :=
  jdumpItemsL nl lvl (x :: xs)

/-- The fields rendering, presented with the first field split off. -/
def jdumpFields (nl : List Char) (lvl : Nat) (kv : String × JVal)
    (kvs : List (String × JVal)) : List Char :=
  jdumpFieldsL nl lvl (kv :: kvs)

/-- `json.dumps(v, indent=1)` under Python 2, as a character list. -/
def jdumpL (v : JVal) : List Char := jdumpV ['\n'] 0 v

/-- `json.dumps(dict, indent=1)` of a metadata dict, as a `String`. -/
def jdumpStr (m : Metadata) : String := ⟨jdumpL (.jobj m)⟩

/-! ### A JSON parser, modelling `json.loads`

The parser accepts the full grammar the library can meet, with numbers
restricted to integers (the only numbers `ifaplib` writes; a float in the
input makes the model reject where Python would succeed, a restriction
recorded in the `JVal` doc comment). -/

/-- Skip JSON inter-token whitespace. -/
def skipWs : List Char → List Char
  | c :: t => if isJsonWs c then skipWs t else c :: t
  | [] => []

/-- ASCII decimal digit test. -/
def isDigitCh (c : Char) : Bool := 48 ≤ c.toNat && c.toNat ≤ 57

/-- Split off a maximal run of leading decimal digits. -/
def takeDigits : List Char → List Char × List Char
  | c :: t =>
      if isDigitCh c then
        let (ds, r) := takeDigits t
        (c :: ds, r)
      else ([], c :: t)
  | [] => ([], [])

/-- Value of a digit run, most significant digit first. -/
def digitsVal (l : List Char) : Nat :=
  l.foldl (fun a c => a * 10 + (c.toNat - 48)) 0

/-- Parse a JSON integer (an optional minus sign and a digit run). -/
def parseNum (l : List Char) : Option (Int × List Char) :=
  match l with
  | [] => none
  | c :: r =>
      if c = '-' then
        match takeDigits r with
        | ([], _) => none
        | (ds, r2) => some (-(digitsVal ds : Int), r2)
      else
        match takeDigits (c :: r) with
        | ([], _) => none
        | (ds, r2) => some ((digitsVal ds : Int), r2)

/-- Value of one hexadecimal digit. -/
def hexVal (c : Char) : Option Nat :=
  if 48 ≤ c.toNat && c.toNat ≤ 57 then some (c.toNat - 48)
  else if 97 ≤ c.toNat && c.toNat ≤ 102 then some (c.toNat - 87)
  else if 65 ≤ c.toNat && c.toNat ≤ 70 then some (c.toNat - 55)
  else none

/-- Decode a short escape character. -/
def unescCh (c : Char) : Option Char :=
  if c = '"' then some '"'
  else if c = '\\' then some '\\'
  else if c = '/' then some '/'
  else if c = 'n' then some '\n'
  else if c = 'r' then some '\r'
  else if c = 't' then some '\t'
  else if c = 'b' then some (Char.ofNat 8)
  else if c = 'f' then some (Char.ofNat 12)
  else none

/-- Parse the body of a JSON string after the opening quote, returning the
decoded characters and the rest of the input after the closing quote. -/
def parseStrBody : List Char → Option (List Char × List Char)
  | [] => none
  | '\\' :: 'u' :: a :: b :: c :: d :: t => do
      let va ← hexVal a
      let vb ← hexVal b
      let vc ← hexVal c
      let vd ← hexVal d
      let (s, r) ← parseStrBody t
      pure (Char.ofNat (((va * 16 + vb) * 16 + vc) * 16 + vd) :: s, r)
  | '\\' :: e :: t => do
      let ch ← unescCh e
      let (s, r) ← parseStrBody t
      pure (ch :: s, r)
  | c :: t =>
      if c = '"' then some ([], t)
      else do
        let (s, r) ← parseStrBody t
        pure (c :: s, r)

mutual
/-- Parse one JSON value (fuelled; fuel exceeding the input length always
suffices). -/
def parseVal : Nat → List Char → Option (JVal × List Char)
  | 0, _ => none
  | fuel + 1, l =>
      match skipWs l with
      | 'n' :: 'u' :: 'l' :: 'l' :: r => some (.jnull, r)
      | 't' :: 'r' :: 'u' :: 'e' :: r => some (.jbool true, r)
      | 'f' :: 'a' :: 'l' :: 's' :: 'e' :: r => some (.jbool false, r)
      | '"' :: r =>
          match parseStrBody r with
          | some (cs, r2) => some (.jstr ⟨cs⟩, r2)
          | none => none
      | '[' :: r =>
          (match skipWs r with
           | d :: t =>
               if d = ']' then some (.jarr [], t)
               else
                 match parseArrItems fuel (d :: t) with
                 | some (vs, r2) => some (.jarr vs, r2)
                 | none => none
           | [] => none)
      | '\x7b' :: r =>
          (match skipWs r with
           | d :: t =>
               if d = '\x7d' then some (.jobj [], t)
               else
                 match parseObjItems fuel (d :: t) with
                 | some (ms, r2) => some (.jobj ms, r2)
                 | none => none
           | [] => none)
      | c :: r =>
          if c = '-' || isDigitCh c then
            match parseNum (c :: r) with
            | some (i, r2) => some (.jnum i, r2)
            | none => none
          else none
      | [] => none

/-- Parse one-or-more comma-separated array items up to the closing
bracket. -/
def parseArrItems : Nat → List Char → Option (List JVal × List Char)
  | 0, _ => none
  | fuel + 1, l =>
      match parseVal fuel l with
      | none => none
      | some (v, r) =>
          match skipWs r with
          | c :: t =>
              if c = ']' then some ([v], t)
              else if c = ',' then
                match parseArrItems fuel t with
                | some (vs, r2) => some (v :: vs, r2)
                | none => none
              else none
          | [] => none

/-- Parse one-or-more comma-separated object members up to the closing
brace. -/
def parseObjItems : Nat → List Char → Option (List (String × JVal) × List Char)
  | 0, _ => none
  | fuel + 1, l =>
      match skipWs l with
      | '"' :: r =>
          match parseStrBody r with
          | some (kcs, r1) =>
              (match skipWs r1 with
               | ':' :: r2 =>
                   (match parseVal fuel r2 with
                    | some (v, r3) =>
                        (match skipWs r3 with
                         | c :: t =>
                             if c = '\x7d' then some ([(⟨kcs⟩, v)], t)
                             else if c = ',' then
                               match parseObjItems fuel t with
                               | some (ms, r4) => some ((⟨kcs⟩, v) :: ms, r4)
                               | none => none
                             else none
                         | [] => none)
                    | none => none)
               | _ => none)
          | none => none
      | _ => none
end

/-- Parse a complete JSON document from a character list, requiring the
whole input to be consumed (as `json.loads` does). -/
def jparseL (l : List Char) : Option JVal :=
  match parseVal (l.length + 1) l with
  | some (v, r) => if (skipWs r).isEmpty then some v else none
  | none => none

/-- `json.loads` on a string. -/
def jparse (s : String) : Option JVal := jparseL s.data

/-! ### Round-trip of the printer and parser

The library serialises every metadata dict with `json.dumps(-, indent=1)`
and recovers it with `json.loads` after the header value travelled through
reflowing (which rewrites each newline to `"\r\n "`).  The theorems below
show that parsing recovers the exact value for any all-whitespace newline
text, which covers both the unreflowed and the reflowed form. -/

/-- A character usable in the byte-string model: ASCII only. -/
def wfChar (c : Char) : Bool := c.toNat < 128

/-- A string usable in the byte-string model. -/
def wfStr (s : String) : Bool := s.data.all wfChar

mutual
/-- Well-formedness of a JSON value for the byte-string model: every string
(and key) is ASCII. -/
def wfJ : JVal → Bool
  | .jnull => true
  | .jbool _ => true
  | .jnum _ => true
  | .jstr s => wfStr s
  | .jarr l => wfA l
  | .jobj l => wfO l

/-- All members of a JSON array are well formed. -/
def wfA : List JVal → Bool
  | [] => true
  | x :: xs => wfJ x && wfA xs

/-- All members of a JSON object are well formed. -/
def wfO : List (String × JVal) → Bool
  | [] => true
  | (k, x) :: xs => wfStr k && wfJ x && wfO xs
end

/-- Every character of the text is JSON whitespace. -/
def wsOnly (l : List Char) : Bool := l.all isJsonWs

/-- The input does not begin with a decimal digit (so it cannot extend a
number token). -/
def noLeadDigit : List Char → Bool
  | [] => true
  | c :: _ => !isDigitCh c

theorem char_toNat_ofNat {n : Nat} (h : n.isValidChar) :
    (Char.ofNat n).toNat = n := by
  simp only [Char.ofNat, h, dite_true]
  unfold Char.ofNatAux
  rfl

theorem stringEta (s : String) : (⟨s.data⟩ : String) = s := by
  cases s
  rfl

theorem skipWs_cons_ws {c : Char} (h : isJsonWs c = true) (l : List Char) :
    skipWs (c :: l) = skipWs l := by
  simp [skipWs, h]

theorem skipWs_cons_not {c : Char} (h : isJsonWs c = false) (l : List Char) :
    skipWs (c :: l) = c :: l := by
  simp [skipWs, h]

theorem skipWs_append_ws {ws : List Char} (h : wsOnly ws = true)
    (l : List Char) : skipWs (ws ++ l) = skipWs l := by
  induction ws with
  | nil => rfl
  | cons c t ih =>
      simp only [wsOnly, List.all_cons, Bool.and_eq_true] at h
      rw [List.cons_append, skipWs_cons_ws h.1,
        ih (by simp [wsOnly, h.2])]

theorem wsOnly_ind (lvl : Nat) : wsOnly (ind lvl) = true := by
  rw [wsOnly, List.all_eq_true]
  intro c hc
  have hc2 := List.eq_of_mem_replicate (show c ∈ List.replicate lvl ' ' from hc)
  subst hc2
  decide

theorem isJsonWs_not_digit {c : Char} (h : isJsonWs c = true) :
    isDigitCh c = false := by
  simp only [isJsonWs, Bool.or_eq_true, decide_eq_true_eq] at h
  rcases h with ((h | h) | h) | h <;> subst h <;> decide

theorem noLeadDigit_ws_append {ws : List Char} (h : wsOnly ws = true)
    {l : List Char} (hl : noLeadDigit l = true) :
    noLeadDigit (ws ++ l) = true := by
  cases ws with
  | nil => simpa using hl
  | cons c t =>
      simp only [wsOnly, List.all_cons, Bool.and_eq_true] at h
      simp [noLeadDigit, isJsonWs_not_digit h.1]

/-! Digit runs and integers. -/

theorem digit_lt_valid {d : Nat} (h : d < 10) : (48 + d).isValidChar :=
  Or.inl (by omega)

theorem toNat_digitChar {d : Nat} (h : d < 10) :
    (Char.ofNat (48 + d)).toNat = 48 + d :=
  char_toNat_ofNat (digit_lt_valid h)

theorem isDigitCh_digitChar {d : Nat} (h : d < 10) :
    isDigitCh (Char.ofNat (48 + d)) = true := by
  simp [isDigitCh, toNat_digitChar h]
  omega

theorem natChars_ne_nil (n : Nat) : natChars n ≠ [] := by
  unfold natChars
  split
  · simp
  · simp only [ne_eq, List.reverse_eq_nil_iff, List.map_eq_nil_iff]
    exact Nat.digits_ne_nil_iff_ne_zero.mpr (by assumption)

theorem natChars_all_digits (n : Nat) :
    ∀ c ∈ natChars n, isDigitCh c = true := by
  unfold natChars
  split
  · intro c hc
    simp only [List.mem_singleton] at hc
    subst hc
    decide
  · intro c hc
    simp only [List.mem_reverse, List.mem_map] at hc
    obtain ⟨d, hd, rfl⟩ := hc
    exact isDigitCh_digitChar (Nat.digits_lt_base (by norm_num) hd)

theorem takeDigits_stop {l : List Char} (h : noLeadDigit l = true) :
    takeDigits l = ([], l) := by
  cases l with
  | nil => rfl
  | cons c t =>
      simp only [noLeadDigit, Bool.not_eq_true'] at h
      simp [takeDigits, h]

theorem takeDigits_append {ds : List Char}
    (hds : ∀ c ∈ ds, isDigitCh c = true) {l : List Char}
    (hl : noLeadDigit l = true) : takeDigits (ds ++ l) = (ds, l) := by
  induction ds with
  | nil => simpa using takeDigits_stop hl
  | cons c t ih =>
      have hc := hds c (by simp)
      have ht := ih (fun x hx => hds x (by simp [hx]))
      simp [takeDigits, hc, ht]

theorem foldl_digits_eq (a : Nat) :
    ∀ L : List Nat, (∀ d ∈ L, d < 10) →
      List.foldl (fun x c => x * 10 + (c.toNat - 48)) a
          ((L.map (fun d => Char.ofNat (48 + d))).reverse)
        = a * 10 ^ L.length + Nat.ofDigits 10 L
  | [], _ => by simp
  | d :: L, h => by
      have hd : d < 10 := h d (by simp)
      have hL : ∀ x ∈ L, x < 10 := fun x hx => h x (by simp [hx])
      simp only [List.map_cons, List.reverse_cons, List.foldl_append,
        List.foldl_cons, List.foldl_nil, foldl_digits_eq a L hL]
      rw [toNat_digitChar hd]
      simp only [Nat.ofDigits_cons, List.length_cons]
      ring_nf
      omega

theorem digitsVal_natChars (n : Nat) : digitsVal (natChars n) = n := by
  unfold natChars digitsVal
  split
  · subst n
    decide
  · rw [foldl_digits_eq 0 _ (fun d hd => Nat.digits_lt_base (by norm_num) hd)]
    simp [Nat.ofDigits_digits]

/-! Strings and escapes. -/

theorem hexVal_hexDigitCh (d : Nat) (h : d < 16) :
    hexVal (hexDigitCh d) = some d := by
  interval_cases d <;> decide

/-- Escaping a list of characters for a JSON string literal. -/
def escL (l : List Char) : List Char := (l.map escChar).flatten

theorem escStr_eq (s : String) : escStr s = escL s.data := rfl

theorem parseStrBody_cons_plain {c : Char} (hbs : ¬(c = '\\'))
    (hq : ¬(c = '"')) (l : List Char) :
    parseStrBody (c :: l) = (parseStrBody l).map (fun p => (c :: p.1, p.2)) := by
  rw [parseStrBody.eq_def]
  split
  · next heq => simp at heq
  · next heq => exact absurd (List.cons.inj heq).1 hbs
  · next heq => exact absurd (List.cons.inj heq).1 hbs
  · next heq =>
      obtain ⟨h1, h2⟩ := List.cons.inj heq
      subst h1
      subst h2
      rw [if_neg hq]
      cases hp : parseStrBody l <;> simp [bind, hp]

theorem parseStrBody_escChar (c : Char) (hwf : wfChar c = true)
    (rest : List Char) :
    parseStrBody (escChar c ++ rest)
      = (parseStrBody rest).map (fun p => (c :: p.1, p.2)) := by
  have hc128 : c.toNat < 128 := by
    simpa [wfChar] using hwf
  by_cases hq : c = '"'
  · subst hq
    have harg : escChar '"' ++ rest = '\\' :: '"' :: rest := by
      simp [escChar]
    rw [harg, parseStrBody.eq_def]
    simp only [unescCh, if_pos rfl]
    cases hp : parseStrBody rest <;> simp [bind, hp]
  · by_cases hbs : c = '\\'
    · subst hbs
      have harg : escChar '\\' ++ rest = '\\' :: '\\' :: rest := by
        simp [escChar]
      rw [harg, parseStrBody.eq_def]
      simp only [unescCh]
      norm_num
      cases hp : parseStrBody rest <;> simp [bind, hp]
    · by_cases hnl : c = '\n'
      · subst hnl
        have harg : escChar '\n' ++ rest = '\\' :: 'n' :: rest := by
          simp [escChar]
        rw [harg, parseStrBody.eq_def]
        simp only [unescCh]
        norm_num
        cases hp : parseStrBody rest <;> simp [bind, hp]
      · by_cases hcr : c = '\r'
        · subst hcr
          have harg : escChar '\r' ++ rest = '\\' :: 'r' :: rest := by
            simp [escChar]
          rw [harg, parseStrBody.eq_def]
          simp only [unescCh]
          norm_num
          cases hp : parseStrBody rest <;> simp [bind, hp]
        · by_cases htb : c = '\t'
          · subst htb
            have harg : escChar '\t' ++ rest = '\\' :: 't' :: rest := by
              simp [escChar]
            rw [harg, parseStrBody.eq_def]
            simp only [unescCh]
            norm_num
            cases hp : parseStrBody rest <;> simp [bind, hp]
          · by_cases h8 : c.toNat = 8
            · have hc : c = Char.ofNat 8 := by
                rw [← h8, Char.ofNat_toNat]
              subst hc
              have harg : escChar (Char.ofNat 8) ++ rest
                  = '\\' :: 'b' :: rest := by
                simp +decide [escChar]
              rw [harg, parseStrBody.eq_def]
              simp only [unescCh]
              norm_num
              cases hp : parseStrBody rest <;> simp [bind, hp]
            · by_cases h12 : c.toNat = 12
              · have hc : c = Char.ofNat 12 := by
                  rw [← h12, Char.ofNat_toNat]
                subst hc
                have harg : escChar (Char.ofNat 12) ++ rest
                    = '\\' :: 'f' :: rest := by
                  simp +decide [escChar]
                rw [harg, parseStrBody.eq_def]
                simp only [unescCh]
                norm_num
                cases hp : parseStrBody rest <;> simp [bind, hp]
              · by_cases hpr : (32 ≤ c.toNat && c.toNat ≤ 126) = true
                · have harg : escChar c ++ rest = c :: rest := by
                    simp only [escChar, if_neg hq, if_neg hbs, if_neg hnl,
                      if_neg hcr, if_neg htb, if_neg h8, if_neg h12,
                      if_pos hpr, List.singleton_append]
                  rw [harg]
                  exact parseStrBody_cons_plain hbs hq rest
                · have hdig : ((c.toNat / 4096 % 16 * 16
                        + c.toNat / 256 % 16) * 16
                        + c.toNat / 16 % 16) * 16
                        + c.toNat % 16 = c.toNat := by
                    omega
                  have hm : ∀ k : Nat, k % 16 < 16 := fun k => by omega
                  have harg : escChar c ++ rest
                      = '\\' :: 'u' :: hexDigitCh (c.toNat / 4096 % 16)
                        :: hexDigitCh (c.toNat / 256 % 16)
                        :: hexDigitCh (c.toNat / 16 % 16)
                        :: hexDigitCh (c.toNat % 16) :: rest := by
                    simp only [escChar, if_neg hq, if_neg hbs, if_neg hnl,
                      if_neg hcr, if_neg htb, if_neg h8, if_neg h12,
                      if_neg hpr, hex4, List.cons_append, List.nil_append]
                  rw [harg, parseStrBody.eq_def]
                  simp only [hexVal_hexDigitCh _ (hm _)]
                  simp only [Option.bind_eq_bind, Option.some_bind, hdig,
                    Char.ofNat_toNat]
                  cases hp : parseStrBody rest <;> simp [bind, hp]

theorem parseStrBody_escL : ∀ (l : List Char), l.all wfChar = true →
    ∀ rest : List Char,
      parseStrBody (escL l ++ '"' :: rest) = some (l, rest)
  | [], _, rest => by
      simp [escL, parseStrBody]
  | c :: t, h, rest => by
      simp only [List.all_cons, Bool.and_eq_true] at h
      have step : escL (c :: t) = escChar c ++ escL t := by
        simp [escL]
      rw [step, List.append_assoc, parseStrBody_escChar c h.1,
        parseStrBody_escL t h.2 rest]
      rfl

theorem parseNum_natChars (n : Nat) {rest : List Char}
    (h : noLeadDigit rest = true) :
    parseNum (natChars n ++ rest) = some ((n : Int), rest) := by
  obtain ⟨c, t, hct⟩ : ∃ c t, natChars n = c :: t := by
    cases hn : natChars n with
    | nil => exact absurd hn (natChars_ne_nil n)
    | cons c t => exact ⟨c, t, rfl⟩
  have hcd : isDigitCh c = true := by
    have := natChars_all_digits n
    rw [hct] at this
    exact this c (by simp)
  have hcm : ¬(c = '-') := by
    intro hc
    subst hc
    simp [isDigitCh] at hcd
  have htake3 : takeDigits (c :: (t ++ rest)) = (c :: t, rest) := by
    rw [← List.cons_append, ← hct]
    exact takeDigits_append (natChars_all_digits n) h
  have hval : digitsVal (c :: t) = n := by
    rw [← hct]
    exact digitsVal_natChars n
  rw [hct, List.cons_append]
  simp only [parseNum, if_neg hcm, htake3, hval]

theorem parseNum_intChars (i : Int) {rest : List Char}
    (h : noLeadDigit rest = true) :
    parseNum (intChars i ++ rest) = some (i, rest) := by
  unfold intChars
  split
  · next hneg =>
      obtain ⟨c, t, hct⟩ : ∃ c t, natChars i.natAbs = c :: t := by
        cases hn : natChars i.natAbs with
        | nil => exact absurd hn (natChars_ne_nil _)
        | cons c t => exact ⟨c, t, rfl⟩
      have htake2 : takeDigits (natChars i.natAbs ++ rest) = (c :: t, rest) := by
        rw [takeDigits_append (natChars_all_digits _) h, hct]
      have hval : digitsVal (c :: t) = i.natAbs := by
        rw [← hct]
        exact digitsVal_natChars _
      rw [List.cons_append]
      have h3 : -((i.natAbs : Int)) = i := by omega
      simp only [parseNum, if_true, htake2, hval, h3]
  · next hneg =>
      have h2 : ((i.natAbs : Int)) = i := by omega
      rw [← h2]
      exact parseNum_natChars i.natAbs h

/-! Heads of rendered values, and whitespace-skipping over rendered text. -/

theorem digit_head_facts {c : Char} (h : isDigitCh c = true) :
    isJsonWs c = false ∧ ¬(c = ']') ∧ ¬(c = '\x7d') ∧ ¬(c = ',')
      ∧ ¬(c = 'n') ∧ ¬(c = 't') ∧ ¬(c = 'f') ∧ ¬(c = '"') ∧ ¬(c = '[')
      ∧ ¬(c = '\x7b') := by
  simp only [isDigitCh, Bool.and_eq_true, decide_eq_true_eq] at h
  refine ⟨?_, ?_, ?_, ?_, ?_, ?_, ?_, ?_, ?_, ?_⟩
  · simp only [isJsonWs, Bool.or_eq_false_iff, decide_eq_false_iff_not]
    refine ⟨⟨⟨?_, ?_⟩, ?_⟩, ?_⟩ <;> (intro hc; subst hc; revert h; decide)
  all_goals (intro hc; subst hc; revert h; decide)

/-- Conditions on the head character of rendered output that let the parser
loops recognise where a value starts. -/
def headOk (c : Char) : Prop :=
  isJsonWs c = false ∧ ¬(c = ']') ∧ ¬(c = '\x7d') ∧ ¬(c = ',')

theorem jdumpV_head (nl : List Char) (lvl : Nat) (v : JVal) :
    ∃ c t, jdumpV nl lvl v = c :: t ∧ headOk c := by
  cases v with
  | jnull =>
      exact ⟨'n', ['u', 'l', 'l'], by rw [jdumpV],
        by decide, by decide, by decide, by decide⟩
  | jbool b =>
      cases b with
      | true =>
          exact ⟨'t', ['r', 'u', 'e'], by rw [jdumpV],
            by decide, by decide, by decide, by decide⟩
      | false =>
          exact ⟨'f', ['a', 'l', 's', 'e'], by rw [jdumpV],
            by decide, by decide, by decide, by decide⟩
  | jnum i =>
      by_cases hm : i < 0
      · refine ⟨'-', natChars i.natAbs, ?_, by decide, by decide, by decide,
          by decide⟩
        rw [jdumpV]
        simp [intChars, hm]
      · obtain ⟨c, t, hct⟩ : ∃ c t, natChars i.natAbs = c :: t := by
          cases hn : natChars i.natAbs with
          | nil => exact absurd hn (natChars_ne_nil _)
          | cons c t => exact ⟨c, t, rfl⟩
        have hcd : isDigitCh c = true := by
          have := natChars_all_digits i.natAbs
          rw [hct] at this
          exact this c (by simp)
        obtain ⟨h1, h2, h3, h4, _⟩ := digit_head_facts hcd
        refine ⟨c, t, ?_, h1, h2, h3, h4⟩
        rw [jdumpV]
        simp [intChars, hm, hct]
  | jstr s =>
      exact ⟨'"', escStr s ++ ['"'], by rw [jdumpV],
        by decide, by decide, by decide, by decide⟩
  | jarr l =>
      cases l with
      | nil =>
          exact ⟨'[', [']'], by rw [jdumpV],
            by decide, by decide, by decide, by decide⟩
      | cons x xs =>
          exact ⟨'[', nl ++ ind (lvl + 1) ++ jdumpItems nl (lvl + 1) x xs
              ++ nl ++ ind lvl ++ [']'], by rw [jdumpV]; rfl,
            by decide, by decide, by decide, by decide⟩
  | jobj l =>
      cases l with
      | nil =>
          exact ⟨'\x7b', ['\x7d'], by rw [jdumpV],
            by decide, by decide, by decide, by decide⟩
      | cons kv kvs =>
          exact ⟨'\x7b', nl ++ ind (lvl + 1) ++ jdumpFields nl (lvl + 1) kv kvs
              ++ nl ++ ind lvl ++ ['\x7d'], by rw [jdumpV]; rfl,
            by decide, by decide, by decide, by decide⟩

theorem skipWs_jdumpV (nl : List Char) (lvl : Nat) (v : JVal)
    (x : List Char) :
    skipWs (jdumpV nl lvl v ++ x) = jdumpV nl lvl v ++ x := by
  obtain ⟨c, t, hct, hok⟩ := jdumpV_head nl lvl v
  rw [hct, List.cons_append, skipWs_cons_not hok.1]

theorem parseVal_wsPre (fuel : Nat) {ws : List Char} (h : wsOnly ws = true)
    (l : List Char) : parseVal fuel (ws ++ l) = parseVal fuel l := by
  cases fuel with
  | zero => rfl
  | succ f =>
      rw [parseVal, parseVal, skipWs_append_ws h]

theorem jdumpItems_nil (nl : List Char) (lvl : Nat) (x : JVal) :
    jdumpItems nl lvl x [] = jdumpV nl lvl x := by
  rfl

theorem jdumpItems_cons (nl : List Char) (lvl : Nat) (x y : JVal)
    (ys : List JVal) :
    jdumpItems nl lvl x (y :: ys)
      = jdumpV nl lvl x ++ (',' :: ' ' :: (nl ++ ind lvl))
        ++ jdumpItems nl lvl y ys := by
  rfl

theorem jdumpFields_nil (nl : List Char) (lvl : Nat) (k : String) (x : JVal) :
    jdumpFields nl lvl (k, x) []
      = '"' :: (escStr k ++ ('"' :: ':' :: ' ' :: jdumpV nl lvl x)) := by
  rfl

theorem jdumpFields_cons (nl : List Char) (lvl : Nat) (k : String) (x : JVal)
    (y : String × JVal) (ys : List (String × JVal)) :
    jdumpFields nl lvl (k, x) (y :: ys)
      = ('"' :: (escStr k ++ ('"' :: ':' :: ' ' :: jdumpV nl lvl x)))
        ++ (',' :: ' ' :: (nl ++ ind lvl)) ++ jdumpFields nl lvl y ys := by
  rfl

/-- The text a member list contributes after its first member's value. -/
def tailFields (nl : List Char) (lvl lvl2 : Nat) :
    List (String × JVal) → List Char
  | [] => []
  | y :: ys => (',' :: ' ' :: (nl ++ ind lvl2)) ++ jdumpFields nl lvl2 y ys

theorem wsOnly_append {a b : List Char} (ha : wsOnly a = true)
    (hb : wsOnly b = true) : wsOnly (a ++ b) = true := by
  simp only [wsOnly, List.all_append, Bool.and_eq_true]
  exact ⟨ha, hb⟩

theorem wsOnly_cons {c : Char} (hc : isJsonWs c = true) {l : List Char}
    (hl : wsOnly l = true) : wsOnly (c :: l) = true := by
  simp [wsOnly, hc]
  simpa [wsOnly] using hl

theorem jdumpItems_expose (nl : List Char) (lvl : Nat) (x : JVal)
    (xs : List JVal) :
    ∃ t2, jdumpItems nl lvl x xs = jdumpV nl lvl x ++ t2 := by
  cases xs with
  | nil => exact ⟨[], by rw [jdumpItems_nil, List.append_nil]⟩
  | cons y ys =>
      exact ⟨(',' :: ' ' :: (nl ++ ind lvl)) ++ jdumpItems nl lvl y ys,
        by rw [jdumpItems_cons, List.append_assoc]⟩

theorem jdumpFields_head (nl : List Char) (lvl : Nat) (kv : String × JVal)
    (kvs : List (String × JVal)) :
    ∃ t2, jdumpFields nl lvl kv kvs = '"' :: t2 := by
  obtain ⟨k, x⟩ := kv
  cases kvs with
  | nil =>
      exact ⟨escStr k ++ ('"' :: ':' :: ' ' :: jdumpV nl lvl x),
        by rw [jdumpFields_nil]⟩
  | cons y ys =>
      refine ⟨(escStr k ++ ('"' :: ':' :: ' ' :: jdumpV nl lvl x))
        ++ ((',' :: ' ' :: (nl ++ ind lvl)) ++ jdumpFields nl lvl y ys), ?_⟩
      rw [jdumpFields_cons]
      simp [List.append_assoc]

theorem parseVal_arrBranch (f : Nat) (X : List Char) (d : Char)
    (t : List Char) (hskip : skipWs X = d :: t) (hd : ¬(d = ']')) :
    parseVal (f + 1) ('[' :: X)
      = match parseArrItems f (d :: t) with
        | some (vs, r2) => some (.jarr vs, r2)
        | none => none := by
  have h1 : parseVal (f + 1) ('[' :: X)
      = (match skipWs X with
         | d2 :: t2 =>
             if d2 = ']' then some (JVal.jarr [], t2)
             else
               match parseArrItems f (d2 :: t2) with
               | some (vs, r2) => some (JVal.jarr vs, r2)
               | none => none
         | [] => none) := by
    rw [parseVal, skipWs_cons_not (by decide)]
    rfl
  rw [h1, hskip]
  show (if d = ']' then some (JVal.jarr [], t)
      else
        match parseArrItems f (d :: t) with
        | some (vs, r2) => some (JVal.jarr vs, r2)
        | none => none) = _
  rw [if_neg hd]

theorem parseVal_objBranch (f : Nat) (X : List Char) (d : Char)
    (t : List Char) (hskip : skipWs X = d :: t) (hd : ¬(d = '\x7d')) :
    parseVal (f + 1) ('\x7b' :: X)
      = match parseObjItems f (d :: t) with
        | some (ms, r2) => some (.jobj ms, r2)
        | none => none := by
  have h1 : parseVal (f + 1) ('\x7b' :: X)
      = (match skipWs X with
         | d2 :: t2 =>
             if d2 = '\x7d' then some (JVal.jobj [], t2)
             else
               match parseObjItems f (d2 :: t2) with
               | some (ms, r2) => some (JVal.jobj ms, r2)
               | none => none
         | [] => none) := by
    rw [parseVal, skipWs_cons_not (by decide)]
    rfl
  rw [h1, hskip]
  show (if d = '\x7d' then some (JVal.jobj [], t)
      else
        match parseObjItems f (d :: t) with
        | some (ms, r2) => some (JVal.jobj ms, r2)
        | none => none) = _
  rw [if_neg hd]

theorem parseVal_strBranch (f : Nat) (Y : List Char) :
    parseVal (f + 1) ('"' :: Y)
      = match parseStrBody Y with
        | some (cs, r2) => some (JVal.jstr ⟨cs⟩, r2)
        | none => none := by
  rw [parseVal, skipWs_cons_not (by decide)]
  rfl

theorem parseArrItems_afterVal (f : Nat) (l : List Char) (v : JVal)
    (r : List Char) (hv : parseVal f l = some (v, r)) :
    parseArrItems (f + 1) l
      = (match skipWs r with
         | c :: t =>
             if c = ']' then some ([v], t)
             else if c = ',' then
               match parseArrItems f t with
               | some (vs, r2) => some (v :: vs, r2)
               | none => none
             else none
         | [] => none) := by
  rw [parseArrItems, hv]

theorem parseObjItems_afterVal (f : Nat) (l R R1 R2 R3 : List Char)
    (kcs : List Char) (v : JVal)
    (h1 : skipWs l = '"' :: R)
    (h2 : parseStrBody R = some (kcs, R1))
    (h3 : skipWs R1 = ':' :: R2)
    (h4 : parseVal f R2 = some (v, R3)) :
    parseObjItems (f + 1) l
      = (match skipWs R3 with
         | c :: t =>
             if c = '\x7d' then some ([((⟨kcs⟩ : String), v)], t)
             else if c = ',' then
               match parseObjItems f t with
               | some (ms, r4) => some (((⟨kcs⟩ : String), v) :: ms, r4)
               | none => none
             else none
         | [] => none) := by
  have s1 : parseObjItems (f + 1) l
      = (match parseStrBody R with
         | some (kcs2, r1) =>
             (match skipWs r1 with
              | ':' :: r2 =>
                  (match parseVal f r2 with
                   | some (v2, r3) =>
                       (match skipWs r3 with
                        | c :: t =>
                            if c = '\x7d' then
                              some ([((⟨kcs2⟩ : String), v2)], t)
                            else if c = ',' then
                              match parseObjItems f t with
                              | some (ms, r4) =>
                                  some (((⟨kcs2⟩ : String), v2) :: ms, r4)
                              | none => none
                            else none
                        | [] => none)
                   | none => none)
              | _ => none)
         | none => none) := by
    rw [parseObjItems, h1]
    all_goals rfl
  have s2 : parseObjItems (f + 1) l
      = (match skipWs R1 with
         | ':' :: r2 =>
             (match parseVal f r2 with
              | some (v2, r3) =>
                  (match skipWs r3 with
                   | c :: t =>
                       if c = '\x7d' then some ([((⟨kcs⟩ : String), v2)], t)
                       else if c = ',' then
                         match parseObjItems f t with
                         | some (ms, r4) =>
                             some (((⟨kcs⟩ : String), v2) :: ms, r4)
                         | none => none
                       else none
                   | [] => none)
              | none => none)
         | _ => none) := by
    rw [s1, h2]
    all_goals rfl
  have s3 : parseObjItems (f + 1) l
      = (match parseVal f R2 with
         | some (v2, r3) =>
             (match skipWs r3 with
              | c :: t =>
                  if c = '\x7d' then some ([((⟨kcs⟩ : String), v2)], t)
                  else if c = ',' then
                    match parseObjItems f t with
                    | some (ms, r4) =>
                        some (((⟨kcs⟩ : String), v2) :: ms, r4)
                    | none => none
                  else none
              | [] => none)
         | none => none) := by
    rw [s2, h3]
    all_goals rfl
  rw [s3, h4]
  all_goals rfl

mutual
/-- Parsing a rendered JSON value (with any all-whitespace newline text in
place of the newlines) recovers the value exactly. -/
theorem rt_val : ∀ (v : JVal) (nl : List Char) (lvl fuel : Nat)
    (rest : List Char), wfJ v = true → wsOnly nl = true → nl ≠ [] →
    (jdumpV nl lvl v).length < fuel → noLeadDigit rest = true →
    parseVal fuel (jdumpV nl lvl v ++ rest) = some (v, rest)
  | .jnull, nl, lvl, fuel, rest, _, _, _, hf, _ => by
      rw [jdumpV] at hf ⊢
      cases fuel with
      | zero => exact absurd hf (Nat.not_lt_zero _)
      | succ f =>
          rw [List.cons_append, parseVal, skipWs_cons_not (by decide)]
          rfl
  | .jbool true, nl, lvl, fuel, rest, _, _, _, hf, _ => by
      rw [jdumpV] at hf ⊢
      cases fuel with
      | zero => exact absurd hf (Nat.not_lt_zero _)
      | succ f =>
          rw [List.cons_append, parseVal, skipWs_cons_not (by decide)]
          rfl
  | .jbool false, nl, lvl, fuel, rest, _, _, _, hf, _ => by
      rw [jdumpV] at hf ⊢
      cases fuel with
      | zero => exact absurd hf (Nat.not_lt_zero _)
      | succ f =>
          rw [List.cons_append, parseVal, skipWs_cons_not (by decide)]
          rfl
  | .jnum i, nl, lvl, fuel, rest, _, _, _, hf, hrest => by
      rw [jdumpV] at hf ⊢
      cases fuel with
      | zero => exact absurd hf (Nat.not_lt_zero _)
      | succ f =>
          obtain ⟨c, t, hct⟩ : ∃ c t, intChars i = c :: t := by
            unfold intChars
            split
            · exact ⟨'-', natChars i.natAbs, rfl⟩
            · cases hn : natChars i.natAbs with
              | nil => exact absurd hn (natChars_ne_nil _)
              | cons c t => exact ⟨c, t, rfl⟩
          have hchead : (c = '-' || isDigitCh c) = true
              ∧ isJsonWs c = false ∧ ¬(c = 'n') ∧ ¬(c = 't') ∧ ¬(c = 'f')
              ∧ ¬(c = '"') ∧ ¬(c = '[') ∧ ¬(c = '\x7b') := by
            unfold intChars at hct
            by_cases hm : i < 0
            · rw [if_pos hm] at hct
              obtain ⟨hc1, -⟩ := List.cons.inj hct
              subst hc1
              exact ⟨by decide, by decide, by decide, by decide, by decide,
                by decide, by decide, by decide⟩
            · rw [if_neg hm] at hct
              have hcd : isDigitCh c = true := by
                have := natChars_all_digits i.natAbs
                rw [hct] at this
                exact this c (by simp)
              obtain ⟨g1, -, -, -, g5, g6, g7, g8, g9, g10⟩ :=
                digit_head_facts hcd
              exact ⟨by simp [hcd], g1, g5, g6, g7, g8, g9, g10⟩
          obtain ⟨hg, hws2, hn2, ht2, hf2, hq2, hbk2, hbc2⟩ := hchead
          have hnum := parseNum_intChars i hrest
          rw [hct] at hnum ⊢
          rw [List.cons_append] at hnum ⊢
          rw [parseVal, skipWs_cons_not hws2]
          simp [hn2, ht2, hf2, hq2, hbk2, hbc2, hg, hnum]
  | .jstr s, nl, lvl, fuel, rest, hwf, _, _, hf, _ => by
      rw [jdumpV] at hf ⊢
      cases fuel with
      | zero => exact absurd hf (Nat.not_lt_zero _)
      | succ f =>
          rw [List.cons_append, parseVal_strBranch]
          have hesc := parseStrBody_escL s.data
            (by simpa [wfJ, wfStr] using hwf) rest
          have harg : (escStr s ++ ['"']) ++ rest
              = escL s.data ++ '"' :: rest := by
            rw [escStr_eq]
            simp [List.append_assoc]
          rw [harg, hesc]
  | .jarr [], nl, lvl, fuel, rest, _, _, _, hf, _ => by
      rw [jdumpV] at hf ⊢
      cases fuel with
      | zero => exact absurd hf (Nat.not_lt_zero _)
      | succ f =>
          rw [List.cons_append, parseVal]
          rfl
  | .jarr (x :: xs), nl, lvl, fuel, rest, hwf, hnlws, hnl, hf, hrest => by
      cases fuel with
      | zero => exact absurd hf (Nat.not_lt_zero _)
      | succ f =>
          have hnl1 : 0 < nl.length := List.length_pos.mpr hnl
          rw [jdumpV] at hf ⊢
          rw [show jdumpItemsL nl (lvl + 1) (x :: xs)
            = jdumpItems nl (lvl + 1) x xs from rfl] at hf ⊢
          have hxwf : wfA (x :: xs) = true := by simpa [wfJ] using hwf
          rw [List.cons_append]
          have harg : (nl ++ ind (lvl + 1) ++ jdumpItems nl (lvl + 1) x xs
                ++ nl ++ ind lvl ++ [']']) ++ rest
              = nl ++ (ind (lvl + 1) ++ (jdumpItems nl (lvl + 1) x xs
                ++ ((nl ++ ind lvl) ++ (']' :: rest)))) := by
            simp [List.append_assoc]
          rw [harg]
          obtain ⟨d, t0, hdt, hok⟩ : ∃ d t0,
              jdumpItems nl (lvl + 1) x xs
                ++ ((nl ++ ind lvl) ++ (']' :: rest)) = d :: t0
              ∧ headOk d := by
            obtain ⟨t2, ht2⟩ := jdumpItems_expose nl (lvl + 1) x xs
            obtain ⟨c, t3, hct3, hok⟩ := jdumpV_head nl (lvl + 1) x
            refine ⟨c, t3 ++ (t2 ++ ((nl ++ ind lvl) ++ (']' :: rest))), ?_,
              hok⟩
            rw [ht2, hct3]
            simp [List.append_assoc]
          have hskip : skipWs (nl ++ (ind (lvl + 1)
                ++ (jdumpItems nl (lvl + 1) x xs
                  ++ ((nl ++ ind lvl) ++ (']' :: rest))))) = d :: t0 := by
            rw [skipWs_append_ws hnlws, skipWs_append_ws (wsOnly_ind _), hdt,
              skipWs_cons_not hok.1]
          rw [parseVal_arrBranch f _ d t0 hskip hok.2.1]
          have hfi : (jdumpItems nl (lvl + 1) x xs).length + 1 < f := by
            simp only [List.length_cons, List.length_append,
              List.length_singleton] at hf
            omega
          have key := rt_items x xs nl (lvl + 1) f [] (nl ++ ind lvl) rest
            hxwf hnlws hnl (by simp [wsOnly])
            (wsOnly_append hnlws (wsOnly_ind lvl)) hfi hrest
          rw [List.nil_append, hdt] at key
          rw [key]
  | .jobj [], nl, lvl, fuel, rest, _, _, _, hf, _ => by
      rw [jdumpV] at hf ⊢
      cases fuel with
      | zero => exact absurd hf (Nat.not_lt_zero _)
      | succ f =>
          rw [List.cons_append, parseVal]
          rfl
  | .jobj (kv :: kvs), nl, lvl, fuel, rest, hwf, hnlws, hnl, hf, hrest => by
      cases fuel with
      | zero => exact absurd hf (Nat.not_lt_zero _)
      | succ f =>
          have hnl1 : 0 < nl.length := List.length_pos.mpr hnl
          rw [jdumpV] at hf ⊢
          rw [show jdumpFieldsL nl (lvl + 1) (kv :: kvs)
            = jdumpFields nl (lvl + 1) kv kvs from rfl] at hf ⊢
          have hxwf : wfO (kv :: kvs) = true := by simpa [wfJ] using hwf
          rw [List.cons_append]
          have harg : (nl ++ ind (lvl + 1) ++ jdumpFields nl (lvl + 1) kv kvs
                ++ nl ++ ind lvl ++ ['\x7d']) ++ rest
              = nl ++ (ind (lvl + 1) ++ (jdumpFields nl (lvl + 1) kv kvs
                ++ ((nl ++ ind lvl) ++ ('\x7d' :: rest)))) := by
            simp [List.append_assoc]
          rw [harg]
          obtain ⟨t2, ht2⟩ := jdumpFields_head nl (lvl + 1) kv kvs
          have hdt : jdumpFields nl (lvl + 1) kv kvs
                ++ ((nl ++ ind lvl) ++ ('\x7d' :: rest))
              = '"' :: (t2 ++ ((nl ++ ind lvl) ++ ('\x7d' :: rest))) := by
            rw [ht2, List.cons_append]
          have hskip : skipWs (nl ++ (ind (lvl + 1)
                ++ (jdumpFields nl (lvl + 1) kv kvs
                  ++ ((nl ++ ind lvl) ++ ('\x7d' :: rest)))))
              = '"' :: (t2 ++ ((nl ++ ind lvl) ++ ('\x7d' :: rest))) := by
            rw [skipWs_append_ws hnlws, skipWs_append_ws (wsOnly_ind _), hdt,
              skipWs_cons_not (by decide)]
          rw [parseVal_objBranch f _ _ _ hskip (by decide)]
          have hfi : (jdumpFields nl (lvl + 1) kv kvs).length + 1 < f := by
            simp only [List.length_cons, List.length_append,
              List.length_singleton] at hf
            omega
          have key := rt_fields kv kvs nl (lvl + 1) f [] (nl ++ ind lvl) rest
            hxwf hnlws hnl (by simp [wsOnly])
            (wsOnly_append hnlws (wsOnly_ind lvl)) hfi hrest
          rw [List.nil_append, hdt] at key
          rw [key]
  termination_by v => sizeOf v

/-- Parsing rendered array items (preceded by whitespace, followed by
whitespace and the closing bracket) recovers the item list. -/
theorem rt_items : ∀ (x : JVal) (xs : List JVal) (nl : List Char)
    (lvl fuel : Nat) (ws1 ws2 rest : List Char),
    wfA (x :: xs) = true → wsOnly nl = true → nl ≠ [] →
    wsOnly ws1 = true → wsOnly ws2 = true →
    (jdumpItems nl lvl x xs).length + 1 < fuel → noLeadDigit rest = true →
    parseArrItems fuel
        (ws1 ++ (jdumpItems nl lvl x xs ++ (ws2 ++ (']' :: rest))))
      = some (x :: xs, rest)
  | x, [], nl, lvl, fuel, ws1, ws2, rest, hwf, hnlws, hnl, hws1, hws2, hfuel,
      hrest => by
      cases fuel with
      | zero => exact absurd hfuel (Nat.not_lt_zero _)
      | succ f =>
          rw [jdumpItems_nil] at hfuel ⊢
          have hxwf : wfJ x = true := by
            simp only [wfA, Bool.and_eq_true] at hwf
            exact hwf.1
          have hre : noLeadDigit (ws2 ++ (']' :: rest)) = true :=
            noLeadDigit_ws_append hws2 (by simp [noLeadDigit, isDigitCh])
          have hv2 : parseVal f
              (ws1 ++ (jdumpV nl lvl x ++ (ws2 ++ (']' :: rest))))
              = some (x, ws2 ++ (']' :: rest)) := by
            rw [parseVal_wsPre f hws1]
            exact rt_val x nl lvl f (ws2 ++ (']' :: rest)) hxwf hnlws hnl
              (by omega) hre
          rw [parseArrItems_afterVal f _ x _ hv2, skipWs_append_ws hws2,
            skipWs_cons_not (by decide)]
          rfl
  | x, y :: ys, nl, lvl, fuel, ws1, ws2, rest, hwf, hnlws, hnl, hws1, hws2,
      hfuel, hrest => by
      cases fuel with
      | zero => exact absurd hfuel (Nat.not_lt_zero _)
      | succ f =>
          have hnl1 : 0 < nl.length := List.length_pos.mpr hnl
          rw [jdumpItems_cons] at hfuel ⊢
          have hxwf : wfJ x = true := by
            simp only [wfA, Bool.and_eq_true] at hwf
            exact hwf.1
          have htwf : wfA (y :: ys) = true := by
            simp only [wfA, Bool.and_eq_true] at hwf
            simp [wfA, hwf.2]
          have hlen : (jdumpV nl lvl x).length < f
              ∧ (jdumpItems nl lvl y ys).length + 1 < f := by
            simp only [List.length_append, List.length_cons] at hfuel ⊢
            constructor <;> omega
          have hv2 : parseVal f
              (ws1 ++ ((jdumpV nl lvl x ++ (',' :: ' ' :: (nl ++ ind lvl))
                ++ jdumpItems nl lvl y ys) ++ (ws2 ++ (']' :: rest))))
              = some (x, ',' :: ' ' :: (nl ++ ind lvl
                  ++ (jdumpItems nl lvl y ys ++ (ws2 ++ (']' :: rest))))) := by
            rw [parseVal_wsPre f hws1]
            have harg : (jdumpV nl lvl x ++ (',' :: ' ' :: (nl ++ ind lvl))
                  ++ jdumpItems nl lvl y ys) ++ (ws2 ++ (']' :: rest))
                = jdumpV nl lvl x ++ (',' :: ' ' :: (nl ++ ind lvl
                  ++ (jdumpItems nl lvl y ys ++ (ws2 ++ (']' :: rest))))) := by
              simp [List.append_assoc]
            rw [harg]
            exact rt_val x nl lvl f _ hxwf hnlws hnl hlen.1
              (by simp [noLeadDigit, isDigitCh])
          rw [parseArrItems_afterVal f _ x _ hv2, skipWs_cons_not (by decide)]
          show (match parseArrItems f (' ' :: (nl ++ ind lvl
              ++ (jdumpItems nl lvl y ys ++ (ws2 ++ (']' :: rest))))) with
            | some (vs, r2) => some (x :: vs, r2)
            | none => none) = some (x :: y :: ys, rest)
          have key := rt_items y ys nl lvl f (' ' :: (nl ++ ind lvl)) ws2 rest
            htwf hnlws hnl
            (wsOnly_cons (by decide) (wsOnly_append hnlws (wsOnly_ind lvl)))
            hws2 hlen.2 hrest
          have keq : (' ' :: (nl ++ ind lvl))
              ++ (jdumpItems nl lvl y ys ++ (ws2 ++ (']' :: rest)))
              = ' ' :: (nl ++ ind lvl
                ++ (jdumpItems nl lvl y ys ++ (ws2 ++ (']' :: rest)))) := by
            simp [List.append_assoc]
          rw [keq] at key
          rw [key]
  termination_by x xs => sizeOf x + sizeOf xs

/-- Parsing rendered object members (preceded by whitespace, followed by
whitespace and the closing brace) recovers the member list. -/
theorem rt_fields : ∀ (kv : String × JVal) (kvs : List (String × JVal))
    (nl : List Char) (lvl fuel : Nat) (ws1 ws2 rest : List Char),
    wfO (kv :: kvs) = true → wsOnly nl = true → nl ≠ [] →
    wsOnly ws1 = true → wsOnly ws2 = true →
    (jdumpFields nl lvl kv kvs).length + 1 < fuel → noLeadDigit rest = true →
    parseObjItems fuel
        (ws1 ++ (jdumpFields nl lvl kv kvs ++ (ws2 ++ ('\x7d' :: rest))))
      = some (kv :: kvs, rest)
  | (k, x), [], nl, lvl, fuel, ws1, ws2, rest, hwf, hnlws, hnl, hws1, hws2,
      hfuel, hrest => by
      cases fuel with
      | zero => exact absurd hfuel (Nat.not_lt_zero _)
      | succ f =>
          rw [jdumpFields_nil] at hfuel ⊢
          have hkwf : wfStr k = true := by
            simp only [wfO, Bool.and_eq_true] at hwf
            exact hwf.1.1
          have hxwf : wfJ x = true := by
            simp only [wfO, Bool.and_eq_true] at hwf
            exact hwf.1.2
          have hre : noLeadDigit (ws2 ++ ('\x7d' :: rest)) = true :=
            noLeadDigit_ws_append hws2 (by simp [noLeadDigit, isDigitCh])
          have hflen : (jdumpV nl lvl x).length < f := by
            simp only [List.length_cons, List.length_append] at hfuel
            omega
          have hshape : ws1 ++ (('"' :: (escStr k ++ ('"' :: ':' :: ' '
                :: jdumpV nl lvl x))) ++ (ws2 ++ ('\x7d' :: rest)))
              = ws1 ++ ('"' :: (escL k.data ++ ('"' :: (':' :: (' '
                :: (jdumpV nl lvl x ++ (ws2 ++ ('\x7d' :: rest)))))))) := by
            rw [escStr_eq]
            simp [List.append_assoc]
          rw [hshape]
          have h1 : skipWs (ws1 ++ ('"' :: (escL k.data ++ ('"' :: (':' :: (' '
                :: (jdumpV nl lvl x ++ (ws2 ++ ('\x7d' :: rest)))))))))
              = '"' :: (escL k.data ++ ('"' :: (':' :: (' '
                :: (jdumpV nl lvl x ++ (ws2 ++ ('\x7d' :: rest))))))) := by
            rw [skipWs_append_ws hws1, skipWs_cons_not (by decide)]
          have h2 := parseStrBody_escL k.data (by simpa [wfStr] using hkwf)
            (':' :: (' ' :: (jdumpV nl lvl x ++ (ws2 ++ ('\x7d' :: rest)))))
          have h3 : skipWs (':' :: (' '
                :: (jdumpV nl lvl x ++ (ws2 ++ ('\x7d' :: rest)))))
              = ':' :: (' '
                :: (jdumpV nl lvl x ++ (ws2 ++ ('\x7d' :: rest)))) :=
            skipWs_cons_not (by decide) _
          have h4 : parseVal f (' '
                :: (jdumpV nl lvl x ++ (ws2 ++ ('\x7d' :: rest))))
              = some (x, ws2 ++ ('\x7d' :: rest)) := by
            have hw := @parseVal_wsPre f [' '] (by decide)
              (jdumpV nl lvl x ++ (ws2 ++ ('\x7d' :: rest)))
            rw [List.singleton_append] at hw
            rw [hw]
            exact rt_val x nl lvl f _ hxwf hnlws hnl hflen hre
          rw [parseObjItems_afterVal f _ _ _ _ _ k.data x h1 h2 h3 h4,
            skipWs_append_ws hws2, skipWs_cons_not (by decide)]
          show some ([((⟨k.data⟩ : String), x)], rest)
            = some ([(k, x)], rest)
          rw [stringEta]
  | (k, x), y :: ys, nl, lvl, fuel, ws1, ws2, rest, hwf, hnlws, hnl, hws1,
      hws2, hfuel, hrest => by
      cases fuel with
      | zero => exact absurd hfuel (Nat.not_lt_zero _)
      | succ f =>
          have hnl1 : 0 < nl.length := List.length_pos.mpr hnl
          rw [jdumpFields_cons] at hfuel ⊢
          have hkwf : wfStr k = true := by
            simp only [wfO, Bool.and_eq_true] at hwf
            exact hwf.1.1
          have hxwf : wfJ x = true := by
            simp only [wfO, Bool.and_eq_true] at hwf
            exact hwf.1.2
          have htwf : wfO (y :: ys) = true := by
            simp only [wfO, Bool.and_eq_true] at hwf
            obtain ⟨y1, y2⟩ := y
            simp [wfO, hwf.2]
          have hlen : (jdumpV nl lvl x).length < f
              ∧ (jdumpFields nl lvl y ys).length + 1 < f := by
            simp only [List.length_append, List.length_cons] at hfuel ⊢
            constructor <;> omega
          have hshape : ws1 ++ ((('"' :: (escStr k ++ ('"' :: ':' :: ' '
                :: jdumpV nl lvl x))) ++ (',' :: ' ' :: (nl ++ ind lvl))
                ++ jdumpFields nl lvl y ys) ++ (ws2 ++ ('\x7d' :: rest)))
              = ws1 ++ ('"' :: (escL k.data ++ ('"' :: (':' :: (' '
                :: (jdumpV nl lvl x ++ (',' :: ' ' :: (nl ++ ind lvl
                  ++ (jdumpFields nl lvl y ys
                    ++ (ws2 ++ ('\x7d' :: rest))))))))))) := by
            rw [escStr_eq]
            simp [List.append_assoc]
          rw [hshape]
          have h1 : skipWs (ws1 ++ ('"' :: (escL k.data ++ ('"' :: (':' :: (' '
                :: (jdumpV nl lvl x ++ (',' :: ' ' :: (nl ++ ind lvl
                  ++ (jdumpFields nl lvl y ys
                    ++ (ws2 ++ ('\x7d' :: rest))))))))))))
              = '"' :: (escL k.data ++ ('"' :: (':' :: (' '
                :: (jdumpV nl lvl x ++ (',' :: ' ' :: (nl ++ ind lvl
                  ++ (jdumpFields nl lvl y ys
                    ++ (ws2 ++ ('\x7d' :: rest)))))))))) := by
            rw [skipWs_append_ws hws1, skipWs_cons_not (by decide)]
          have h2 := parseStrBody_escL k.data (by simpa [wfStr] using hkwf)
            (':' :: (' ' :: (jdumpV nl lvl x ++ (',' :: ' ' :: (nl ++ ind lvl
              ++ (jdumpFields nl lvl y ys ++ (ws2 ++ ('\x7d' :: rest))))))))
          have h3 : skipWs (':' :: (' ' :: (jdumpV nl lvl x
                ++ (',' :: ' ' :: (nl ++ ind lvl
                  ++ (jdumpFields nl lvl y ys
                    ++ (ws2 ++ ('\x7d' :: rest))))))))
              = ':' :: (' ' :: (jdumpV nl lvl x
                ++ (',' :: ' ' :: (nl ++ ind lvl
                  ++ (jdumpFields nl lvl y ys
                    ++ (ws2 ++ ('\x7d' :: rest))))))) :=
            skipWs_cons_not (by decide) _
          have h4 : parseVal f (' ' :: (jdumpV nl lvl x
                ++ (',' :: ' ' :: (nl ++ ind lvl
                  ++ (jdumpFields nl lvl y ys
                    ++ (ws2 ++ ('\x7d' :: rest)))))))
              = some (x, ',' :: ' ' :: (nl ++ ind lvl
                  ++ (jdumpFields nl lvl y ys
                    ++ (ws2 ++ ('\x7d' :: rest))))) := by
            have hw := @parseVal_wsPre f [' '] (by decide)
              (jdumpV nl lvl x ++ (',' :: ' ' :: (nl ++ ind lvl
                ++ (jdumpFields nl lvl y ys ++ (ws2 ++ ('\x7d' :: rest))))))
            rw [List.singleton_append] at hw
            rw [hw]
            exact rt_val x nl lvl f _ hxwf hnlws hnl hlen.1
              (by simp [noLeadDigit, isDigitCh])
          rw [parseObjItems_afterVal f _ _ _ _ _ k.data x h1 h2 h3 h4,
            skipWs_cons_not (by decide)]
          show (match parseObjItems f (' ' :: (nl ++ ind lvl
              ++ (jdumpFields nl lvl y ys ++ (ws2 ++ ('\x7d' :: rest))))) with
            | some (ms, r4) => some (((⟨k.data⟩ : String), x) :: ms, r4)
            | none => none) = some ((k, x) :: y :: ys, rest)
          have key := rt_fields y ys nl lvl f (' ' :: (nl ++ ind lvl)) ws2
            rest htwf hnlws hnl
            (wsOnly_cons (by decide) (wsOnly_append hnlws (wsOnly_ind lvl)))
            hws2 hlen.2 hrest
          have keq : (' ' :: (nl ++ ind lvl))
              ++ (jdumpFields nl lvl y ys ++ (ws2 ++ ('\x7d' :: rest)))
              = ' ' :: (nl ++ ind lvl
                ++ (jdumpFields nl lvl y ys ++ (ws2 ++ ('\x7d' :: rest)))) := by
            simp [List.append_assoc]
          rw [keq] at key
          rw [key]
  termination_by kv kvs => sizeOf kv + sizeOf kvs
end

/-- Parsing a complete rendered document (with any all-whitespace newline
text) recovers the value. -/
theorem jparseL_jdumpV (v : JVal) (nl : List Char) (hwf : wfJ v = true)
    (hnlws : wsOnly nl = true) (hnl : nl ≠ []) :
    jparseL (jdumpV nl 0 v) = some v := by
  have h := rt_val v nl 0 ((jdumpV nl 0 v).length + 1) [] hwf hnlws hnl
    (by omega) (by decide)
  rw [List.append_nil] at h
  rw [jparseL, h]
  all_goals rfl

/-! ### Header reflowing

`IFAP._reflow(data, indent=' ', preserve=True)` rewrites every newline of
the JSON text into `"\r\n "`.  `replNl ic` models
`data.replace('\n', '\r\n' + ic)`. -/

/-- Python `data.replace('\n', '\r\n' + ic)` on a character list. -/
def replNl (ic : List Char) : List Char → List Char
  | [] => []
  | c :: t =>
      if c = '\n' then '\r' :: '\n' :: (ic ++ replNl ic t)
      else c :: replNl ic t

theorem replNl_append (ic a b : List Char) :
    replNl ic (a ++ b) = replNl ic a ++ replNl ic b := by
  induction a with
  | nil => rfl
  | cons c t ih =>
      by_cases hc : c = '\n'
      · simp [replNl, hc, ih]
      · simp [replNl, hc, ih]

theorem replNl_noNl {ic l : List Char} (h : ∀ c ∈ l, ¬(c = '\n')) :
    replNl ic l = l := by
  induction l with
  | nil => rfl
  | cons c t ih =>
      rw [replNl, if_neg (h c (by simp)), ih (fun x hx => h x (by simp [hx]))]

theorem hexDigitCh_ne_nl (d : Nat) (h : d < 16) : ¬(hexDigitCh d = '\n') := by
  interval_cases d <;> decide

theorem escChar_no_nl (c c2 : Char) (h : c2 ∈ escChar c) : ¬(c2 = '\n') := by
  intro hc2
  subst hc2
  unfold escChar at h
  by_cases h1 : c = '"'
  · rw [if_pos h1] at h
    exact absurd h (by decide)
  rw [if_neg h1] at h
  by_cases h2 : c = '\\'
  · rw [if_pos h2] at h
    exact absurd h (by decide)
  rw [if_neg h2] at h
  by_cases h3 : c = '\n'
  · rw [if_pos h3] at h
    exact absurd h (by decide)
  rw [if_neg h3] at h
  by_cases h4 : c = '\r'
  · rw [if_pos h4] at h
    exact absurd h (by decide)
  rw [if_neg h4] at h
  by_cases h5 : c = '\t'
  · rw [if_pos h5] at h
    exact absurd h (by decide)
  rw [if_neg h5] at h
  by_cases h6 : c.toNat = 8
  · rw [if_pos h6] at h
    exact absurd h (by decide)
  rw [if_neg h6] at h
  by_cases h7 : c.toNat = 12
  · rw [if_pos h7] at h
    exact absurd h (by decide)
  rw [if_neg h7] at h
  by_cases h8 : (32 ≤ c.toNat && c.toNat ≤ 126) = true
  · rw [if_pos h8] at h
    simp only [List.mem_singleton] at h
    rw [← h] at h8
    exact absurd h8 (by decide)
  · rw [if_neg h8] at h
    simp only [hex4, List.mem_cons, List.not_mem_nil, or_false] at h
    have h16 : ∀ k : Nat, k % 16 < 16 := fun k => Nat.mod_lt _ (by omega)
    rcases h with h | h | h | h | h | h
    · exact absurd h.symm (by decide)
    · exact absurd h.symm (by decide)
    · exact hexDigitCh_ne_nl _ (h16 _) h.symm
    · exact hexDigitCh_ne_nl _ (h16 _) h.symm
    · exact hexDigitCh_ne_nl _ (h16 _) h.symm
    · exact hexDigitCh_ne_nl _ (h16 _) h.symm

theorem replNl_escL (ic : List Char) (l : List Char) :
    replNl ic (escL l) = escL l := by
  apply replNl_noNl
  intro c hc
  simp only [escL, List.mem_flatten, List.mem_map] at hc
  obtain ⟨cs, ⟨c0, _, rfl⟩, hcin⟩ := hc
  exact escChar_no_nl c0 c hcin

theorem replNl_intChars (ic : List Char) (i : Int) :
    replNl ic (intChars i) = intChars i := by
  apply replNl_noNl
  intro c hc
  unfold intChars at hc
  have hdig : ∀ c2 ∈ natChars i.natAbs, ¬(c2 = '\n') := by
    intro c2 hc2
    have hd := natChars_all_digits i.natAbs c2 hc2
    simp only [isDigitCh, Bool.and_eq_true, decide_eq_true_eq] at hd
    intro hceq
    subst hceq
    exact absurd hd (by decide)
  by_cases hm : i < 0
  · rw [if_pos hm, List.mem_cons] at hc
    rcases hc with hc | hc
    · subst hc
      decide
    · exact hdig c hc
  · rw [if_neg hm] at hc
    exact hdig c hc

theorem replNl_ind (ic : List Char) (lvl : Nat) :
    replNl ic (ind lvl) = ind lvl := by
  apply replNl_noNl
  intro c hc
  have hcr := List.eq_of_mem_replicate
    (show c ∈ List.replicate lvl ' ' from hc)
  subst hcr
  decide

mutual
/-- Replacing the newlines of rendered JSON text with `"\r\n "` (as the
preserve-mode reflow does with a one-space indent) yields exactly the
rendering with newline text `"\r\n "`. -/
theorem replNl_jdumpV : ∀ (lvl : Nat) (v : JVal),
    replNl [' '] (jdumpV ['\n'] lvl v) = jdumpV ['\r', '\n', ' '] lvl v
  | lvl, .jnull => by
      rw [jdumpV, jdumpV]
      decide
  | lvl, .jbool true => by
      rw [jdumpV, jdumpV]
      decide
  | lvl, .jbool false => by
      rw [jdumpV, jdumpV]
      decide
  | lvl, .jnum i => by
      rw [jdumpV, jdumpV]
      exact replNl_intChars [' '] i
  | lvl, .jstr s => by
      rw [jdumpV, jdumpV]
      rw [show ('"' :: (escStr s ++ ['"'])) = ['"'] ++ escStr s ++ ['"'] by
        simp]
      rw [replNl_append, replNl_append, escStr_eq, replNl_escL]
      rfl
  | lvl, .jarr [] => by
      rw [jdumpV, jdumpV]
      decide
  | lvl, .jarr (x :: xs) => by
      rw [jdumpV, jdumpV]
      rw [show jdumpItemsL ['\n'] (lvl + 1) (x :: xs)
          = jdumpItems ['\n'] (lvl + 1) x xs from rfl,
        show jdumpItemsL ['\r', '\n', ' '] (lvl + 1) (x :: xs)
          = jdumpItems ['\r', '\n', ' '] (lvl + 1) x xs from rfl]
      rw [show (('[' : Char) :: (['\n'] ++ ind (lvl + 1)
          ++ jdumpItems ['\n'] (lvl + 1) x xs ++ ['\n'] ++ ind lvl ++ [']']))
        = ['[', '\n'] ++ (ind (lvl + 1) ++ (jdumpItems ['\n'] (lvl + 1) x xs
          ++ (['\n'] ++ (ind lvl ++ [']'])))) from by simp]
      rw [replNl_append, replNl_append, replNl_append, replNl_append,
        replNl_append, replNl_ind, replNl_ind, replNl_jdumpItems]
      show ['[', '\r', '\n', ' '] ++ _ = _
      simp [replNl, List.append_assoc]
  | lvl, .jobj [] => by
      rw [jdumpV, jdumpV]
      decide
  | lvl, .jobj (kv :: kvs) => by
      rw [jdumpV, jdumpV]
      rw [show jdumpFieldsL ['\n'] (lvl + 1) (kv :: kvs)
          = jdumpFields ['\n'] (lvl + 1) kv kvs from rfl,
        show jdumpFieldsL ['\r', '\n', ' '] (lvl + 1) (kv :: kvs)
          = jdumpFields ['\r', '\n', ' '] (lvl + 1) kv kvs from rfl]
      rw [show (('\x7b' : Char) :: (['\n'] ++ ind (lvl + 1)
          ++ jdumpFields ['\n'] (lvl + 1) kv kvs ++ ['\n'] ++ ind lvl
          ++ ['\x7d']))
        = ['\x7b', '\n'] ++ (ind (lvl + 1)
          ++ (jdumpFields ['\n'] (lvl + 1) kv kvs
          ++ (['\n'] ++ (ind lvl ++ ['\x7d'])))) from by simp]
      rw [replNl_append, replNl_append, replNl_append, replNl_append,
        replNl_append, replNl_ind, replNl_ind, replNl_jdumpFields]
      show ['\x7b', '\r', '\n', ' '] ++ _ = _
      simp [replNl, List.append_assoc]
  termination_by _ v => sizeOf v

theorem replNl_jdumpItems : ∀ (lvl : Nat) (x : JVal) (xs : List JVal),
    replNl [' '] (jdumpItems ['\n'] lvl x xs)
      = jdumpItems ['\r', '\n', ' '] lvl x xs
  | lvl, x, [] => by
      rw [jdumpItems_nil, jdumpItems_nil]
      exact replNl_jdumpV lvl x
  | lvl, x, y :: ys => by
      rw [jdumpItems_cons, jdumpItems_cons]
      rw [replNl_append, replNl_append, replNl_jdumpV, replNl_jdumpItems]
      congr 1
      congr 1
      rw [show (',' :: ' ' :: (['\n'] ++ ind lvl))
        = [',', ' '] ++ ['\n'] ++ ind lvl by simp]
      rw [replNl_append, replNl_append, replNl_ind]
      rfl
  termination_by _ x xs => sizeOf x + sizeOf xs

theorem replNl_jdumpFields : ∀ (lvl : Nat) (kv : String × JVal)
    (kvs : List (String × JVal)),
    replNl [' '] (jdumpFields ['\n'] lvl kv kvs)
      = jdumpFields ['\r', '\n', ' '] lvl kv kvs
  | lvl, (k, x), [] => by
      rw [jdumpFields_nil, jdumpFields_nil]
      rw [show ('"' :: (escStr k ++ ('"' :: ':' :: ' '
          :: jdumpV ['\n'] lvl x)))
        = ['"'] ++ escStr k ++ ['"', ':', ' '] ++ jdumpV ['\n'] lvl x by
        simp]
      rw [replNl_append, replNl_append, replNl_append, escStr_eq, replNl_escL,
        replNl_jdumpV]
      simp [replNl, List.append_assoc]
  | lvl, (k, x), y :: ys => by
      rw [jdumpFields_cons, jdumpFields_cons]
      rw [replNl_append, replNl_append]
      rw [show ('"' :: (escStr k ++ ('"' :: ':' :: ' '
          :: jdumpV ['\n'] lvl x)))
        = ['"'] ++ escStr k ++ ['"', ':', ' '] ++ jdumpV ['\n'] lvl x by
        simp]
      rw [replNl_append, replNl_append, replNl_append, escStr_eq, replNl_escL,
        replNl_jdumpV, replNl_jdumpFields]
      rw [show (',' :: ' ' :: (['\n'] ++ ind lvl))
        = [',', ' '] ++ ['\n'] ++ ind lvl by simp]
      rw [replNl_append, replNl_append, replNl_ind]
      simp [replNl, List.append_assoc]
  termination_by _ kv kvs => sizeOf kv + sizeOf kvs
end

/-- Parsing the reflowed rendering (every newline rewritten to CR LF space,
as the preserve-mode reflow does) recovers the value. -/
theorem jparseL_replNl_jdumpL (v : JVal) (hwf : wfJ v = true) :
    jparseL (replNl [' '] (jdumpL v)) = some v := by
  rw [jdumpL, replNl_jdumpV]
  exact jparseL_jdumpV v ['\r', '\n', ' '] hwf (by decide) (by decide)

/-! ### The message codec: `IFAP.encode_object` and its helpers

This section embeds `_maybe_encrypt`, `_reflow` and `encode_object` from
`src/ifaplib/__init__.py`. -/

/-- Python exceptions relevant to the embedded code paths. -/
inductive PyErr : Type where
  | nameError : PyErr
  | attributeError : PyErr
  | typeError : PyErr
  | valueError : PyErr
  | ioError : PyErr
deriving DecidableEq

/-- The interface of `cryptography.fernet.Fernet`: `encrypt key text` is the
token, `decrypt key token` recovers the text or fails (`InvalidToken`).
Theorems that depend on Fernet behaviour state the library's documented
contract about these two functions as explicit hypotheses. -/
structure FernetM where
  encrypt : String → String → String
  decrypt : String → String → Option String

/-- The `_IFAP_Config` object.  `fernet` holds the key the `Fernet` object
was constructed with (`none` when no Fernet object exists). -/
structure Config where
  buffering_max_bytes : Int := 102400
  buffering : Bool := false
  encrypt : Bool := false
  fernet : Option String := none
  key : Option String := none
deriving DecidableEq

/-- The reserved snapshot path `IFAP._SNAPSHOT_FILE_PATH`. -/
def SNAPSHOT_FILE_PATH : String := "IFAP/metadata.json"

/-- `os.path.basename`. -/
def basename (s : String) : String :=
  match (s.splitOn "/").getLast? with
  | some x => x
  | none => s

/-- One character of the standard base64 alphabet. -/
def b64Char (n : Nat) : Char :=
  if n < 26 then Char.ofNat (65 + n)
  else if n < 52 then Char.ofNat (97 + (n - 26))
  else if n < 62 then Char.ofNat (48 + (n - 52))
  else if n = 62 then '+'
  else '/'

/-- One character of the URL-safe base64 alphabet (RFC 4648 §5). -/
def b64urlChar (n : Nat) : Char :=
  if n = 62 then '-'
  else if n = 63 then '_'
  else b64Char n

/-- Base64 of a byte list, parameterised by the alphabet. -/
def b64encodeWith (f : Nat → Char) : List Nat → List Char
  | [] => []
  | [a] => [f (a / 4 % 64), f (a % 4 * 16), '=', '=']
  | [a, b] => [f (a / 4 % 64), f (a % 4 * 16 + b / 16), f (b % 16 * 4), '=']
  | a :: b :: c :: t =>
      [f (a / 4 % 64), f (a % 4 * 16 + b / 16), f (b % 16 * 4 + c / 64),
        f (c % 64)] ++ b64encodeWith f t

/-- `base64.b64encode` on a byte string (one char per byte). -/
def b64encodeStr (s : String) : String :=
  ⟨b64encodeWith b64Char (s.data.map Char.toNat)⟩

/-- `base64.urlsafe_b64encode` on a byte list. -/
def urlsafe_b64encode (bytes : List Nat) : String :=
  ⟨b64encodeWith b64urlChar bytes⟩

/-- `IFAP._maybe_encrypt`: encrypt when configured to (an `AttributeError`
escapes if encryption is enabled but no Fernet object exists), otherwise
optionally base64. -/
def maybe_encrypt (F : FernetM) (cfg : Config) (data : String)
    (b64e : Bool) : Except PyErr String :=
  if cfg.encrypt then
    match cfg.fernet with
    | some k => .ok (F.encrypt k data)
    | none => .error .attributeError
  else if b64e then .ok (b64encodeStr data)
  else .ok data

/-- `''.join(data.split())`: remove every whitespace character. -/
def removeWs (l : List Char) : List Char := l.filter (fun c => !isPyWs c)

/-- The `re.sub` of `IFAP._reflow` in non-preserve mode: after each run of
exactly `w` consecutive characters insert `"\r\n" ++ ic` (the input has no
whitespace left at this point). -/
def chunkWith (w : Nat) (ic : List Char) (l : List Char) : List Char :=
  if h : 0 < w ∧ w ≤ l.length then
    l.take w ++ ('\r' :: '\n' :: ic) ++ chunkWith w ic (l.drop w)
  else l
  termination_by l.length
  decreasing_by
    simp only [List.length_drop]
    omega

/-- `IFAP._reflow` on character lists. -/
def reflowL (ic : List Char) (linelen : Nat) (preserve : Bool)
    (l : List Char) : List Char :=
  if preserve then ic ++ pyStripL (replNl ic l)
  else ic ++ pyStripL (chunkWith (linelen - ic.length) ic (removeWs l))

/-- The initial metadata dict built by `encode_object`:
`mdata = {'fn': file_path, 'bytes': len(file_data)}; mdata.update(metadata)`
(`if metadata:` makes the update a no-op for `None` and for an empty
dict, which coincides with folding over the empty list). -/
def buildMdata (file_path file_data : String) (metadata : Option Metadata) :
    Metadata :=
  let m0 : Metadata :=
    [("fn", .jstr file_path), ("bytes", .jnum (file_data.length : Int))]
  (metadata.getD []).foldl (fun acc kv => aupsert acc kv.1 kv.2) m0

/-- The underscore-padding step of `encode_object` (encrypted mode):
`mdata['_'] = ('_' * 200)[:148 - (len(xifap) % 148)]`. -/
def padMdata (m : Metadata) : Metadata :=
  aupsert m "_"
    (.jstr ⟨(List.replicate 200 '_').take
      (148 - (jdumpL (.jobj m)).length % 148)⟩)

/-- The payload-padding step of `encode_object` (encrypted mode):
`file_data += ' ' * (2048 - (len(file_data) % 2048))`. -/
def padPayload (s : String) : String :=
  ⟨s.data ++ List.replicate (2048 - s.data.length % 2048) ' '⟩

/-- The message assembled by `encode_object`, with one field per header of
the `'\r\n'.join([...])` in the source (`xifap` is the reflowed text that
follows the bare `X-IFAP:` header line). -/
structure EncodedMsg where
  toAddr : String
  fromAddr : String
  subject : String
  xifap : String
  contentType : String
  cte : String
  filename : String
  body : String
deriving DecidableEq

/-- `IFAP.encode_object`. -/
def encode_object (F : FernetM) (cfg : Config) (file_path file_data : String)
    (metadata : Option Metadata) : Except PyErr EncodedMsg :=
  let mdata := buildMdata file_path file_data metadata
  if cfg.encrypt then
    let mdata2 := padMdata mdata
    let xifap2 := jdumpStr mdata2
    let fd2 := padPayload file_data
    do
      let ex ← maybe_encrypt F cfg xifap2 false
      let eb ← maybe_encrypt F cfg fd2 true
      pure { toAddr := ".. <to@ifap.example>",
             fromAddr := ".. <from@ifap.example>",
             subject := "...",
             xifap := ⟨reflowL [' '] 78 false ex.data⟩,
             contentType := "application/x-ifap",
             cte := "7bit",
             filename := "ifap.enc",
             body := ⟨reflowL [] 78 false eb.data⟩ }
  else
    do
      let ex ← maybe_encrypt F cfg (jdumpStr mdata) false
      let eb ← maybe_encrypt F cfg file_data true
      pure { toAddr := ".. <to@ifap.example>",
             fromAddr := ".. <from@ifap.example>",
             subject := file_path,
             xifap := ⟨reflowL [' '] 78 true ex.data⟩,
             contentType := "application/x-ifap",
             cte := "base64",
             filename := basename file_path,
             body := ⟨reflowL [] 78 false eb.data⟩ }

/-! ### The synchronizer: `IFAP.synchronize`

The per-message pipeline (fetch, parse the header prefix, read `X-IFAP`,
decrypt if it does not start with a brace, `json.loads`, take
`metadata['fn']`) and the reverse scan over the folder. -/

/-- A fetched message, reduced to what the scan consumes: the `X-IFAP`
header value as the email parser returns it (`none` when the header is
absent, in which case `None.strip()` raises a caught `AttributeError`). -/
structure RawMsg where
  xifap : Option String
deriving DecidableEq

/-- The result of `imap.fetch` for one sequence number. -/
inductive Fetched : Type where
  | fetchErr : Fetched
  | ok : RawMsg → Fetched
deriving DecidableEq

/-- The backend state a single `synchronize` run sees: the status of
`select` and `search`, and the folder contents keyed by sequence number. -/
structure Backend where
  selectOk : Bool
  searchOk : Bool
  msgs : List (Nat × Fetched)

/-- Association-list lookup keyed by sequence number. -/
def nlookup {β : Type} : List (Nat × β) → Nat → Option β
  | [], _ => none
  | (k, v) :: t, x => if k = x then some v else nlookup t x

/-- The in-memory Index `IFAP._tree`: logical path (any hashable parsed
`fn` value) to `(seq, metadata)`. -/
abbrev Tree := List (JVal × Nat × Metadata)

/-- Lookup in the Index. -/
def treelookup : Tree → JVal → Option (Nat × Metadata)
  | [], _ => none
  | (k2, v) :: tl, k => if k2 = k then some v else treelookup tl k

/-- `self._tree.get(file_path, (-1,))[0]`. -/
def treeSeqD (t : Tree) (k : JVal) : Int :=
  match treelookup t k with
  | some (s, _) => (s : Int)
  | none => -1

/-- Python dict assignment on the Index. -/
def treeUpsert : Tree → JVal → Nat × Metadata → Tree
  | [], k, v => [(k, v)]
  | (k2, v2) :: tl, k, v =>
      if k2 = k then (k2, v) :: tl else (k2, v2) :: treeUpsert tl k v

/-- Python hashability of a parsed `fn` value: lists and dicts cannot be
dict keys, so `self._tree.get(file_path, ...)` raises `TypeError`. -/
def unhashable : JVal → Bool
  | .jarr _ => true
  | .jobj _ => true
  | _ => false

/-- Outcome of the try-block of `synchronize` for one message. -/
inductive POutcome : Type where
  | broken : POutcome
  | typeErr : POutcome
  | parsed : JVal → Metadata → POutcome
deriving DecidableEq

/-- Characters Python 2's base64 decoder keeps; everything else (such as
the `"\r\n "` folds inserted by reflowing) is silently discarded. -/
def isB64KeepCh (c : Char) : Bool :=
  c.isAlpha || c.isDigit || c = '+' || c = '/' || c = '-' || c = '_'
    || c = '='

/-- `Fernet.decrypt` as reached from `synchronize` under Python 2: the
token text is base64-decoded with non-alphabet characters discarded, then
authenticated; failure raises the caught `InvalidToken`. -/
def fernetDecryptPy (F : FernetM) (k : String) (tok : String) :
    Option String :=
  F.decrypt k ⟨tok.data.filter isB64KeepCh⟩

/-- The try-block of `synchronize` (lines 183-194): extract `X-IFAP`,
strip, decrypt unless it starts with a brace, `json.loads`, take `['fn']`.
`broken` covers exactly the caught exception tuple; `typeErr` is the
uncaught `TypeError` raised by `metadata['fn']` when the JSON document is
not an object. -/
def tryParse (F : FernetM) (cfg : Config) : RawMsg → POutcome
  | ⟨none⟩ => .broken
  | ⟨some v⟩ =>
      let s : List Char := pyStripL v.data
      let t? : Option (List Char) :=
        if s.take 1 = ['\x7b'] then some s
        else
          match cfg.fernet with
          | none => none
          | some k => (fernetDecryptPy F k ⟨s⟩).map String.data
      match t? with
      | none => .broken
      | some t =>
          match jparseL t with
          | none => .broken
          | some (.jobj m) =>
              match alookup m "fn" with
              | none => .broken
              | some fp => .parsed fp m
          | some _ => .typeErr

/-- The mutable state of one reverse scan. -/
structure ScanSt where
  tree : Tree
  broken : List Nat
  toDel : List Nat
deriving DecidableEq

/-- A scan either runs to completion or an uncaught exception aborts it
with the Index as mutated so far. -/
inductive ScanOut : Type where
  | done : ScanSt → ScanOut
  | raised : ScanSt → ScanOut
deriving DecidableEq

/-- `imap.fetch` of one sequence number against the folder. -/
def fetchOf (msgs : List (Nat × Fetched)) (seq : Nat) : Fetched :=
  match nlookup msgs seq with
  | some f => f
  | none => .fetchErr

/-- One iteration of the reverse-scan loop body (lines 176-206). -/
def scanStep (F : FernetM) (cfg : Config) (msgs : List (Nat × Fetched))
    (seq : Nat) (st : ScanSt) : ScanOut :=
  if st.toDel.contains seq then .done st
  else
    match fetchOf msgs seq with
    | .fetchErr => .done { st with broken := seq :: st.broken }
    | .ok raw =>
        match tryParse F cfg raw with
        | .broken => .done { st with broken := seq :: st.broken }
        | .typeErr => .raised st
        | .parsed fp md =>
            if fp = .jstr SNAPSHOT_FILE_PATH then .done st
            else if unhashable fp then .raised st
            else if treeSeqD st.tree fp ≥ (seq : Int) then .done st
            else
              let md2 := aerase (aerase md "_") "fn"
              let td2 :=
                match treelookup st.tree fp with
                | some (s0, _) => s0 :: st.toDel
                | none => st.toDel
              .done { st with tree := treeUpsert st.tree fp (seq, md2),
                              toDel := td2 }

/-- The reverse-scan loop over a list of sequence numbers. -/
def scanList (F : FernetM) (cfg : Config) (msgs : List (Nat × Fetched)) :
    List Nat → ScanSt → ScanOut
  | [], st => .done st
  | q :: rest, st =>
      match scanStep F cfg msgs q st with
      | .raised st2 => .raised st2
      | .done st2 => scanList F cfg msgs rest st2

/-- `reversed(sorted(seqs))`. -/
def sortDesc (l : List Nat) : List Nat :=
  List.insertionSort (fun a b => b ≤ a) l

/-- The `to_delete |= set(seqs) - broken - set(k[0] for k in tree.values())`
step after the scan (lines 209-210). -/
def finalToDel (msgs : List (Nat × Fetched)) (st : ScanSt) : List Nat :=
  st.toDel ++ ((msgs.map Prod.fst).filter (fun q =>
    !(st.broken.contains q) && !((st.tree.map (fun e => e.2.1)).contains q)
      && !(st.toDel.contains q)))

/-- How one call of `IFAP.synchronize` ends.  `ioError` is the explicit
`raise IOError` after a failed `select` or `search`; `valueError` is the
uncaught `int('')` on an empty folder; `typeError` is the uncaught
`TypeError` from the scan; each failure carries the Index as left behind. -/
inductive SyncOut : Type where
  | ioError : Tree → SyncOut
  | valueError : Tree → SyncOut
  | typeError : ScanSt → SyncOut
  | ok : ScanSt → List Nat → SyncOut
deriving DecidableEq

/-- `IFAP.synchronize` (lines 144-211). -/
def synchronize (F : FernetM) (cfg : Config) (b : Backend) (tree : Tree) :
    SyncOut :=
  if b.selectOk = false then .ioError tree
  else if b.searchOk = false then .ioError tree
  else if b.msgs.isEmpty then .valueError tree
  else
    match scanList F cfg b.msgs (sortDesc (b.msgs.map Prod.fst))
        { tree := tree, broken := [], toDel := [] } with
    | .raised st => .typeError st
    | .done st => .ok st (finalToDel b.msgs st)

/-! ### `IFAP.flush`, `IFAP.open` and `IFAP_File.__init__` -/

/-- Association-list lookup with string keys (the `_unwritten` dict). -/
def slookup {β : Type} : List (String × β) → String → Option β
  | [], _ => none
  | (k, v) :: t, x => if k = x then some v else slookup t x

/-- Python dict deletion on `_unwritten`. -/
def serase {β : Type} (l : List (String × β)) (x : String) :
    List (String × β) :=
  l.filter (fun kv => !(kv.1 = x : Bool))

/-- The buffering state `IFAP._unwritten` / `IFAP._unwritten_bytes`:
pending path to file contents (the `getvalue()` of the staged file
object, whose `__len__` is the contents length). -/
structure FlushSt where
  unwritten : List (String × String)
  unwritten_bytes : Int
deriving DecidableEq

/-- `IFAP.flush` (lines 282-296): iterate over a snapshot of the pending
keys; encode and `append` each; on `OK` decrement the byte counter and
drop the entry; otherwise `print('Failed: %s' % d)` and move on.
`appendOk` is the backend predicate for which appends return `OK`.
An exception from `encode_object` propagates. -/
def flushStep (F : FernetM) (cfg : Config) (appendOk : EncodedMsg → Bool)
    (acc : FlushSt) (fp : String) : Except PyErr FlushSt :=
  match slookup acc.unwritten fp with
  | none => pure acc
  | some contents => do
      let eml ← encode_object F cfg fp contents none
      if appendOk eml then
        pure { unwritten := serase acc.unwritten fp,
               unwritten_bytes :=
                 acc.unwritten_bytes - (contents.length : Int) }
      else pure acc

def flush (F : FernetM) (cfg : Config) (appendOk : EncodedMsg → Bool)
    (st : FlushSt) : Except PyErr FlushSt :=
  (st.unwritten.map Prod.fst).foldlM (flushStep F cfg appendOk) st

/-- `IFAP._maybe_flush`. -/
def maybe_flush (F : FernetM) (cfg : Config) (appendOk : EncodedMsg → Bool)
    (st : FlushSt) : Except PyErr FlushSt :=
  if !cfg.buffering || cfg.buffering_max_bytes < st.unwritten_bytes then
    flush F cfg appendOk st
  else pure st

/-- The local names bound in the body of `IFAP_File.__init__`
(its parameters; the body binds no other name before line 64 runs). -/
def initLocalNames : List String :=
  ["self", "ifap", "file_path", "mode", "metadata", "args", "kwargs"]

/-- The module-level names of `src/ifaplib/__init__.py` (assignments,
imports and class statements), the globals visible inside the class
bodies. -/
def moduleGlobalNames : List String :=
  ["__author__", "__version__", "__doc__",
   "base64", "email", "hashlib", "json", "os", "re", "threading",
   "StringIO", "urlsafe_b64encode", "Fernet", "InvalidToken",
   "default_backend", "IFAP_File", "_IFAP_Config", "IFAP"]

/-- Python name resolution inside `IFAP_File.__init__`: locals, then
module globals then builtins; an unbound name raises `NameError`.  (No
builtin is named with a leading underscore, so the builtin scope needs no
listing here.) -/
def lookupName (n : String) : Except PyErr Unit :=
  if initLocalNames.contains n || moduleGlobalNames.contains n then .ok ()
  else .error .nameError

/-- The attributes of a constructed `IFAP_File`. -/
structure IFAP_FileObj where
  file_path : String
  open_mode : String
  metadata : Metadata
  contents : String
deriving DecidableEq

/-- `IFAP_File.__init__` (lines 62-68).  Line 64 reads the name
`_file_path`, which is bound neither in the function nor at module level,
before any attribute is assigned. -/
def IFAP_File_init (file_path mode : String) (metadata : Metadata)
    (contents : String) : Except PyErr IFAP_FileObj := do
  let src ← lookupName "_file_path"
  let _ := src
  pure { file_path := file_path, open_mode := mode,
         metadata := metadata, contents := contents }

/-- `IFAP.open` (lines 310-320). -/
def IFAP_open (st : FlushSt) (file_path mode : String) :
    Except PyErr IFAP_FileObj :=
  let contents := ""
  let metadata : Metadata := []
  if mode.data.contains 'r' || mode.data.contains 'a' then
    let mode2 : String := ⟨mode.data.map (fun c => if c = '+' then 'w' else c)⟩
    match slookup st.unwritten file_path with
    | some v => IFAP_File_init file_path mode2 metadata v
    | none => IFAP_File_init file_path mode2 metadata contents
  else IFAP_File_init file_path mode metadata contents

/-! ### SHA-256 and `IFAP.set_encryption_key`

`hashlib.sha256` per FIPS 180-4, over byte lists, with 32-bit words as
naturals reduced mod `2^32`. -/

/-- 32-bit truncation. -/
def m32 (x : Nat) : Nat := x % 4294967296

/-- Right rotation of a 32-bit word. -/
def rotr (n x : Nat) : Nat := m32 (x / 2 ^ n + x * 2 ^ (32 - n))

/-- Right shift of a 32-bit word. -/
def shr (n x : Nat) : Nat := x / 2 ^ n

/-- Bitwise XOR, AND, NOT on 32-bit words. -/
def bxor (a b : Nat) : Nat := a ^^^ b

/-- 32-bit complement. -/
def bnot32 (a : Nat) : Nat := 4294967295 - a

/-- The SHA-256 round constants. -/
def shaK : List Nat :=
  [1116352408, 1899447441, 3049323471, 3921009573,
   961987163, 1508970993, 2453635748, 2870763221,
   3624381080, 310598401, 607225278, 1426881987,
   1925078388, 2162078206, 2614888103, 3248222580,
   3835390401, 4022224774, 264347078, 604807628,
   770255983, 1249150122, 1555081692, 1996064986,
   2554220882, 2821834349, 2952996808, 3210313671,
   3336571891, 3584528711, 113926993, 338241895,
   666307205, 773529912, 1294757372, 1396182291,
   1695183700, 1986661051, 2177026350, 2456956037,
   2730485921, 2820302411, 3259730800, 3345764771,
   3516065817, 3600352804, 4094571909, 275423344,
   430227734, 506948616, 659060556, 883997877,
   958139571, 1322822218, 1537002063, 1747873779,
   1955562222, 2024104815, 2227730452, 2361852424,
   2428436474, 2756734187, 3204031479, 3329325298]

/-- The SHA-256 initial hash value. -/
def shaH0 : List Nat :=
  [1779033703, 3144134277, 1013904242, 2773480762,
   1359893119, 2600822924, 528734635, 1541459225]

/-- Message padding: `0x80`, zeros to 56 mod 64, 8-byte big-endian bit
length. -/
def shaPad (msg : List Nat) : List Nat :=
  let L := msg.length
  let z := (119 - L % 64) % 64
  let bl := L * 8
  msg ++ 0x80 :: List.replicate z 0 ++
    [bl / 2 ^ 56 % 256, bl / 2 ^ 48 % 256, bl / 2 ^ 40 % 256,
     bl / 2 ^ 32 % 256, bl / 2 ^ 24 % 256, bl / 2 ^ 16 % 256,
     bl / 2 ^ 8 % 256, bl % 256]

/-- Big-endian 32-bit words of a byte list. -/
def bytesToWords : List Nat → List Nat
  | a :: b :: c :: d :: t =>
      (a * 2 ^ 24 + b * 2 ^ 16 + c * 2 ^ 8 + d) :: bytesToWords t
  | _ => []

/-- Message-schedule extension from 16 to 64 words. -/
def shaExtend (w : List Nat) (i : Nat) : List Nat :=
  if h : 16 ≤ i ∧ i < 64 then
    let g := fun j => w.getD j 0
    let s0 := bxor (bxor (rotr 7 (g (i - 15))) (rotr 18 (g (i - 15))))
      (shr 3 (g (i - 15)))
    let s1 := bxor (bxor (rotr 17 (g (i - 2))) (rotr 19 (g (i - 2))))
      (shr 10 (g (i - 2)))
    shaExtend (w ++ [m32 (g (i - 16) + s0 + g (i - 7) + s1)]) (i + 1)
  else w
  termination_by 64 - i

/-- One round of the SHA-256 compression function over the running
variables `(a, b, c, d, e, f, g, h)`. -/
def shaRound (kw : Nat × Nat) :
    Nat × Nat × Nat × Nat × Nat × Nat × Nat × Nat →
      Nat × Nat × Nat × Nat × Nat × Nat × Nat × Nat
  | (a, b, c, d, e, f, g, h) =>
    let S1 := bxor (bxor (rotr 6 e) (rotr 11 e)) (rotr 25 e)
    let ch := bxor (e &&& f) (bnot32 e &&& g)
    let t1 := m32 (h + S1 + ch + kw.1 + kw.2)
    let S0 := bxor (bxor (rotr 2 a) (rotr 13 a)) (rotr 22 a)
    let mj := bxor (bxor (a &&& b) (a &&& c)) (b &&& c)
    let t2 := m32 (S0 + mj)
    (m32 (t1 + t2), a, b, c, m32 (d + t1), e, f, g)

/-- Compression of one 64-byte block into the hash state. -/
def shaBlock (hsh : List Nat) (block : List Nat) : List Nat :=
  let w := shaExtend (bytesToWords block) 16
  let g := fun (l : List Nat) (j : Nat) => l.getD j 0
  let st0 := (g hsh 0, g hsh 1, g hsh 2, g hsh 3,
    g hsh 4, g hsh 5, g hsh 6, g hsh 7)
  let stf := (shaK.zip w).foldl (fun st kw => shaRound kw st) st0
  match stf with
  | (a, b, c, d, e, f, gg, h) =>
    [m32 (g hsh 0 + a), m32 (g hsh 1 + b), m32 (g hsh 2 + c),
     m32 (g hsh 3 + d), m32 (g hsh 4 + e), m32 (g hsh 5 + f),
     m32 (g hsh 6 + gg), m32 (g hsh 7 + h)]

/-- Split a byte list into 64-byte blocks. -/
def blocks64 (l : List Nat) : List (List Nat) :=
  if h : l = [] then []
  else if h2 : l.length ≤ 64 then [l]
  else l.take 64 :: blocks64 (l.drop 64)
  termination_by l.length
  decreasing_by
    simp only [List.length_drop]
    have : l.length ≠ 0 := by
      intro h0
      exact h (List.eq_nil_of_length_eq_zero h0)
    omega

/-- Big-endian bytes of a 32-bit word. -/
def wordBytes (x : Nat) : List Nat :=
  [x / 2 ^ 24 % 256, x / 2 ^ 16 % 256, x / 2 ^ 8 % 256, x % 256]

/-- `hashlib.sha256(msg).digest()` over byte lists. -/
def sha256bytes (msg : List Nat) : List Nat :=
  ((blocks64 (shaPad msg)).foldl shaBlock shaH0).flatMap wordBytes

/-- The bytes of an ASCII string (one byte per character, the Python 2
`str` model used throughout). -/
def strBytes (s : String) : List Nat := s.data.map Char.toNat

/-- `IFAP.set_encryption_key` (lines 269-280): derive the Fernet key and
enable encryption. -/
def set_encryption_key (cfg : Config) (key : String) : Config :=
  let k := urlsafe_b64encode ((sha256bytes (strBytes key)).take 32)
  { cfg with key := some k, fernet := some k, encrypt := true }

/-- The `X-IFAP` header value that `synchronize` reads back from a
message assembled by `encode_object`: the reflowed text after the bare
`X-IFAP:` line (the email parser returns the folded value; the leading
line break and the `strip()` in `synchronize` cancel, so the stripped
value equals the stripped reflow output). -/
def msgToRaw (m : EncodedMsg) : RawMsg := ⟨some m.xifap⟩

/-! ### Derived views of the scan used by the properties -/

/-- The `(path, metadata)` a fetched message parses to, if any. -/
def parsedPathOf (F : FernetM) (cfg : Config) : Fetched →
    Option (JVal × Metadata)
  | .fetchErr => none
  | .ok raw =>
      match tryParse F cfg raw with
      | .parsed fp md => some (fp, md)
      | _ => none

/-- The path message `q` of the folder parses to, if any. -/
def pathAt (F : FernetM) (cfg : Config) (msgs : List (Nat × Fetched))
    (q : Nat) : Option JVal :=
  (nlookup msgs q).bind (fun f => (parsedPathOf F cfg f).map Prod.fst)

/-- The sequence numbers of messages that parse successfully and name
path `p` in their `fn` field. -/
def namingSeqs (F : FernetM) (cfg : Config) (msgs : List (Nat × Fetched))
    (p : JVal) : List Nat :=
  (msgs.map Prod.fst).filter (fun q => decide (pathAt F cfg msgs q = some p))

/-- The maximum sequence of a successfully parsed message naming `p`
(0 when there is none). -/
def maxNaming (F : FernetM) (cfg : Config) (msgs : List (Nat × Fetched))
    (p : JVal) : Nat :=
  (namingSeqs F cfg msgs p).foldr max 0

/-- SPEC-SIDE definition (§3 of the specification): a tombstone is a
record whose metadata carries `del == true`.  This is the specification's
notion, written here only to state what the specification asserts; the
code never inspects a `del` key. -/
def spec_isTombstone (m : Metadata) : Bool :=
  alookup m "del" = some (.jbool true)

/-- SPEC-SIDE definition: the sequence numbers of messages that parse
successfully, are not tombstones, and name path `p` — the set over which
the specification takes its maximum. -/
def spec_nonTombSeqs (F : FernetM) (cfg : Config)
    (msgs : List (Nat × Fetched)) (p : JVal) : List Nat :=
  (msgs.map Prod.fst).filter (fun q =>
    match (nlookup msgs q).bind (parsedPathOf F cfg) with
    | some (fp, md) => fp = p && !spec_isTombstone md
    | none => false)

/-- SPEC-SIDE definition: the maximum of `spec_nonTombSeqs`. -/
def spec_maxNonTomb (F : FernetM) (cfg : Config)
    (msgs : List (Nat × Fetched)) (p : JVal) : Nat :=
  (spec_nonTombSeqs F cfg msgs p).foldr max 0

/-! ### Append/synchronize operation sequences

The protocol (docstring of `synchronize`, §4.4 of the specification)
assumes messages receive ascending, never-repeated sequence numbers.
`Reach` is the set of client states reachable by any interleaving of
appends (of arbitrary message content) and completed `synchronize`
calls against a folder that assigns such numbers. -/

/-- A client state: the folder contents, the next fresh sequence number,
and the in-memory Index. -/
structure SysSt where
  msgs : List (Nat × Fetched)
  next : Nat
  tree : Tree

/-- Reachability by append/synchronize sequences. -/
inductive Reach (F : FernetM) (cfg : Config) : SysSt → Prop where
  | init : Reach F cfg ⟨[], 1, []⟩
  | app : ∀ {ms n t} (f : Fetched), Reach F cfg ⟨ms, n, t⟩ →
      Reach F cfg ⟨ms ++ [(n, f)], n + 1, t⟩
  | sync : ∀ {ms n t} (st : ScanSt) (td : List Nat),
      Reach F cfg ⟨ms, n, t⟩ →
      synchronize F cfg ⟨true, true, ms⟩ t = .ok st td →
      Reach F cfg ⟨ms, n, st.tree⟩

/-! ### Concrete fixtures used by the counterexamples and witnesses -/

/-- A degenerate Fernet whose operations are the identity; enough for the
plaintext scenarios, where it is never consulted. -/
def idFernet : FernetM := ⟨fun _ d => d, fun _ d => some d⟩

/-- The default configuration (`_IFAP_Config()` with no arguments). -/
def plainCfg : Config := {}

/-- Folder: seq 1 writes path `"f"`; seq 2 is a tombstone for `"f"`
(metadata `del: true`). -/
def msgsTomb : List (Nat × Fetched) :=
  [(1, .ok ⟨some "\x7b\"fn\": \"f\"\x7d"⟩),
   (2, .ok ⟨some "\x7b\"fn\": \"f\", \"del\": true\x7d"⟩)]

/-- Folder: a single message whose `fn` is the list `[1]`. -/
def msgsBadFn : List (Nat × Fetched) :=
  [(1, .ok ⟨some "\x7b\"fn\": [1]\x7d"⟩)]

/-- Folder: seq 2 names `"A"`, seq 3 names `"B"`. -/
def msgsAB : List (Nat × Fetched) :=
  [(2, .ok ⟨some "\x7b\"fn\": \"A\"\x7d"⟩),
   (3, .ok ⟨some "\x7b\"fn\": \"B\"\x7d"⟩)]

/-- A stale Index claiming path `"B"` at sequence 2 (no message at
sequence 2 names `"B"`). -/
def staleTree : Tree := [(.jstr "B", (2, []))]

/-- Folder: seq 1 names `"g"`; seq 2 is a snapshot message (its `fn` is
the reserved snapshot path). -/
def msgsSnap : List (Nat × Fetched) :=
  [(1, .ok ⟨some "\x7b\"fn\": \"g\"\x7d"⟩),
   (2, .ok ⟨some "\x7b\"fn\": \"IFAP/metadata.json\"\x7d"⟩)]

/-! ### Claims C2, C3, C6, C9, C10 -/

/-- C3: if the backend's `select` or `search` call returns a non-OK
status, `synchronize` raises `IOError` and the Index is returned exactly
as it was (no scan step runs before the two status checks). -/
theorem claim_C3 (F : FernetM) (cfg : Config) (b : Backend) (t : Tree)
    (h : b.selectOk = false ∨ b.searchOk = false) :
    synchronize F cfg b t = .ioError t := by
  rcases h with h | h
  · rw [synchronize, if_pos h]
  · by_cases h1 : b.selectOk = false
    · rw [synchronize, if_pos h1]
    · rw [synchronize, if_neg h1, if_pos h]

/-- Witness for C3 at a concrete backend whose `select` fails. -/
theorem claim_C3_witness :
    synchronize idFernet plainCfg ⟨false, true, []⟩ [] = .ioError [] :=
  claim_C3 idFernet plainCfg ⟨false, true, []⟩ [] (Or.inl rfl)

/-- C2: a message whose `X-IFAP` JSON parses but whose `fn` value is a
JSON list makes `synchronize` raise an uncaught `TypeError` (the except
tuple at lines 191-192 does not include `TypeError`, and
`self._tree.get(file_path, ...)` at line 198 is outside the try block),
contradicting the claim that the message is classified broken and no
exception escapes. -/
theorem claim_C2 :
    synchronize idFernet plainCfg ⟨true, true, msgsBadFn⟩ [] =
      .typeError ⟨[], [], []⟩ := by
  rfl

/-- C6: the snapshot handler is an unimplemented stub
(`print('FIXME: SNAPSHOT AT %s' % seq)`): scanning a folder with a
snapshot message at sequence 2 neither merges anything into the Index
nor stops the scan — the message at sequence 1 (below the snapshot) is
still fetched and indexed, and the snapshot message itself is queued
for deletion. -/
theorem claim_C6 :
    synchronize idFernet plainCfg ⟨true, true, msgsSnap⟩ [] =
      .ok ⟨[(.jstr "g", 1, [])], [], []⟩ [2] := by
  rfl

/-- C10: `IFAP.open` raises `NameError` for every path and mode: line 64
of `IFAP_File.__init__` reads the name `_file_path`, which is bound
neither among the function's locals nor at module level, so no file
handle is ever constructed. -/
theorem claim_C10 (st : FlushSt) (fp mode : String) :
    IFAP_open st fp mode = .error .nameError := by
  have hini : ∀ (m : String) (md : Metadata) (c : String),
      IFAP_File_init fp m md c = .error .nameError := fun m md c => rfl
  rw [IFAP_open]
  by_cases h : (mode.data.contains 'r' || mode.data.contains 'a') = true
  · rw [if_pos h]
    cases hs : slookup st.unwritten fp
    · exact hini _ _ _
    · exact hini _ _ _
  · rw [if_neg h]
    exact hini _ _ _

/-- Witness for C10 at a concrete path and mode. -/
theorem claim_C10_witness :
    IFAP_open ⟨[], 0⟩ "a" "r" = .error .nameError :=
  claim_C10 ⟨[], 0⟩ "a" "r"

/-- C9: `set_encryption_key` sets the key to the URL-safe base64 of the
first 32 bytes of the SHA-256 digest of the passphrase, points the
Fernet at that key, and enables encryption, so every subsequent
`encode_object` takes the encrypted branch (subject `"..."`, 7bit
transfer encoding, filename `ifap.enc`). -/
theorem claim_C9 (F : FernetM) (cfg : Config) (key : String) :
    (set_encryption_key cfg key).key =
      some (urlsafe_b64encode ((sha256bytes (strBytes key)).take 32))
    ∧ (set_encryption_key cfg key).encrypt = true
    ∧ (set_encryption_key cfg key).fernet = (set_encryption_key cfg key).key
    ∧ ∀ (fp fd : String) (md : Option Metadata), ∃ msg,
        encode_object F (set_encryption_key cfg key) fp fd md = .ok msg
        ∧ msg.subject = "..." ∧ msg.cte = "7bit"
        ∧ msg.filename = "ifap.enc" := by
  refine ⟨rfl, rfl, rfl, fun fp fd md => ⟨_, rfl, rfl, rfl, rfl⟩⟩

/-! ### Claim C7: the padding arithmetic of encrypted `encode_object` -/

theorem aupsert_absent {β : Type} :
    ∀ (l : List (String × β)) (k : String) (v : β),
    alookup l k = none → aupsert l k v = l ++ [(k, v)]
  | [], _, _, _ => rfl
  | (k2, v2) :: t, k, v, h => by
      rw [alookup] at h
      by_cases hk : k2 = k
      · rw [if_pos hk] at h
        exact absurd h (by simp)
      · rw [if_neg hk] at h
        rw [aupsert, if_neg hk, aupsert_absent t k v h]
        rfl

theorem aupsert_ne_nil {β : Type} (l : List (String × β)) (k : String)
    (v : β) : aupsert l k v ≠ [] := by
  cases l with
  | nil => simp [aupsert]
  | cons kv t =>
      rw [aupsert]
      split <;> simp

theorem foldl_aupsert_ne_nil :
    ∀ (md : List (String × JVal)) (acc : Metadata), acc ≠ [] →
    md.foldl (fun a kv => aupsert a kv.1 kv.2) acc ≠ []
  | [], _, h => h
  | kv :: t, acc, _ => by
      rw [List.foldl_cons]
      exact foldl_aupsert_ne_nil t _ (aupsert_ne_nil acc kv.1 kv.2)

theorem buildMdata_ne_nil (fp fd : String) (md : Option Metadata) :
    buildMdata fp fd md ≠ [] := by
  rw [buildMdata]
  exact foldl_aupsert_ne_nil _ _ (by simp)

theorem jdumpFields_append_one (nl : List Char) (lvl : Nat) :
    ∀ (kvs : List (String × JVal)) (kv : String × JVal) (k2 : String)
      (v2 : JVal),
    jdumpFields nl lvl kv (kvs ++ [(k2, v2)])
      = jdumpFields nl lvl kv kvs ++ ((',' :: ' ' :: (nl ++ ind lvl))
          ++ ('"' :: (escStr k2 ++ ('"' :: ':' :: ' ' :: jdumpV nl lvl v2))))
  | [], (k, x), k2, v2 => by
      rw [List.nil_append, jdumpFields_cons, jdumpFields_nil,
        jdumpFields_nil]
      simp [List.append_assoc]
  | y :: ys, (k, x), k2, v2 => by
      rw [List.cons_append, jdumpFields_cons, jdumpFields_cons,
        jdumpFields_append_one nl lvl ys y k2 v2]
      simp [List.append_assoc]

theorem jdump_obj_append_len (kv : String × JVal)
    (kvs : List (String × JVal)) (k2 : String) (v2 : JVal) :
    (jdumpL (.jobj (kv :: (kvs ++ [(k2, v2)])))).length
      = (jdumpL (.jobj (kv :: kvs))).length + (escStr k2).length
        + (jdumpV ['\n'] 1 v2).length + 8 := by
  rw [jdumpL, jdumpL, jdumpV, jdumpV]
  rw [show jdumpFieldsL ['\n'] 1 (kv :: (kvs ++ [(k2, v2)]))
    = jdumpFields ['\n'] 1 kv (kvs ++ [(k2, v2)]) from rfl]
  rw [show jdumpFieldsL ['\n'] 1 (kv :: kvs)
    = jdumpFields ['\n'] 1 kv kvs from rfl]
  rw [jdumpFields_append_one]
  simp [List.length_append, ind]
  omega

theorem escStr_underscores :
    ∀ (l : List Char), (∀ c ∈ l, c = '_') → escStr ⟨l⟩ = l
  | [], _ => rfl
  | c :: t, h => by
      have hc : c = '_' := h c (by simp)
      have ht : escStr ⟨t⟩ = t := escStr_underscores t
        (fun d hd => h d (by simp [hd]))
      rw [escStr] at ht ⊢
      simp only [List.map_cons, List.flatten_cons, hc]
      rw [show escChar '_' = ['_'] from rfl, ht]
      rfl

/-- C7 (as amended): the `'_'` padding value has length
`148 - len(xifap) % 148`, but adding the field itself costs a further 11
bytes of JSON (`, \n "_": "` and the closing quote), so the serialized
metadata length is congruent to 11 mod 148 — not a multiple of 148.  The
payload padding claim holds: spaces are appended to a multiple of 2048
(a full extra block when already aligned). -/
theorem claim_C7 (fp fd : String) (md : Option Metadata)
    (h : alookup (buildMdata fp fd md) "_" = none) :
    (jdumpL (.jobj (padMdata (buildMdata fp fd md)))).length % 148 = 11
    ∧ (padPayload fd).length % 2048 = 0 := by
  constructor
  · obtain ⟨kv, kvs, hM⟩ : ∃ kv kvs, buildMdata fp fd md = kv :: kvs := by
      cases hc : buildMdata fp fd md with
      | nil => exact absurd hc (buildMdata_ne_nil fp fd md)
      | cons kv kvs => exact ⟨kv, kvs, rfl⟩
    rw [hM] at h ⊢
    rw [padMdata, aupsert_absent _ _ _ h, List.cons_append]
    rw [jdump_obj_append_len]
    have hpadc : ∀ c ∈ (List.replicate 200 '_').take
        (148 - (jdumpL (.jobj (kv :: kvs))).length % 148),
        c = '_' := by
      intro c hc
      rw [List.take_replicate] at hc
      exact List.eq_of_mem_replicate hc
    rw [jdumpV, show escStr "_" = ['_'] from rfl]
    rw [escStr_underscores _ hpadc]
    simp only [List.length_cons, List.length_append, List.length_singleton,
      List.length_take, List.length_replicate, List.length_nil]
    have hmod : (jdumpL (.jobj (kv :: kvs))).length % 148 < 148 :=
      Nat.mod_lt _ (by omega)
    rw [inf_eq_min]
    omega
  · rw [padPayload]
    show (fd.data ++ List.replicate (2048 - fd.data.length % 2048)
      ' ').length % 2048 = 0
    simp only [List.length_append, List.length_replicate]
    have : fd.data.length % 2048 < 2048 := Nat.mod_lt _ (by omega)
    omega

/-- Witness for C7 at `encode_object("a", "", None)`. -/
theorem claim_C7_witness :
    alookup (buildMdata "a" "" none) "_" = none
    ∧ ((jdumpL (.jobj (padMdata (buildMdata "a" "" none)))).length % 148 = 11
      ∧ (padPayload "").length % 2048 = 0) :=
  ⟨rfl, claim_C7 "a" "" none rfl⟩

/-- Counterexample to C7 as stated: for path `"a"`, empty payload and no
user metadata the serialized padded metadata blob is 159 bytes long, and
159 is not a multiple of 148. -/
theorem claim_C7_cex :
    (jdumpL (.jobj (padMdata (buildMdata "a" "" none)))).length = 159
    ∧ 159 % 148 ≠ 0 :=
  ⟨rfl, by decide⟩

/-! ### Claim C8: flush behaviour per pending entry -/

/-- Whether the staged entry `kv` fails to persist: its encoding raises,
or the backend append of its encoded message is not `OK`. -/
def appendFails (F : FernetM) (cfg : Config) (appendOk : EncodedMsg → Bool)
    (kv : String × String) : Bool :=
  match encode_object F cfg kv.1 kv.2 none with
  | .ok m => !appendOk m
  | .error _ => true

theorem encode_plain (F : FernetM) (cfg : Config) (h : cfg.encrypt = false)
    (fp fd : String) (md : Option Metadata) :
    encode_object F cfg fp fd md = .ok
      { toAddr := ".. <to@ifap.example>",
        fromAddr := ".. <from@ifap.example>",
        subject := fp,
        xifap := ⟨reflowL [' '] 78 true (jdumpStr (buildMdata fp fd md)).data⟩,
        contentType := "application/x-ifap",
        cte := "base64",
        filename := basename fp,
        body := ⟨reflowL [] 78 false (b64encodeStr fd).data⟩ } := by
  simp [encode_object, maybe_encrypt, h, Bind.bind, Except.bind, pure,
    Except.pure]

theorem slookup_append_right {β : Type} :
    ∀ (A B : List (String × β)) (p : String), p ∉ A.map Prod.fst →
    slookup (A ++ B) p = slookup B p
  | [], _, _, _ => rfl
  | (k, v) :: t, B, p, h => by
      rw [List.cons_append, slookup]
      rw [List.map_cons, List.mem_cons] at h
      push_neg at h
      rw [if_neg (fun hk => h.1 hk.symm)]
      exact slookup_append_right t B p h.2

theorem serase_of_not_mem {β : Type} (l : List (String × β)) (p : String)
    (h : p ∉ l.map Prod.fst) : serase l p = l := by
  rw [serase, List.filter_eq_self]
  intro kv hkv
  have hne : kv.1 ≠ p := fun hk => h (List.mem_map.mpr ⟨kv, hkv, hk⟩)
  simp [hne]

theorem mem_filter_map_fst {β : Type} (l : List (String × β))
    (f : String × β → Bool) (p : String)
    (h : p ∉ l.map Prod.fst) : p ∉ (l.filter f).map Prod.fst := by
  intro hmem
  obtain ⟨kv, hkv, hk⟩ := List.mem_map.mp hmem
  exact h (List.mem_map.mpr ⟨kv, List.mem_of_mem_filter hkv, hk⟩)

theorem serase_append {β : Type} (A B : List (String × β)) (p : String) :
    serase (A ++ B) p = serase A p ++ serase B p := by
  simp [serase, List.filter_append]

theorem flush_go (F : FernetM) (cfg : Config) (appendOk : EncodedMsg → Bool)
    (hpc : cfg.encrypt = false) :
    ∀ (rest done : List (String × String)) (b : Int),
    ((done ++ rest).map Prod.fst).Nodup →
    (rest.map Prod.fst).foldlM (flushStep F cfg appendOk)
      (⟨done.filter (appendFails F cfg appendOk) ++ rest, b⟩ : FlushSt)
      = .ok ⟨(done ++ rest).filter (appendFails F cfg appendOk),
          b - ((rest.filter (fun kv =>
              !appendFails F cfg appendOk kv)).map
            (fun kv => (kv.2.length : Int))).sum⟩
  | [], done, b, _ => by
      simp [pure, Except.pure]
  | (p, c) :: rest2, done, b, hN => by
      have hN' : ((done.map Prod.fst) ++ p :: (rest2.map Prod.fst)).Nodup := by
        simpa using hN
      obtain ⟨hd1, hd2, hdisj⟩ := List.nodup_append.mp hN'
      have hp2 : p ∉ rest2.map Prod.fst := (List.nodup_cons.mp hd2).1
      have hp1 : p ∉ done.map Prod.fst := fun hm =>
        hdisj hm (List.mem_cons_self _ _)
      have hNn : (((done ++ [(p, c)]) ++ rest2).map Prod.fst).Nodup := by
        rw [show (done ++ [(p, c)]) ++ rest2 = done ++ (p, c) :: rest2 by
          simp]
        exact hN
      have hsl : slookup (done.filter (appendFails F cfg appendOk)
          ++ (p, c) :: rest2) p = some c := by
        rw [slookup_append_right _ _ _
          (mem_filter_map_fst _ _ _ hp1), slookup, if_pos rfl]
      have hser : serase (done.filter (appendFails F cfg appendOk)
          ++ (p, c) :: rest2) p
          = done.filter (appendFails F cfg appendOk) ++ rest2 := by
        rw [serase_append,
          serase_of_not_mem _ _ (mem_filter_map_fst _ _ _ hp1)]
        rw [show serase ((p, c) :: rest2) p = serase rest2 p from by
          rw [serase, serase, List.filter_cons]
          simp]
        rw [serase_of_not_mem _ _ hp2]
      have hbind : ∀ (v : FlushSt) (k : FlushSt → Except PyErr FlushSt),
          (Except.ok v : Except PyErr FlushSt) >>= k = k v := fun v k => rfl
      obtain ⟨msg, hmsg⟩ : ∃ m, encode_object F cfg p c none = .ok m :=
        ⟨_, encode_plain F cfg hpc p c none⟩
      have hAF : appendFails F cfg appendOk (p, c) = !appendOk msg := by
        rw [appendFails, hmsg]
      have hstep : flushStep F cfg appendOk
          ⟨done.filter (appendFails F cfg appendOk) ++ (p, c) :: rest2, b⟩ p
          = .ok (if appendOk msg = true then
              ⟨done.filter (appendFails F cfg appendOk) ++ rest2,
                b - (c.length : Int)⟩
            else ⟨done.filter (appendFails F cfg appendOk)
              ++ (p, c) :: rest2, b⟩) := by
        simp only [flushStep, hsl, hmsg, Bind.bind, Except.bind, pure,
          Except.pure]
        by_cases hOk : appendOk msg = true
        · rw [if_pos hOk, if_pos hOk, hser]
        · rw [if_neg hOk, if_neg hOk]
      rw [List.map_cons, List.foldlM_cons, hstep, hbind]
      by_cases hOk : appendOk msg = true
      · rw [if_pos hOk]
        have hA : appendFails F cfg appendOk (p, c) = false := by
          rw [hAF, hOk]
          rfl
        have hinit : done.filter (appendFails F cfg appendOk) ++ rest2
            = (done ++ [(p, c)]).filter (appendFails F cfg appendOk)
              ++ rest2 := by
          rw [List.filter_append, List.filter_cons]
          simp [hA]
        rw [hinit]
        rw [flush_go F cfg appendOk hpc rest2 (done ++ [(p, c)])
          (b - (c.length : Int)) hNn]
        rw [show (done ++ [(p, c)]) ++ rest2 = done ++ (p, c) :: rest2 by
          simp]
        simp [List.filter_cons, hA, sub_sub]
      · rw [if_neg hOk]
        have hA : appendFails F cfg appendOk (p, c) = true := by
          rw [hAF]
          simp [hOk]
        have hinit : done.filter (appendFails F cfg appendOk)
              ++ (p, c) :: rest2
            = (done ++ [(p, c)]).filter (appendFails F cfg appendOk)
              ++ rest2 := by
          rw [List.filter_append, List.filter_cons]
          simp [hA]
        rw [hinit]
        rw [flush_go F cfg appendOk hpc rest2 (done ++ [(p, c)]) b hNn]
        rw [show (done ++ [(p, c)]) ++ rest2 = done ++ (p, c) :: rest2 by
          simp]
        simp [List.filter_cons, hA]

/-- C8 (as amended): `flush` encodes and appends every pending path; an
entry whose append returns `OK` is removed and the byte counter drops by
its size; an entry whose append fails stays staged — but no error reaches
the caller (the failure is only printed), so `flush` returns normally
either way. -/
theorem claim_C8 (F : FernetM) (cfg : Config) (appendOk : EncodedMsg → Bool)
    (st : FlushSt) (hN : (st.unwritten.map Prod.fst).Nodup)
    (hpc : cfg.encrypt = false) :
    flush F cfg appendOk st = .ok
      ⟨st.unwritten.filter (appendFails F cfg appendOk),
       st.unwritten_bytes - ((st.unwritten.filter
          (fun kv => !appendFails F cfg appendOk kv)).map
          (fun kv => (kv.2.length : Int))).sum⟩ := by
  have h := flush_go F cfg appendOk hpc st.unwritten [] st.unwritten_bytes
    (by simpa using hN)
  rw [List.nil_append] at h
  rw [flush]
  exact h

/-- Witness for C8: one staged entry whose append succeeds is removed and
the counter drops by its two bytes. -/
theorem claim_C8_witness :
    ((([("p", "hi")] : List (String × String)).map Prod.fst).Nodup
      ∧ plainCfg.encrypt = false)
    ∧ flush idFernet plainCfg (fun _ => true) ⟨[("p", "hi")], 10⟩ = .ok
        ⟨([("p", "hi")] : List (String × String)).filter
          (appendFails idFernet plainCfg (fun _ => true)),
         10 - ((([("p", "hi")] : List (String × String)).filter
            (fun kv => !appendFails idFernet plainCfg (fun _ => true) kv)).map
            (fun kv => (kv.2.length : Int))).sum⟩ :=
  ⟨⟨by simp, rfl⟩,
    claim_C8 idFernet plainCfg (fun _ => true) ⟨[("p", "hi")], 10⟩
      (by simp) rfl⟩

/-- Counterexample to C8 as stated: with a backend whose append always
fails, `flush` of a single staged entry returns normally (no error is
surfaced to the caller — the claim's error-propagation clause is false);
the entry does remain staged. -/
theorem claim_C8_cex :
    flush idFernet plainCfg (fun _ => false) ⟨[("p", "x")], 5⟩
      = .ok ⟨[("p", "x")], 5⟩
    ∧ ∀ e : PyErr, flush idFernet plainCfg (fun _ => false) ⟨[("p", "x")], 5⟩
      ≠ .error e := by
  constructor
  · rfl
  · intro e h
    rw [show flush idFernet plainCfg (fun _ => false) ⟨[("p", "x")], 5⟩
      = .ok ⟨[("p", "x")], 5⟩ from rfl] at h
    exact Except.noConfusion h

/-! ### Claim C4: the encode/parse round trip -/

theorem dropWhileB_decomp (p : Char → Bool) :
    ∀ l : List Char, ∃ a, l = a ++ dropWhileB p l ∧ a.all p = true
  | [] => ⟨[], rfl, rfl⟩
  | c :: t => by
      by_cases hc : p c = true
      · obtain ⟨a, ha, hall⟩ := dropWhileB_decomp p t
        refine ⟨c :: a, ?_, by simp [hc, hall]⟩
        rw [dropWhileB, if_pos hc, List.cons_append]
        exact congrArg (c :: ·) ha
      · exact ⟨[], by rw [dropWhileB, if_neg hc, List.nil_append],
          rfl⟩

theorem dropWhileB_head (p : Char → Bool) :
    ∀ (l : List Char) (c : Char) (t : List Char),
    dropWhileB p l = c :: t → p c = false
  | [], c, t, h => by exact absurd h (by simp [dropWhileB])
  | d :: r, c, t, h => by
      by_cases hd : p d = true
      · rw [dropWhileB, if_pos hd] at h
        exact dropWhileB_head p r c t h
      · rw [dropWhileB, if_neg hd] at h
        obtain ⟨rfl, _⟩ : d = c ∧ r = t := by
          exact ⟨(List.cons.injEq _ _ _ _ ▸ h).1, (List.cons.injEq _ _ _ _ ▸ h).2⟩
        exact Bool.eq_false_iff.mpr hd

/-- `strip` decomposition: the original text is some all-whitespace
prefix, the stripped text, and some all-whitespace suffix. -/
theorem pyStripL_decomp (l : List Char) :
    ∃ a b, l = a ++ pyStripL l ++ b ∧ a.all isPyWs = true
      ∧ b.all isPyWs = true := by
  obtain ⟨a, ha, haws⟩ := dropWhileB_decomp isPyWs l
  obtain ⟨b, hb, hbws⟩ := dropWhileB_decomp isPyWs
    (dropWhileB isPyWs l).reverse
  refine ⟨a, b.reverse, ?_, haws, by simpa using hbws⟩
  rw [pyStripL]
  calc l = a ++ dropWhileB isPyWs l := ha
    _ = a ++ ((dropWhileB isPyWs l).reverse).reverse := by
        rw [List.reverse_reverse]
    _ = a ++ (b ++ dropWhileB isPyWs (dropWhileB isPyWs l).reverse).reverse
        := by rw [← hb]
    _ = a ++ ((dropWhileB isPyWs (dropWhileB isPyWs l).reverse).reverse
          ++ b.reverse) := by rw [List.reverse_append]
    _ = _ := by rw [List.append_assoc]

/-- Characters survive `strip`. -/
theorem mem_pyStripL {x : Char} {l : List Char} (h : x ∈ pyStripL l) :
    x ∈ l := by
  obtain ⟨a, b, hab, _, _⟩ := pyStripL_decomp l
  rw [hab]
  simp [h]

theorem pyStripL_ws_cons {c : Char} (hc : isPyWs c = true)
    (l : List Char) : pyStripL (c :: l) = pyStripL l := by
  rw [pyStripL, pyStripL, dropWhileB, if_pos hc]

theorem pyStripL_single {c : Char} (hc : isPyWs c = false) :
    pyStripL [c] = [c] := by
  rw [pyStripL, dropWhileB, if_neg (by simp [hc])]
  rw [List.reverse_singleton, dropWhileB, if_neg (by simp [hc])]
  rfl

theorem pyStripL_two_ends {c d : Char} (A : List Char)
    (hc : isPyWs c = false) (hd : isPyWs d = false) :
    pyStripL (c :: (A ++ [d])) = c :: (A ++ [d]) := by
  rw [pyStripL]
  rw [show dropWhileB isPyWs (c :: (A ++ [d])) = c :: (A ++ [d]) from by
    rw [dropWhileB, if_neg (by simp [hc])]]
  rw [show (c :: (A ++ [d])).reverse = d :: (A.reverse ++ [c]) from by
    simp]
  rw [show dropWhileB isPyWs (d :: (A.reverse ++ [c]))
      = d :: (A.reverse ++ [c]) from by
    rw [dropWhileB, if_neg (by simp [hd])]]
  simp

theorem pyStripL_of_clean :
    ∀ (l : List Char),
    (∀ c, l.head? = some c → isPyWs c = false) →
    (∀ c, l.getLast? = some c → isPyWs c = false) →
    pyStripL l = l
  | [], _, _ => rfl
  | c :: t, hh, hl => by
      rcases List.eq_nil_or_concat' t with rfl | ⟨A, d, rfl⟩
      · exact pyStripL_single (hh c rfl)
      · refine pyStripL_two_ends A (hh c rfl) (hl d ?_)
        rw [show c :: (A ++ [d]) = (c :: A) ++ [d] by simp,
          List.getLast?_append_of_ne_nil _ (by simp)]
        rfl

theorem pyStripL_getLast_not_ws (l : List Char) (c : Char)
    (h : (pyStripL l).getLast? = some c) : isPyWs c = false := by
  rw [pyStripL, List.getLast?_reverse] at h
  cases hd : dropWhileB isPyWs (dropWhileB isPyWs l).reverse with
  | nil =>
      rw [hd] at h
      exact absurd h (by simp)
  | cons x t =>
      rw [hd] at h
      simp only [List.head?_cons, Option.some.injEq] at h
      subst h
      exact dropWhileB_head isPyWs _ x t hd

theorem pyStripL_head_not_ws (l : List Char) (c : Char)
    (h : (pyStripL l).head? = some c) : isPyWs c = false := by
  rw [pyStripL, List.head?_reverse] at h
  obtain ⟨b, hb, _⟩ := dropWhileB_decomp isPyWs (dropWhileB isPyWs l).reverse
  have hne : dropWhileB isPyWs (dropWhileB isPyWs l).reverse ≠ [] := by
    intro h0
    rw [h0] at h
    exact absurd h (by simp)
  have h2 : ((dropWhileB isPyWs l).reverse).getLast? = some c := by
    rw [hb, List.getLast?_append_of_ne_nil _ hne]
    exact h
  rw [List.getLast?_reverse] at h2
  cases hu : dropWhileB isPyWs l with
  | nil =>
      rw [hu] at h2
      exact absurd h2 (by simp)
  | cons x t =>
      rw [hu] at h2
      simp only [List.head?_cons, Option.some.injEq] at h2
      subst h2
      exact dropWhileB_head isPyWs l x t hu

theorem pyStripL_idem (l : List Char) :
    pyStripL (pyStripL l) = pyStripL l :=
  pyStripL_of_clean (pyStripL l) (pyStripL_head_not_ws l)
    (pyStripL_getLast_not_ws l)

/-- Python whitespace characters are not kept by the base64 decoder. -/
theorem ws_not_keep {c : Char} (h : isPyWs c = true) :
    isB64KeepCh c = false := by
  have hd : ((((c = ' ' ∨ c = '\t') ∨ c = '\n') ∨ c = '\r')
      ∨ c = '\x0b') ∨ c = '\x0c' := by
    simpa [isPyWs, decide_eq_true_eq] using h
  rcases hd with ((((rfl | rfl) | rfl) | rfl) | rfl) | rfl <;> decide

theorem filter_all_ws_nil {q : Char → Bool}
    (hq : ∀ c, isPyWs c = true → q c = false) :
    ∀ (a : List Char), a.all isPyWs = true → a.filter q = []
  | [], _ => rfl
  | c :: t, h => by
      obtain ⟨hc, ht⟩ := by simpa using h
      rw [List.filter_cons, if_neg (by simp [hq c hc])]
      exact filter_all_ws_nil hq t (by simpa using ht)

/-- `strip` does not change the base64-relevant characters. -/
theorem filter_pyStripL {q : Char → Bool}
    (hq : ∀ c, isPyWs c = true → q c = false) (l : List Char) :
    (pyStripL l).filter q = l.filter q := by
  obtain ⟨a, b, hab, haws, hbws⟩ := pyStripL_decomp l
  conv_rhs => rw [hab]
  rw [List.filter_append, List.filter_append,
    filter_all_ws_nil hq a haws, filter_all_ws_nil hq b hbws]
  simp

/-- The chunker only inserts `"\r\n" ++ ic`; filtering those characters
out recovers the filtered original. -/
theorem filter_chunkWith {q : Char → Bool} {ic : List Char}
    (hic : ∀ c ∈ ic, q c = false) (hr : q '\r' = false)
    (hn : q '\n' = false) (w : Nat) :
    ∀ (n : Nat) (l : List Char), l.length ≤ n →
    (chunkWith w ic l).filter q = l.filter q
  | 0, l, hl => by
      rw [chunkWith, dif_neg]
      intro hcontra
      omega
  | n + 1, l, hl => by
      rw [chunkWith]
      by_cases h : 0 < w ∧ w ≤ l.length
      · rw [dif_pos h]
        have hics : ic.filter q = [] := by
          induction ic with
          | nil => rfl
          | cons c t iht =>
              rw [List.filter_cons, if_neg (by simp [hic c (by simp)])]
              exact iht (fun d hd => hic d (by simp [hd]))
        have hdrop : (l.drop w).length ≤ n := by
          rw [List.length_drop]
          omega
        rw [List.filter_append, List.filter_append,
          filter_chunkWith hic hr hn w n (l.drop w) hdrop,
          List.filter_cons, if_neg (by simp [hr]),
          List.filter_cons, if_neg (by simp [hn]), hics,
          List.append_nil, ← List.filter_append, List.take_append_drop]
      · rw [dif_neg h]

/-- Characters of the chunked text come from the text or from the
inserted separators. -/
theorem mem_chunkWith {x : Char} {ic : List Char} (w : Nat) :
    ∀ (n : Nat) (l : List Char), l.length ≤ n →
    x ∈ chunkWith w ic l → x ∈ l ∨ x = '\r' ∨ x = '\n' ∨ x ∈ ic
  | 0, l, hl, hm => by
      rw [chunkWith, dif_neg (by intro hcontra; omega)] at hm
      exact Or.inl hm
  | n + 1, l, hl, hm => by
      rw [chunkWith] at hm
      by_cases h : 0 < w ∧ w ≤ l.length
      · rw [dif_pos h] at hm
        rw [List.mem_append, List.mem_append] at hm
        rcases hm with (hm | hm) | hm
        · exact Or.inl (List.mem_of_mem_take hm)
        · rw [List.mem_cons] at hm
          rcases hm with rfl | hm
          · exact Or.inr (Or.inl rfl)
          · rw [List.mem_cons] at hm
            rcases hm with rfl | hm
            · exact Or.inr (Or.inr (Or.inl rfl))
            · exact Or.inr (Or.inr (Or.inr hm))
        · have hdrop2 : (l.drop w).length ≤ n := by
            rw [List.length_drop]
            omega
          rcases mem_chunkWith w n (l.drop w) hdrop2 hm with hx | hx
          · exact Or.inl (List.mem_of_mem_drop hx)
          · exact Or.inr hx
      · rw [dif_neg h] at hm
        exact Or.inl hm

/-- `''.join(data.split())` does not change the base64-relevant
characters. -/
theorem filter_removeWs {q : Char → Bool}
    (hq : ∀ c, isPyWs c = true → q c = false) :
    ∀ l : List Char, (removeWs l).filter q = l.filter q
  | [] => rfl
  | c :: t => by
      have ht := filter_removeWs hq t
      rw [removeWs] at ht ⊢
      rw [List.filter_cons]
      by_cases hc : isPyWs c = true
      · rw [if_neg (by simp [hc])]
        conv_rhs => rw [List.filter_cons]
        rw [if_neg (by simp [hq c hc])]
        exact ht
      · rw [if_pos (by simp [Bool.eq_false_iff.mpr hc])]
        rw [List.filter_cons]
        conv_rhs => rw [List.filter_cons]
        by_cases hqc : q c = true
        · rw [if_pos hqc, if_pos hqc, ht]
        · rw [if_neg hqc, if_neg hqc]
          exact ht

theorem alookup_append_left {β : Type} :
    ∀ (A B : List (String × β)) (x : String) (v : β),
    alookup A x = some v → alookup (A ++ B) x = some v
  | [], _, _, _, h => by exact absurd h (by simp [alookup])
  | (k, w) :: t, B, x, v, h => by
      rw [alookup] at h
      rw [List.cons_append, alookup]
      by_cases hk : k = x
      · rwa [if_pos hk] at h ⊢
      · rw [if_neg hk] at h ⊢
        exact alookup_append_left t B x v h

theorem alookup_append_none {β : Type} :
    ∀ (A B : List (String × β)) (x : String),
    alookup A x = none → alookup (A ++ B) x = alookup B x
  | [], _, _, _ => rfl
  | (k, w) :: t, B, x, h => by
      rw [alookup] at h
      rw [List.cons_append, alookup]
      by_cases hk : k = x
      · rw [if_pos hk] at h
        exact absurd h (by simp)
      · rw [if_neg hk] at h ⊢
        exact alookup_append_none t B x h

/-- `dict.update` with fresh, pairwise-distinct keys appends. -/
theorem foldl_aupsert_fresh :
    ∀ (md : Metadata) (acc : Metadata),
    (∀ k ∈ md.map Prod.fst, alookup acc k = none) →
    (md.map Prod.fst).Nodup →
    md.foldl (fun a kv => aupsert a kv.1 kv.2) acc = acc ++ md
  | [], acc, _, _ => by simp
  | (k, v) :: t, acc, hfresh, hnd => by
      rw [List.foldl_cons]
      have hk : alookup acc k = none := hfresh k (by simp)
      rw [show aupsert acc (k, v).1 (k, v).2 = acc ++ [(k, v)] from
        aupsert_absent acc k v hk]
      rw [List.map_cons] at hnd
      obtain ⟨hknot, hndt⟩ := List.nodup_cons.mp hnd
      rw [foldl_aupsert_fresh t (acc ++ [(k, v)]) ?_ hndt]
      · simp
      · intro k2 hk2
        rw [alookup_append_none acc [(k, v)] k2 (hfresh k2 (by simp [hk2]))]
        rw [alookup]
        rw [if_neg ?_]
        · rfl
        · intro he
          exact hknot (he ▸ hk2)

/-- The metadata dict `encode_object` builds, when the user metadata does
not rebind the reserved keys: `fn` first, `bytes` second, then the user
entries in order. -/
theorem buildMdata_eq (fp fd : String) (md : Metadata)
    (hres : ∀ kv ∈ md, kv.1 ≠ "fn" ∧ kv.1 ≠ "bytes")
    (hnd : (md.map Prod.fst).Nodup) :
    buildMdata fp fd (some md)
      = ("fn", .jstr fp) :: ("bytes", .jnum (fd.length : Int)) :: md := by
  rw [buildMdata]
  rw [show (some md).getD [] = md from rfl]
  rw [foldl_aupsert_fresh md _ ?_ hnd]
  · rfl
  · intro k hk
    obtain ⟨kv, hkv, rfl⟩ := List.mem_map.mp hk
    obtain ⟨h1, h2⟩ := hres kv hkv
    rw [alookup, if_neg (fun he => h1 he.symm), alookup,
      if_neg (fun he => h2 he.symm)]
    rfl

theorem aerase_append {β : Type} (A B : List (String × β)) (x : String) :
    aerase (A ++ B) x = aerase A x ++ aerase B x := by
  simp [aerase, List.filter_append]

theorem aerase_of_not_mem {β : Type} (l : List (String × β)) (x : String)
    (h : ∀ kv ∈ l, kv.1 ≠ x) : aerase l x = l := by
  rw [aerase, List.filter_eq_self]
  intro kv hkv
  simp [h kv hkv]

theorem wfO_append :
    ∀ (A B : Metadata), wfO A = true → wfO B = true →
    wfO (A ++ B) = true
  | [], B, _, hB => hB
  | (k, v) :: t, B, hA, hB => by
      rw [wfO] at hA
      rw [List.cons_append, wfO]
      obtain ⟨⟨h1, h2⟩, h3⟩ := by simpa using hA
      simp only [h1, h2, Bool.true_and]
      exact wfO_append t B h3 hB

theorem jdump_obj_shape (kv : String × JVal) (kvs : List (String × JVal)) :
    ∃ A, jdumpL (.jobj (kv :: kvs)) = '\x7b' :: (A ++ ['\x7d']) := by
  refine ⟨['\n'] ++ ind 1 ++ jdumpFieldsL ['\n'] 1 (kv :: kvs) ++ ['\n']
    ++ ind 0, ?_⟩
  rw [jdumpL, jdumpV]

theorem replNl_brace_shape (ic A : List Char) :
    replNl ic ('\x7b' :: (A ++ ['\x7d']))
      = '\x7b' :: (replNl ic A ++ ['\x7d']) := by
  rw [replNl, if_neg (by decide), replNl_append]
  rfl


/-- The try-block on a message whose stripped `X-IFAP` value starts with
a brace: the text is taken as-is and parsed. -/
theorem tryParse_brace (F : FernetM) (cfg : Config) (v : String)
    (R : List Char) (hs : pyStripL v.data = '\x7b' :: R)
    (M : Metadata) (hj : jparseL ('\x7b' :: R) = some (.jobj M))
    (fpv : JVal) (hfn : alookup M "fn" = some fpv) :
    tryParse F cfg ⟨some v⟩ = .parsed fpv M := by
  rw [tryParse, hs]
  simp only [if_pos (show ('\x7b' :: R).take 1 = ['\x7b'] from rfl),
    hj, hfn]

/-- The try-block on a message whose stripped `X-IFAP` value does not
start with a brace: the text is Fernet-decrypted (with Python 2's
filtering base64 decode), then parsed. -/
theorem tryParse_enc (F : FernetM) (cfg : Config) (k : String)
    (hk : cfg.fernet = some k) (v : String) (s : List Char)
    (hs : pyStripL v.data = s) (hhead : ¬(s.take 1 = ['\x7b']))
    (X : String) (hdec : F.decrypt k ⟨s.filter isB64KeepCh⟩ = some X)
    (M : Metadata) (hj : jparseL X.data = some (.jobj M))
    (fpv : JVal) (hfn : alookup M "fn" = some fpv) :
    tryParse F cfg ⟨some v⟩ = .parsed fpv M := by
  rw [tryParse, hs]
  simp only [if_neg hhead, hk, fernetDecryptPy, hdec, Option.map,
    hj, hfn]

theorem alookup_none_of_keys {β : Type} :
    ∀ (l : List (String × β)) (x : String),
    (∀ kv ∈ l, kv.1 ≠ x) → alookup l x = none
  | [], _, _ => rfl
  | (k, v) :: t, x, h => by
      rw [alookup, if_neg (h (k, v) (by simp))]
      exact alookup_none_of_keys t x (fun kv hkv => h kv (by simp [hkv]))

theorem encode_enc (F : FernetM) (cfg : Config) (k : String)
    (h : cfg.encrypt = true) (hk : cfg.fernet = some k)
    (fp fd : String) (md : Option Metadata) :
    encode_object F cfg fp fd md = .ok
      { toAddr := ".. <to@ifap.example>",
        fromAddr := ".. <from@ifap.example>",
        subject := "...",
        xifap := ⟨reflowL [' '] 78 false
          (F.encrypt k (jdumpStr (padMdata (buildMdata fp fd md)))).data⟩,
        contentType := "application/x-ifap",
        cte := "7bit",
        filename := "ifap.enc",
        body := ⟨reflowL [] 78 false
          (F.encrypt k (padPayload fd)).data⟩ } := by
  simp [encode_object, maybe_encrypt, h, hk, Bind.bind, Except.bind, pure,
    Except.pure]

/-- C4 (as amended): encoding `(path, payload, metadata)` and then
parsing the message the way `synchronize` does recovers the path, the
`bytes` field as the original unpadded payload length, and the user
metadata once the transport-only keys `'_'` and `'fn'` are removed —
provided the user metadata does not rebind the reserved keys `fn`,
`bytes`, `_` (the original claim fails without this: `mdata.update`
lets user metadata override them), its keys are distinct, strings are
ASCII, and in encrypted mode the Fernet token round-trips through
Python 2's filtering base64 decode. -/
theorem claim_C4 (F : FernetM) (cfg : Config) (fp fd : String)
    (md : Metadata) (hfp : wfStr fp = true) (hmdo : wfO md = true)
    (hnd : (md.map Prod.fst).Nodup)
    (hres : ∀ kv ∈ md, kv.1 ≠ "fn" ∧ kv.1 ≠ "bytes" ∧ kv.1 ≠ "_")
    (hmode : cfg.encrypt = false
      ∨ ∃ k, cfg.encrypt = true ∧ cfg.fernet = some k
        ∧ (F.encrypt k (jdumpStr (padMdata
            (buildMdata fp fd (some md))))).data.all isB64KeepCh = true
        ∧ F.decrypt k ⟨(F.encrypt k (jdumpStr (padMdata
            (buildMdata fp fd (some md))))).data.filter isB64KeepCh⟩
          = some (jdumpStr (padMdata (buildMdata fp fd (some md))))) :
    ∃ msg m, encode_object F cfg fp fd (some md) = .ok msg
      ∧ tryParse F cfg (msgToRaw msg) = .parsed (.jstr fp) m
      ∧ alookup m "fn" = some (.jstr fp)
      ∧ alookup m "bytes" = some (.jnum (fd.length : Int))
      ∧ aerase (aerase m "_") "fn"
        = ("bytes", .jnum (fd.length : Int)) :: md := by
  have hMeq : buildMdata fp fd (some md)
      = ("fn", .jstr fp) :: ("bytes", .jnum (fd.length : Int)) :: md :=
    buildMdata_eq fp fd md (fun kv hkv => ⟨(hres kv hkv).1,
      (hres kv hkv).2.1⟩) hnd
  have hwfM : wfJ (.jobj (("fn", JVal.jstr fp)
      :: ("bytes", JVal.jnum (fd.length : Int)) :: md)) = true := by
    rw [wfJ, wfO, wfO]
    simp only [wfJ]
    simp [hfp, hmdo, show wfStr "fn" = true from rfl,
      show wfStr "bytes" = true from rfl]
  have hfnM : alookup (("fn", JVal.jstr fp)
      :: ("bytes", JVal.jnum (fd.length : Int)) :: md) "fn"
      = some (.jstr fp) := rfl
  have hbytesM : alookup (("fn", JVal.jstr fp)
      :: ("bytes", JVal.jnum (fd.length : Int)) :: md) "bytes"
      = some (.jnum (fd.length : Int)) := rfl
  have hkeysM : ∀ kv ∈ (("fn", JVal.jstr fp)
      :: ("bytes", JVal.jnum (fd.length : Int)) :: md), kv.1 ≠ "_" := by
    intro kv hkv
    rw [List.mem_cons, List.mem_cons] at hkv
    rcases hkv with rfl | rfl | hkv
    · simp
    · simp
    · exact (hres kv hkv).2.2
  have heraseM : aerase (aerase (("fn", JVal.jstr fp)
        :: ("bytes", JVal.jnum (fd.length : Int)) :: md) "_") "fn"
      = ("bytes", .jnum (fd.length : Int)) :: md := by
    rw [aerase_of_not_mem _ _ hkeysM]
    rw [show aerase (("fn", JVal.jstr fp)
        :: ("bytes", JVal.jnum (fd.length : Int)) :: md) "fn"
      = aerase (("bytes", JVal.jnum (fd.length : Int)) :: md) "fn" from by
      rw [aerase, aerase, List.filter_cons, if_neg (by simp)]]
    rw [show aerase (("bytes", JVal.jnum (fd.length : Int)) :: md) "fn"
      = ("bytes", JVal.jnum (fd.length : Int)) :: aerase md "fn" from by
      rw [aerase, aerase, List.filter_cons, if_pos (by simp)]]
    rw [aerase_of_not_mem md "fn" (fun kv hkv => (hres kv hkv).1)]
  rcases hmode with hpc | ⟨k, henc, hk, htok, hdec⟩
  · -- plaintext mode
    refine ⟨_, ("fn", JVal.jstr fp)
      :: ("bytes", JVal.jnum (fd.length : Int)) :: md,
      encode_plain F cfg hpc fp fd (some md), ?_, hfnM, hbytesM, heraseM⟩
    show tryParse F cfg ⟨some ⟨reflowL [' '] 78 true
      (jdumpStr (buildMdata fp fd (some md))).data⟩⟩ = _
    rw [hMeq]
    obtain ⟨A, hA⟩ := jdump_obj_shape ("fn", JVal.jstr fp)
      (("bytes", JVal.jnum (fd.length : Int)) :: md)
    refine tryParse_brace F cfg _ (replNl [' '] A ++ ['\x7d']) ?_ _ ?_ _
      hfnM
    · rw [show (⟨reflowL [' '] 78 true (jdumpStr (("fn", JVal.jstr fp)
          :: ("bytes", JVal.jnum (fd.length : Int)) :: md)).data⟩ :
          String).data
        = reflowL [' '] 78 true (jdumpL (.jobj (("fn", JVal.jstr fp)
          :: ("bytes", JVal.jnum (fd.length : Int)) :: md))) from rfl]
      rw [reflowL, if_pos rfl]
      rw [show ([' '] : List Char) ++ pyStripL (replNl [' ']
          (jdumpL (.jobj (("fn", JVal.jstr fp)
            :: ("bytes", JVal.jnum (fd.length : Int)) :: md))))
        = ' ' :: pyStripL (replNl [' ']
          (jdumpL (.jobj (("fn", JVal.jstr fp)
            :: ("bytes", JVal.jnum (fd.length : Int)) :: md)))) from rfl]
      rw [pyStripL_ws_cons (by decide), pyStripL_idem]
      rw [hA, replNl_brace_shape]
      exact pyStripL_two_ends _ (by decide) (by decide)
    · rw [show ('\x7b' : Char) :: (replNl [' '] A ++ ['\x7d'])
        = replNl [' '] ('\x7b' :: (A ++ ['\x7d'])) from
        (replNl_brace_shape _ _).symm]
      rw [← hA]
      exact jparseL_replNl_jdumpL _ hwfM
  · -- encrypted mode
    have hM2 : padMdata (buildMdata fp fd (some md))
        = (("fn", JVal.jstr fp)
            :: ("bytes", JVal.jnum (fd.length : Int)) :: md)
          ++ [("_", JVal.jstr ⟨(List.replicate 200 '_').take
            (148 - (jdumpL (.jobj (buildMdata fp fd (some md)))).length
              % 148)⟩)] := by
      rw [padMdata, aupsert_absent _ _ _
        (alookup_none_of_keys _ _ (hMeq ▸ hkeysM)), hMeq]
    have hwfM2 : wfJ (.jobj (padMdata (buildMdata fp fd (some md))))
        = true := by
      rw [hM2, wfJ]
      refine wfO_append _ _ (by rw [wfJ] at hwfM; exact hwfM) ?_
      have hpadwf : wfStr (⟨(List.replicate 200 '_').take
          (148 - (jdumpL (.jobj (buildMdata fp fd (some md)))).length
            % 148)⟩ : String) = true := by
        rw [wfStr]
        rw [List.all_eq_true]
        intro c hc
        rw [show (⟨(List.replicate 200 '_').take
            (148 - (jdumpL (.jobj (buildMdata fp fd (some md)))).length
              % 148)⟩ : String).data
          = (List.replicate 200 '_').take
            (148 - (jdumpL (.jobj (buildMdata fp fd (some md)))).length
              % 148) from rfl, List.take_replicate] at hc
        rw [List.eq_of_mem_replicate hc]
        decide
      simp only [wfO, wfJ, Bool.and_eq_true]
      exact ⟨⟨rfl, hpadwf⟩, trivial⟩
    have hfn2 : alookup (padMdata (buildMdata fp fd (some md))) "fn"
        = some (.jstr fp) := by
      rw [hM2]
      exact alookup_append_left _ _ _ _ hfnM
    have hbytes2 : alookup (padMdata (buildMdata fp fd (some md))) "bytes"
        = some (.jnum (fd.length : Int)) := by
      rw [hM2]
      exact alookup_append_left _ _ _ _ hbytesM
    have herase1 : aerase (("fn", JVal.jstr fp)
          :: ("bytes", JVal.jnum (fd.length : Int)) :: md) "fn"
        = ("bytes", .jnum (fd.length : Int)) :: md := by
      have h2 := heraseM
      rwa [aerase_of_not_mem _ _ hkeysM] at h2
    have herase2 : aerase (aerase (padMdata
          (buildMdata fp fd (some md))) "_") "fn"
        = ("bytes", .jnum (fd.length : Int)) :: md := by
      rw [hM2, aerase_append, aerase_of_not_mem _ _ hkeysM]
      rw [show aerase [("_", JVal.jstr ⟨(List.replicate 200 '_').take
          (148 - (jdumpL (.jobj (buildMdata fp fd (some md)))).length
            % 148)⟩)] "_" = [] from by
        rw [aerase, List.filter_cons, if_neg (by simp)]
        rfl]
      rw [List.append_nil]
      exact herase1
    refine ⟨_, padMdata (buildMdata fp fd (some md)),
      encode_enc F cfg k henc hk fp fd (some md), ?_, hfn2, hbytes2,
      herase2⟩
    show tryParse F cfg ⟨some ⟨reflowL [' '] 78 false
      (F.encrypt k (jdumpStr (padMdata
        (buildMdata fp fd (some md))))).data⟩⟩ = _
    have hfeq : (pyStripL (chunkWith (78 - ([' '] : List Char).length)
          [' '] (removeWs (F.encrypt k (jdumpStr (padMdata
            (buildMdata fp fd (some md))))).data))).filter isB64KeepCh
        = (F.encrypt k (jdumpStr (padMdata
            (buildMdata fp fd (some md))))).data.filter isB64KeepCh := by
      rw [filter_pyStripL (fun c h => ws_not_keep h)]
      rw [filter_chunkWith (fun c hc => by
          rw [List.mem_singleton] at hc
          rw [hc]
          decide) (by decide) (by decide)
        (78 - ([' '] : List Char).length) _ _ (le_refl _)]
      exact filter_removeWs (fun c h => ws_not_keep h) _
    refine tryParse_enc F cfg k hk _
      (pyStripL (chunkWith (78 - ([' '] : List Char).length) [' ']
        (removeWs (F.encrypt k (jdumpStr (padMdata
          (buildMdata fp fd (some md))))).data))) ?_ ?_
      (jdumpStr (padMdata (buildMdata fp fd (some md)))) ?_ _ ?_ _ hfn2
    · rw [show (⟨reflowL [' '] 78 false
          (F.encrypt k (jdumpStr (padMdata
            (buildMdata fp fd (some md))))).data⟩ : String).data
        = reflowL [' '] 78 false (F.encrypt k (jdumpStr (padMdata
            (buildMdata fp fd (some md))))).data from rfl]
      rw [reflowL, if_neg (by simp)]
      rw [show ([' '] : List Char) ++ pyStripL (chunkWith
          (78 - ([' '] : List Char).length) [' ']
          (removeWs (F.encrypt k (jdumpStr (padMdata
            (buildMdata fp fd (some md))))).data))
        = ' ' :: pyStripL (chunkWith (78 - ([' '] : List Char).length)
          [' '] (removeWs (F.encrypt k (jdumpStr (padMdata
            (buildMdata fp fd (some md))))).data)) from rfl]
      rw [pyStripL_ws_cons (by decide), pyStripL_idem]
    · intro hcontra
      have hmem : '\x7b' ∈ pyStripL (chunkWith
          (78 - ([' '] : List Char).length) [' ']
          (removeWs (F.encrypt k (jdumpStr (padMdata
            (buildMdata fp fd (some md))))).data)) := by
        have : '\x7b' ∈ (pyStripL (chunkWith
            (78 - ([' '] : List Char).length) [' ']
            (removeWs (F.encrypt k (jdumpStr (padMdata
              (buildMdata fp fd (some md))))).data))).take 1 := by
          rw [hcontra]
          simp
        exact List.mem_of_mem_take this
      have hmem2 := mem_pyStripL hmem
      rcases mem_chunkWith _ _ _ (le_refl _) hmem2 with hx | hx | hx | hx
      · have hx2 := List.mem_of_mem_filter hx
        have := List.all_eq_true.mp htok _ hx2
        exact absurd this (by decide)
      · exact absurd hx (by decide)
      · exact absurd hx (by decide)
      · rw [List.mem_singleton] at hx
        exact absurd hx (by decide)
    · rw [show (⟨(pyStripL (chunkWith (78 - ([' '] : List Char).length)
          [' '] (removeWs (F.encrypt k (jdumpStr (padMdata
            (buildMdata fp fd (some md))))).data))).filter isB64KeepCh⟩
          : String)
        = ⟨(F.encrypt k (jdumpStr (padMdata
            (buildMdata fp fd (some md))))).data.filter isB64KeepCh⟩
        from congrArg String.mk hfeq]
      exact hdec
    · exact jparseL_jdumpV (.jobj (padMdata (buildMdata fp fd (some md))))
        ['\n'] hwfM2 (by decide) (by decide)

/-- Counterexample to C4 as stated: user metadata `{"fn": "evil"}` is
merged by `mdata.update(metadata)` AFTER the reserved keys are set, so
the encoded message names path `"evil"` — parsing does not return the
path `"a"` that was passed to `encode_object`. -/
theorem claim_C4_cex :
    (∃ msg, encode_object idFernet plainCfg "a" ""
        (some [("fn", .jstr "evil")]) = .ok msg
      ∧ tryParse idFernet plainCfg (msgToRaw msg)
          = .parsed (.jstr "evil")
              [("fn", .jstr "evil"), ("bytes", .jnum 0)])
    ∧ JVal.jstr "evil" ≠ JVal.jstr "a" := by
  refine ⟨⟨_, rfl, ?_⟩, by decide⟩
  rfl

/-- Witness for C4 in plaintext mode with one user metadata entry. -/
theorem claim_C4_witness :
    (wfStr "a" = true ∧ wfO [("v", JVal.jnum 1)] = true
      ∧ (([("v", JVal.jnum 1)] : Metadata).map Prod.fst).Nodup
      ∧ (∀ kv ∈ ([("v", JVal.jnum 1)] : Metadata),
          kv.1 ≠ "fn" ∧ kv.1 ≠ "bytes" ∧ kv.1 ≠ "_")
      ∧ plainCfg.encrypt = false)
    ∧ ∃ msg m, encode_object idFernet plainCfg "a" "hi"
          (some [("v", JVal.jnum 1)]) = .ok msg
        ∧ tryParse idFernet plainCfg (msgToRaw msg) = .parsed (.jstr "a") m
        ∧ alookup m "fn" = some (.jstr "a")
        ∧ alookup m "bytes" = some (.jnum (("hi" : String).length : Int))
        ∧ aerase (aerase m "_") "fn"
          = ("bytes", .jnum (("hi" : String).length : Int))
            :: [("v", JVal.jnum 1)] :=
  ⟨⟨by decide, by decide, by decide, by decide, rfl⟩,
    claim_C4 idFernet plainCfg "a" "hi" [("v", JVal.jnum 1)]
      (by decide) (by decide) (by decide) (by decide) (Or.inl rfl)⟩

/-! ### Claims C1 and C5: invariants of the reverse scan -/

/-- Index consistency: every entry was put there by a message that
parses to exactly that (hashable, non-snapshot) path. -/
def consT (F : FernetM) (cfg : Config) (msgs : List (Nat × Fetched))
    (t : Tree) : Prop :=
  ∀ p sq md2, treelookup t p = some (sq, md2) →
    pathAt F cfg msgs sq = some p ∧ unhashable p = false
      ∧ p ≠ .jstr SNAPSHOT_FILE_PATH

/-- Deletion-queue invariant: every queued sequence parses to a path the
Index holds at a strictly larger sequence. -/
def delInv (F : FernetM) (cfg : Config) (msgs : List (Nat × Fetched))
    (st : ScanSt) : Prop :=
  ∀ q ∈ st.toDel, ∃ p, pathAt F cfg msgs q = some p
    ∧ treeSeqD st.tree p > (q : Int)

/-- Domination: if the message parses to a non-snapshot path, the Index
already records that path at a sequence at least as large. -/
def domQ (F : FernetM) (cfg : Config) (msgs : List (Nat × Fetched))
    (t : Tree) (q : Nat) : Prop :=
  ∀ p, pathAt F cfg msgs q = some p →
    p = .jstr SNAPSHOT_FILE_PATH ∨ treeSeqD t p ≥ (q : Int)

/-- A message the scan can handle without raising: fetch error, caught
parse failure, or a parse to a hashable value. -/
def benignQ (F : FernetM) (cfg : Config) (msgs : List (Nat × Fetched))
    (q : Nat) : Bool :=
  match fetchOf msgs q with
  | .fetchErr => true
  | .ok raw =>
      match tryParse F cfg raw with
      | .broken => true
      | .typeErr => false
      | .parsed fp _ => !unhashable fp

theorem treelookup_upsert :
    ∀ (t : Tree) (k : JVal) (v : Nat × Metadata) (p : JVal),
    treelookup (treeUpsert t k v) p
      = if p = k then some v else treelookup t p
  | [], k, v, p => by
      rw [treeUpsert]
      conv_lhs => rw [treelookup]
      by_cases hp : p = k
      · rw [if_pos (show k = p from hp.symm), if_pos hp]
      · rw [if_neg (show ¬(k = p) from fun h => hp h.symm), if_neg hp,
          treelookup]
  | (k2, v2) :: tl, k, v, p => by
      rw [treeUpsert]
      by_cases hk2 : k2 = k
      · rw [if_pos hk2]
        conv_lhs => rw [treelookup]
        by_cases hp : p = k
        · rw [if_pos (show k2 = p from hk2.trans hp.symm), if_pos hp]
        · rw [if_neg (show ¬(k2 = p) from fun h => hp (h.symm.trans hk2)),
            if_neg hp]
          conv_rhs => rw [treelookup]
          rw [if_neg (show ¬(k2 = p) from fun h => hp (h.symm.trans hk2))]
      · rw [if_neg hk2]
        conv_lhs => rw [treelookup]
        by_cases hp2 : k2 = p
        · rw [if_pos hp2,
            if_neg (show ¬(p = k) from fun h => hk2 (hp2.trans h))]
          conv_rhs => rw [treelookup]
          rw [if_pos hp2]
        · rw [if_neg hp2, treelookup_upsert tl k v p]
          by_cases hp : p = k
          · rw [if_pos hp, if_pos hp]
          · rw [if_neg hp, if_neg hp]
            conv_rhs => rw [treelookup]
            rw [if_neg hp2]

theorem treeSeqD_of_lookup {t : Tree} {p : JVal} {sq : Nat}
    {md2 : Metadata} (h : treelookup t p = some (sq, md2)) :
    treeSeqD t p = (sq : Int) := by
  rw [treeSeqD, h]

theorem treeSeqD_upsert (t : Tree) (k : JVal) (sq : Nat) (m2 : Metadata)
    (p : JVal) :
    treeSeqD (treeUpsert t k (sq, m2)) p
      = if p = k then (sq : Int) else treeSeqD t p := by
  rw [treeSeqD, treelookup_upsert]
  by_cases hp : p = k
  · rw [if_pos hp, if_pos hp]
  · rw [if_neg hp, if_neg hp, treeSeqD]

theorem treeSeqD_nonneg_lookup {t : Tree} {p : JVal}
    (h : treeSeqD t p ≥ 0) :
    ∃ sq md2, treelookup t p = some (sq, md2) := by
  rw [treeSeqD] at h
  cases hl : treelookup t p with
  | none =>
      rw [hl] at h
      exact absurd h (by decide)
  | some v =>
      obtain ⟨sq, md2⟩ := v
      exact ⟨sq, md2, rfl⟩

theorem nlookup_mem {β : Type} :
    ∀ (l : List (Nat × β)) (q : Nat) (f : β),
    nlookup l q = some f → q ∈ l.map Prod.fst
  | [], _, _, h => by exact absurd h (by simp [nlookup])
  | (k, v) :: t, q, f, h => by
      rw [nlookup] at h
      by_cases hk : k = q
      · simp [hk]
      · rw [if_neg hk] at h
        simp [nlookup_mem t q f h]

theorem fetchOf_ok_nlookup {msgs : List (Nat × Fetched)} {q : Nat}
    {raw : RawMsg} (h : fetchOf msgs q = .ok raw) :
    nlookup msgs q = some (.ok raw) := by
  rw [fetchOf] at h
  cases hn : nlookup msgs q with
  | none =>
      rw [hn] at h
      exact absurd h (by simp)
  | some f =>
      rw [hn] at h
      have h2 : f = .ok raw := h
      rw [h2]

theorem pathAt_fetchErr {F : FernetM} {cfg : Config}
    {msgs : List (Nat × Fetched)} {q : Nat}
    (h : fetchOf msgs q = .fetchErr) : pathAt F cfg msgs q = none := by
  rw [pathAt]
  cases hn : nlookup msgs q with
  | none => rfl
  | some f =>
      rw [fetchOf, hn] at h
      have h2 : f = .fetchErr := h
      rw [h2]
      rfl

theorem pathAt_of_parsed {F : FernetM} {cfg : Config}
    {msgs : List (Nat × Fetched)} {q : Nat} {raw : RawMsg} {fp : JVal}
    {md2 : Metadata} (hf : fetchOf msgs q = .ok raw)
    (ht : tryParse F cfg raw = .parsed fp md2) :
    pathAt F cfg msgs q = some fp := by
  rw [pathAt, fetchOf_ok_nlookup hf]
  simp [parsedPathOf, ht]

theorem pathAt_of_broken {F : FernetM} {cfg : Config}
    {msgs : List (Nat × Fetched)} {q : Nat} {raw : RawMsg}
    (hf : fetchOf msgs q = .ok raw)
    (ht : tryParse F cfg raw = .broken) :
    pathAt F cfg msgs q = none := by
  rw [pathAt, fetchOf_ok_nlookup hf]
  simp [parsedPathOf, ht]

theorem pathAt_inv {F : FernetM} {cfg : Config}
    {msgs : List (Nat × Fetched)} {q : Nat} {p : JVal}
    (h : pathAt F cfg msgs q = some p) :
    ∃ raw md2, fetchOf msgs q = .ok raw
      ∧ tryParse F cfg raw = .parsed p md2 := by
  rw [pathAt] at h
  cases hn : nlookup msgs q with
  | none =>
      rw [hn] at h
      exact absurd h (by simp)
  | some f =>
      rw [hn] at h
      simp only [Option.bind] at h
      cases f with
      | fetchErr =>
          rw [show parsedPathOf F cfg .fetchErr = none from rfl] at h
          exact absurd h (by simp)
      | ok raw =>
          cases ht : tryParse F cfg raw with
          | broken =>
              rw [show parsedPathOf F cfg (.ok raw) = none from by
                rw [parsedPathOf, ht]] at h
              exact absurd h (by simp)
          | typeErr =>
              rw [show parsedPathOf F cfg (.ok raw) = none from by
                rw [parsedPathOf, ht]] at h
              exact absurd h (by simp)
          | parsed fp md2 =>
              rw [show parsedPathOf F cfg (.ok raw) = some (fp, md2) from
                by rw [parsedPathOf, ht]] at h
              have hfp : fp = p := by simpa using h
              subst hfp
              exact ⟨raw, md2, by rw [fetchOf, hn], ht⟩

theorem pathAt_mem {F : FernetM} {cfg : Config}
    {msgs : List (Nat × Fetched)} {q : Nat} {p : JVal}
    (h : pathAt F cfg msgs q = some p) : q ∈ msgs.map Prod.fst := by
  rw [pathAt] at h
  cases hn : nlookup msgs q with
  | none =>
      rw [hn] at h
      exact absurd h (by simp)
  | some f => exact nlookup_mem msgs q f hn

theorem domQ_mono {F : FernetM} {cfg : Config}
    {msgs : List (Nat × Fetched)} {t1 t2 : Tree} {q : Nat}
    (hm : ∀ p, treeSeqD t1 p ≤ treeSeqD t2 p)
    (h : domQ F cfg msgs t1 q) : domQ F cfg msgs t2 q := by
  intro p hp
  rcases h p hp with hsnap | hge
  · exact Or.inl hsnap
  · exact Or.inr (le_trans hge (hm p))

theorem scan_main (F : FernetM) (cfg : Config)
    (msgs : List (Nat × Fetched)) :
    ∀ (L : List Nat) (st out : ScanSt),
    scanList F cfg msgs L st = .done out →
    consT F cfg msgs st.tree → delInv F cfg msgs st →
    consT F cfg msgs out.tree ∧ delInv F cfg msgs out
    ∧ (∀ p, treeSeqD st.tree p ≤ treeSeqD out.tree p)
    ∧ ∀ q ∈ L, domQ F cfg msgs out.tree q ∧ benignQ F cfg msgs q = true
  | [], st, out, hscan, hcons, hdel => by
      have hout : st = out := by
        have h2 : ScanOut.done st = .done out := hscan
        exact ScanOut.done.inj h2
      subst hout
      exact ⟨hcons, hdel, fun p => le_refl _, fun q hq => absurd hq
        (List.not_mem_nil q)⟩
  | q :: L2, st, out, hscan, hcons, hdel => by
      rw [scanList] at hscan
      by_cases hskip : st.toDel.contains q = true
      · -- already queued for deletion: skipped
        have hv : scanStep F cfg msgs q st = .done st := by
          rw [scanStep, if_pos hskip]
        rw [hv] at hscan
        have hscan2 : scanList F cfg msgs L2 st = .done out := hscan
        have hqmem : q ∈ st.toDel := by simpa using hskip
        obtain ⟨p0, hp0, ht0⟩ := hdel q hqmem
        obtain ⟨ih1, ih2, ih3, ih4⟩ :=
          scan_main F cfg msgs L2 st out hscan2 hcons hdel
        refine ⟨ih1, ih2, ih3, ?_⟩
        intro q' hq'
        rw [List.mem_cons] at hq'
        rcases hq' with rfl | hq'
        · constructor
          · refine domQ_mono ih3 ?_
            intro p hp
            rw [hp0] at hp
            obtain rfl : p0 = p := Option.some.inj hp
            exact Or.inr (le_of_lt ht0)
          · obtain ⟨sq0, md0, hlk0⟩ := treeSeqD_nonneg_lookup
              (le_of_lt (lt_of_le_of_lt (by exact_mod_cast Int.ofNat_nonneg q')
                ht0))
            obtain ⟨raw, md2, hf, ht⟩ := pathAt_inv hp0
            obtain ⟨_, hunh0, _⟩ := hcons p0 sq0 md0 hlk0
            simp [benignQ, hf, ht, hunh0]
        · exact ih4 q' hq'
      · cases hf : fetchOf msgs q with
        | fetchErr =>
            have hv : scanStep F cfg msgs q st
                = .done { st with broken := q :: st.broken } := by
              simp only [scanStep, if_neg hskip, hf]
            rw [hv] at hscan
            have hscan2 : scanList F cfg msgs L2
                { st with broken := q :: st.broken } = .done out := hscan
            obtain ⟨ih1, ih2, ih3, ih4⟩ := scan_main F cfg msgs L2 _ out
              hscan2 hcons hdel
            refine ⟨ih1, ih2, ih3, ?_⟩
            intro q' hq'
            rw [List.mem_cons] at hq'
            rcases hq' with rfl | hq'
            · refine ⟨?_, by simp [benignQ, hf]⟩
              intro p hp
              rw [pathAt_fetchErr hf] at hp
              exact absurd hp (by simp)
            · exact ih4 q' hq'
        | ok raw =>
            cases ht : tryParse F cfg raw with
            | broken =>
                have hv : scanStep F cfg msgs q st
                    = .done { st with broken := q :: st.broken } := by
                  simp only [scanStep, if_neg hskip, hf, ht]
                rw [hv] at hscan
                have hscan2 : scanList F cfg msgs L2
                    { st with broken := q :: st.broken } = .done out :=
                  hscan
                obtain ⟨ih1, ih2, ih3, ih4⟩ := scan_main F cfg msgs L2 _
                  out hscan2 hcons hdel
                refine ⟨ih1, ih2, ih3, ?_⟩
                intro q' hq'
                rw [List.mem_cons] at hq'
                rcases hq' with rfl | hq'
                · refine ⟨?_, by simp [benignQ, hf, ht]⟩
                  intro p hp
                  rw [pathAt_of_broken hf ht] at hp
                  exact absurd hp (by simp)
                · exact ih4 q' hq'
            | typeErr =>
                have hv : scanStep F cfg msgs q st = .raised st := by
                  simp only [scanStep, if_neg hskip, hf, ht]
                rw [hv] at hscan
                have hscan2 : ScanOut.raised st = .done out := hscan
                exact absurd hscan2 (by simp)
            | parsed fp md =>
                by_cases hsnap : fp = .jstr SNAPSHOT_FILE_PATH
                · have hv : scanStep F cfg msgs q st = .done st := by
                    simp only [scanStep, if_neg hskip, hf, ht,
                      if_pos hsnap]
                  rw [hv] at hscan
                  have hscan2 : scanList F cfg msgs L2 st = .done out :=
                    hscan
                  obtain ⟨ih1, ih2, ih3, ih4⟩ := scan_main F cfg msgs L2
                    st out hscan2 hcons hdel
                  refine ⟨ih1, ih2, ih3, ?_⟩
                  intro q' hq'
                  rw [List.mem_cons] at hq'
                  rcases hq' with rfl | hq'
                  · constructor
                    · intro p hp
                      rw [pathAt_of_parsed hf ht] at hp
                      obtain rfl : fp = p := Option.some.inj hp
                      exact Or.inl hsnap
                    · simp [benignQ, hf, ht, hsnap, unhashable]
                  · exact ih4 q' hq'
                · by_cases hunh : unhashable fp = true
                  · have hv : scanStep F cfg msgs q st = .raised st := by
                      simp only [scanStep, if_neg hskip, hf, ht,
                        if_neg hsnap, if_pos hunh]
                    rw [hv] at hscan
                    have hscan2 : ScanOut.raised st = .done out := hscan
                    exact absurd hscan2 (by simp)
                  · have hunh2 : unhashable fp = false :=
                      Bool.eq_false_iff.mpr hunh
                    by_cases hge : treeSeqD st.tree fp ≥ (q : Int)
                    · have hv : scanStep F cfg msgs q st = .done st := by
                        simp only [scanStep, if_neg hskip, hf, ht,
                          if_neg hsnap, if_neg hunh, if_pos hge]
                      rw [hv] at hscan
                      have hscan2 : scanList F cfg msgs L2 st = .done out
                        := hscan
                      obtain ⟨ih1, ih2, ih3, ih4⟩ := scan_main F cfg msgs
                        L2 st out hscan2 hcons hdel
                      refine ⟨ih1, ih2, ih3, ?_⟩
                      intro q' hq'
                      rw [List.mem_cons] at hq'
                      rcases hq' with rfl | hq'
                      · constructor
                        · refine domQ_mono ih3 ?_
                          intro p hp
                          rw [pathAt_of_parsed hf ht] at hp
                          obtain rfl : fp = p := Option.some.inj hp
                          exact Or.inr hge
                        · simp [benignQ, hf, ht, hunh2]
                      · exact ih4 q' hq'
                    · -- the update step
                      have hlt : treeSeqD st.tree fp < (q : Int) :=
                        lt_of_not_ge hge
                      have hmono1 : ∀ p, treeSeqD st.tree p ≤ treeSeqD
                          (treeUpsert st.tree fp
                            (q, aerase (aerase md "_") "fn")) p := by
                        intro p
                        rw [treeSeqD_upsert]
                        by_cases hp : p = fp
                        · rw [if_pos hp, hp]
                          exact le_of_lt hlt
                        · rw [if_neg hp]
                      have hcons2 : consT F cfg msgs (treeUpsert st.tree
                          fp (q, aerase (aerase md "_") "fn")) := by
                        intro p sq2 md3 hlk
                        rw [treelookup_upsert] at hlk
                        by_cases hp : p = fp
                        · rw [if_pos hp] at hlk
                          obtain ⟨hq2, hmd3⟩ := Prod.mk.inj
                            (Option.some.inj hlk)
                          subst hp
                          rw [← hq2]
                          exact ⟨pathAt_of_parsed hf ht, hunh2, hsnap⟩
                        · rw [if_neg hp] at hlk
                          exact hcons p sq2 md3 hlk
                      have hdom2 : domQ F cfg msgs (treeUpsert st.tree fp
                          (q, aerase (aerase md "_") "fn")) q := by
                        intro p hp
                        rw [pathAt_of_parsed hf ht] at hp
                        obtain rfl : fp = p := Option.some.inj hp
                        refine Or.inr ?_
                        rw [treeSeqD_upsert, if_pos rfl]
                      cases hlk : treelookup st.tree fp with
                      | some v0 =>
                          obtain ⟨s0, m0⟩ := v0
                          have hv : scanStep F cfg msgs q st = .done
                              { st with
                                tree := treeUpsert st.tree fp
                                  (q, aerase (aerase md "_") "fn"),
                                toDel := s0 :: st.toDel } := by
                            simp only [scanStep, if_neg hskip, hf, ht,
                              if_neg hsnap, if_neg hunh, if_neg hge, hlk]
                          rw [hv] at hscan
                          have hscan2 : scanList F cfg msgs L2
                              { st with
                                tree := treeUpsert st.tree fp
                                  (q, aerase (aerase md "_") "fn"),
                                toDel := s0 :: st.toDel } = .done out :=
                            hscan
                          have hdel2 : delInv F cfg msgs
                              { st with
                                tree := treeUpsert st.tree fp
                                  (q, aerase (aerase md "_") "fn"),
                                toDel := s0 :: st.toDel } := by
                            intro q' hq'
                            rw [show ({ st with
                                tree := treeUpsert st.tree fp
                                  (q, aerase (aerase md "_") "fn"),
                                toDel := s0 :: st.toDel } :
                              ScanSt).toDel = s0 :: st.toDel from rfl,
                              List.mem_cons] at hq'
                            rcases hq' with rfl | hq'
                            · obtain ⟨hps0, _, _⟩ := hcons fp q' m0 hlk
                              refine ⟨fp, hps0, ?_⟩
                              rw [show ({ st with
                                  tree := treeUpsert st.tree fp
                                    (q, aerase (aerase md "_") "fn"),
                                  toDel := q' :: st.toDel } :
                                ScanSt).tree = treeUpsert st.tree fp
                                  (q, aerase (aerase md "_") "fn")
                                from rfl]
                              rw [treeSeqD_upsert, if_pos rfl]
                              have hs0 : treeSeqD st.tree fp = (q' : Int)
                                := treeSeqD_of_lookup hlk
                              rw [hs0] at hlt
                              exact_mod_cast hlt
                            · obtain ⟨p0, hp0, ht0⟩ := hdel q' hq'
                              exact ⟨p0, hp0,
                                lt_of_lt_of_le ht0 (hmono1 p0)⟩
                          obtain ⟨ih1, ih2, ih3, ih4⟩ := scan_main F cfg
                            msgs L2 _ out hscan2 hcons2 hdel2
                          refine ⟨ih1, ih2, fun p =>
                            le_trans (hmono1 p) (ih3 p), ?_⟩
                          intro q' hq'
                          rw [List.mem_cons] at hq'
                          rcases hq' with rfl | hq'
                          · exact ⟨domQ_mono ih3 hdom2,
                              by simp [benignQ, hf, ht, hunh2]⟩
                          · exact ih4 q' hq'
                      | none =>
                          have hv : scanStep F cfg msgs q st = .done
                              { st with
                                tree := treeUpsert st.tree fp
                                  (q, aerase (aerase md "_") "fn"),
                                toDel := st.toDel } := by
                            simp only [scanStep, if_neg hskip, hf, ht,
                              if_neg hsnap, if_neg hunh, if_neg hge, hlk]
                          rw [hv] at hscan
                          have hscan2 : scanList F cfg msgs L2
                              { st with
                                tree := treeUpsert st.tree fp
                                  (q, aerase (aerase md "_") "fn"),
                                toDel := st.toDel } = .done out := hscan
                          have hdel2 : delInv F cfg msgs
                              { st with
                                tree := treeUpsert st.tree fp
                                  (q, aerase (aerase md "_") "fn"),
                                toDel := st.toDel } := by
                            intro q' hq'
                            obtain ⟨p0, hp0, ht0⟩ := hdel q' hq'
                            exact ⟨p0, hp0,
                              lt_of_lt_of_le ht0 (hmono1 p0)⟩
                          obtain ⟨ih1, ih2, ih3, ih4⟩ := scan_main F cfg
                            msgs L2 _ out hscan2 hcons2 hdel2
                          refine ⟨ih1, ih2, fun p =>
                            le_trans (hmono1 p) (ih3 p), ?_⟩
                          intro q' hq'
                          rw [List.mem_cons] at hq'
                          rcases hq' with rfl | hq'
                          · exact ⟨domQ_mono ih3 hdom2,
                              by simp [benignQ, hf, ht, hunh2]⟩
                          · exact ih4 q' hq'

theorem sync_ok_inv {F : FernetM} {cfg : Config} {b : Backend} {t : Tree}
    {st : ScanSt} {td : List Nat}
    (h : synchronize F cfg b t = .ok st td) :
    b.selectOk = true ∧ b.searchOk = true ∧ b.msgs.isEmpty = false
    ∧ scanList F cfg b.msgs (sortDesc (b.msgs.map Prod.fst))
        ⟨t, [], []⟩ = .done st := by
  rw [synchronize] at h
  by_cases h1 : b.selectOk = false
  · rw [if_pos h1] at h
    exact absurd h (by simp)
  · rw [if_neg h1] at h
    by_cases h2 : b.searchOk = false
    · rw [if_pos h2] at h
      exact absurd h (by simp)
    · rw [if_neg h2] at h
      by_cases h3 : b.msgs.isEmpty = true
      · rw [if_pos h3] at h
        exact absurd h (by simp)
      · rw [if_neg h3] at h
        have hsel : b.selectOk = true := by
          revert h1
          cases b.selectOk <;> simp
        have hsea : b.searchOk = true := by
          revert h2
          cases b.searchOk <;> simp
        have hemp : b.msgs.isEmpty = false := Bool.eq_false_iff.mpr h3
        refine ⟨hsel, hsea, hemp, ?_⟩
        cases hs : scanList F cfg b.msgs (sortDesc (b.msgs.map Prod.fst))
            { tree := t, broken := [], toDel := [] } with
        | raised st2 =>
            rw [hs] at h
            have h4 : SyncOut.typeError st2 = .ok st td := h
            exact absurd h4 (by simp)
        | done st2 =>
            rw [hs] at h
            have h4 : SyncOut.ok st2 (finalToDel b.msgs st2)
              = .ok st td := h
            obtain ⟨rfl, -⟩ := SyncOut.ok.inj h4
            rfl

theorem nlookup_append_some {β : Type} :
    ∀ (l : List (Nat × β)) (l2 : List (Nat × β)) (q : Nat) (x : β),
    nlookup l q = some x → nlookup (l ++ l2) q = some x
  | [], _, _, _, h => by exact absurd h (by simp [nlookup])
  | (k, v) :: tl, l2, q, x, h => by
      rw [nlookup] at h
      rw [List.cons_append, nlookup]
      by_cases hk : k = q
      · rwa [if_pos hk] at h ⊢
      · rw [if_neg hk] at h ⊢
        exact nlookup_append_some tl l2 q x h

theorem pathAt_append {F : FernetM} {cfg : Config}
    {ms : List (Nat × Fetched)} {x : Nat × Fetched} {q : Nat} {p : JVal}
    (h : pathAt F cfg ms q = some p) :
    pathAt F cfg (ms ++ [x]) q = some p := by
  rw [pathAt] at h ⊢
  cases hn : nlookup ms q with
  | none =>
      rw [hn] at h
      exact absurd h (by simp)
  | some f =>
      rw [hn] at h
      rw [nlookup_append_some ms [x] q f hn]
      exact h

/-- The empty deletion queue satisfies the queue invariant. -/
theorem delInv_start (F : FernetM) (cfg : Config)
    (msgs : List (Nat × Fetched)) (t : Tree) :
    delInv F cfg msgs ⟨t, [], []⟩ := by
  intro q hq
  exact absurd hq (List.not_mem_nil q)

/-- Every reachable client state has a consistent Index. -/
theorem reach_cons (F : FernetM) (cfg : Config) :
    ∀ (s : SysSt), Reach F cfg s → consT F cfg s.msgs s.tree := by
  intro s h
  induction h with
  | init =>
      intro p sq md2 hlk
      exact absurd hlk (by simp [treelookup])
  | app f hr ih =>
      intro p sq md2 hlk
      obtain ⟨hpath, hunh, hsnap⟩ := ih p sq md2 hlk
      exact ⟨pathAt_append hpath, hunh, hsnap⟩
  | sync st td hr hok ih =>
      obtain ⟨-, -, -, hscan⟩ := sync_ok_inv hok
      exact (scan_main F cfg _ _ _ _ hscan ih (delInv_start F cfg _ _)).1

theorem foldr_max_mem_le : ∀ (l : List Nat) (x : Nat), x ∈ l →
    x ≤ l.foldr max 0
  | [], x, h => absurd h (List.not_mem_nil x)
  | a :: t, x, h => by
      rw [List.foldr_cons]
      rw [List.mem_cons] at h
      rcases h with rfl | h
      · exact le_max_left _ _
      · exact le_trans (foldr_max_mem_le t x h) (le_max_right _ _)

theorem foldr_max_le : ∀ (l : List Nat) (b : Nat),
    (∀ x ∈ l, x ≤ b) → l.foldr max 0 ≤ b
  | [], _, _ => Nat.zero_le _
  | a :: t, b, h => by
      rw [List.foldr_cons]
      exact max_le (h a (by simp))
        (foldr_max_le t b (fun x hx => h x (by simp [hx])))

theorem mem_sortDesc {q : Nat} {l : List Nat} (h : q ∈ l) :
    q ∈ sortDesc l := by
  rw [sortDesc]
  exact (List.perm_insertionSort _ l).symm.subset h

/-- C1 (as amended): after any sequence of appends and completed
synchronize calls, a final completed synchronize leaves every Index
entry at the maximum sequence over ALL successfully parsed messages
naming that path — tombstones included, because the scan never inspects
a `del` key. -/
theorem claim_C1 (F : FernetM) (cfg : Config) (s : SysSt)
    (hr : Reach F cfg s) (st : ScanSt) (td : List Nat)
    (hs : synchronize F cfg ⟨true, true, s.msgs⟩ s.tree = .ok st td)
    (p : JVal) (sq : Nat) (md2 : Metadata)
    (hl : treelookup st.tree p = some (sq, md2)) :
    sq = maxNaming F cfg s.msgs p := by
  have hcons0 := reach_cons F cfg s hr
  obtain ⟨-, -, -, hscan⟩ := sync_ok_inv hs
  obtain ⟨hconsO, -, -, hdom⟩ := scan_main F cfg s.msgs _ _ st hscan
    hcons0 (delInv_start F cfg _ _)
  obtain ⟨hpath, hunh, hsnap⟩ := hconsO p sq md2 hl
  refine le_antisymm ?_ ?_
  · apply foldr_max_mem_le
    rw [namingSeqs, List.mem_filter]
    exact ⟨pathAt_mem hpath, by simp [hpath]⟩
  · apply foldr_max_le
    intro x hx
    rw [namingSeqs, List.mem_filter] at hx
    obtain ⟨hxk, hxp⟩ := hx
    have hxp2 : pathAt F cfg s.msgs x = some p := by
      simpa using hxp
    rcases (hdom x (mem_sortDesc hxk)).1 p hxp2 with hps | hge
    · exact absurd hps hsnap
    · rw [treeSeqD_of_lookup hl] at hge
      exact_mod_cast hge

/-- Counterexample to C1 as stated: appending a write of `"f"` at
sequence 1 and a tombstone for `"f"` (`del: true`) at sequence 2, then
synchronizing, leaves the Index pointing at sequence 2 — but the maximum
sequence of a successfully parsed NON-TOMBSTONE message naming `"f"` is
1: the code indexes tombstones like ordinary writes. -/
theorem claim_C1_cex :
    Reach idFernet plainCfg ⟨msgsTomb, 3, []⟩
    ∧ synchronize idFernet plainCfg ⟨true, true, msgsTomb⟩ []
        = .ok ⟨[(.jstr "f", 2, [("del", .jbool true)])], [], []⟩ [1]
    ∧ treelookup [(JVal.jstr "f", 2,
        ([("del", JVal.jbool true)] : Metadata))] (.jstr "f")
        = some (2, [("del", .jbool true)])
    ∧ spec_maxNonTomb idFernet plainCfg msgsTomb (.jstr "f") = 1
    ∧ (2 : Nat) ≠ 1 := by
  refine ⟨?_, rfl, rfl, rfl, by decide⟩
  exact Reach.app _ (Reach.app _ Reach.init)

/-- Witness for C1 on the tombstone folder: the surviving entry for
`"f"` sits at sequence 2, the maximum over all parsed messages naming
`"f"`. -/
theorem claim_C1_witness :
    (2 : Nat) = maxNaming idFernet plainCfg msgsTomb (.jstr "f") :=
  claim_C1 idFernet plainCfg ⟨msgsTomb, 3, []⟩
    (Reach.app _ (Reach.app _ Reach.init))
    ⟨[(.jstr "f", 2, [("del", .jbool true)])], [], []⟩ [1] rfl
    (.jstr "f") 2 [("del", .jbool true)] rfl

/-- A scan over benign messages all dominated by the Index mutates
nothing: the tree and the deletion queue come back unchanged. -/
theorem scan_fix (F : FernetM) (cfg : Config)
    (msgs : List (Nat × Fetched)) :
    ∀ (L : List Nat) (st : ScanSt), st.toDel = [] →
    (∀ q ∈ L, benignQ F cfg msgs q = true
      ∧ domQ F cfg msgs st.tree q) →
    ∃ br2, scanList F cfg msgs L st = .done ⟨st.tree, br2, st.toDel⟩
  | [], st, _, _ => ⟨st.broken, by rw [scanList]⟩
  | q :: L2, st, hdel0, hq => by
      obtain ⟨hben, hdom⟩ := hq q (by simp)
      have hskip : ¬(st.toDel.contains q = true) := by
        rw [hdel0]
        simp
      cases hf : fetchOf msgs q with
      | fetchErr =>
          have hv : scanStep F cfg msgs q st
              = .done { st with broken := q :: st.broken } := by
            simp only [scanStep, if_neg hskip, hf]
          obtain ⟨br2, hrec⟩ := scan_fix F cfg msgs L2
            { st with broken := q :: st.broken } hdel0
            (fun q' hq' => hq q' (by simp [hq']))
          refine ⟨br2, ?_⟩
          rw [scanList, hv]
          exact hrec
      | ok raw =>
          cases ht : tryParse F cfg raw with
          | broken =>
              have hv : scanStep F cfg msgs q st
                  = .done { st with broken := q :: st.broken } := by
                simp only [scanStep, if_neg hskip, hf, ht]
              obtain ⟨br2, hrec⟩ := scan_fix F cfg msgs L2
                { st with broken := q :: st.broken } hdel0
                (fun q' hq' => hq q' (by simp [hq']))
              refine ⟨br2, ?_⟩
              rw [scanList, hv]
              exact hrec
          | typeErr =>
              simp only [benignQ, hf, ht] at hben
              exact absurd hben (by simp)
          | parsed fp md =>
              have hunh2 : unhashable fp = false := by
                simp only [benignQ, hf, ht] at hben
                cases hu : unhashable fp
                · rfl
                · rw [hu] at hben
                  exact absurd hben (by simp)
              have hstep : scanStep F cfg msgs q st = .done st := by
                by_cases hsnap : fp = .jstr SNAPSHOT_FILE_PATH
                · simp only [scanStep, if_neg hskip, hf, ht,
                    if_pos hsnap]
                · have hge : treeSeqD st.tree fp ≥ (q : Int) :=
                    Or.resolve_left (hdom fp (pathAt_of_parsed hf ht))
                      hsnap
                  simp only [scanStep, if_neg hskip, hf, ht,
                    if_neg hsnap, if_pos hge]
                  rw [if_neg (show ¬(unhashable fp = true) from by
                    simp [hunh2])]
              obtain ⟨br2, hrec⟩ := scan_fix F cfg msgs L2 st hdel0
                (fun q' hq' => hq q' (by simp [hq']))
              refine ⟨br2, ?_⟩
              rw [scanList, hstep]
              exact hrec

/-- C5 (as amended): when the starting Index is consistent with the
folder (each entry names its own key through a message that parses to
it) and the first synchronize completes, a second synchronize against
the same folder also completes and leaves the Index exactly as the
first one did. -/
theorem claim_C5 (F : FernetM) (cfg : Config) (b : Backend) (t : Tree)
    (hcons : consT F cfg b.msgs t) (st1 : ScanSt) (td1 : List Nat)
    (h1 : synchronize F cfg b t = .ok st1 td1) :
    ∃ st2 td2, synchronize F cfg b st1.tree = .ok st2 td2
      ∧ st2.tree = st1.tree := by
  obtain ⟨hsel, hsea, hemp, hscan⟩ := sync_ok_inv h1
  obtain ⟨-, -, -, hdom⟩ := scan_main F cfg b.msgs _ _ st1 hscan hcons
    (delInv_start F cfg _ _)
  obtain ⟨br2, hfix⟩ := scan_fix F cfg b.msgs
    (sortDesc (b.msgs.map Prod.fst)) ⟨st1.tree, [], []⟩ rfl
    (fun q hq => ⟨(hdom q hq).2, (hdom q hq).1⟩)
  refine ⟨⟨st1.tree, br2, []⟩,
    finalToDel b.msgs ⟨st1.tree, br2, []⟩, ?_, rfl⟩
  rw [synchronize, if_neg (by simp [hsel]), if_neg (by simp [hsea]),
    if_neg (by simp [hemp]), hfix]

/-- Counterexample to C5 as stated: from the stale Index `{B: 2}` (no
message at sequence 2 names `B`), the first synchronize of the
`A`-at-2 / `B`-at-3 folder queues sequence 2 for deletion before it is
scanned, so `A` never enters the Index; the second synchronize then
admits `A`, and the Index differs. -/
theorem claim_C5_cex :
    synchronize idFernet plainCfg ⟨true, true, msgsAB⟩ staleTree
      = .ok ⟨[(.jstr "B", 3, [])], [], [2]⟩ [2]
    ∧ synchronize idFernet plainCfg ⟨true, true, msgsAB⟩
        [(.jstr "B", 3, [])]
      = .ok ⟨[(.jstr "B", 3, []), (.jstr "A", 2, [])], [], []⟩ []
    ∧ ([(JVal.jstr "B", (3 : Nat), ([] : Metadata)),
        (.jstr "A", 2, [])] : Tree) ≠ [(.jstr "B", 3, [])] := by
  exact ⟨rfl, rfl, by decide⟩

/-- Witness for C5 from the empty (trivially consistent) Index. -/
theorem claim_C5_witness :
    consT idFernet plainCfg msgsAB []
    ∧ ∃ st2 td2, synchronize idFernet plainCfg ⟨true, true, msgsAB⟩
        (ScanSt.tree ⟨[(.jstr "B", 3, []), (.jstr "A", 2, [])], [], []⟩)
        = .ok st2 td2
      ∧ st2.tree
        = (⟨[(.jstr "B", 3, []), (.jstr "A", 2, [])], [], []⟩ :
            ScanSt).tree :=
  ⟨fun p sq md2 h => absurd h (by simp [treelookup]),
    claim_C5 idFernet plainCfg ⟨true, true, msgsAB⟩ []
      (fun p sq md2 h => absurd h (by simp [treelookup]))
      ⟨[(.jstr "B", 3, []), (.jstr "A", 2, [])], [], []⟩ [] rfl⟩
